import Mathlib

/-!
# ddraid data path (zumastor, `branches/0.4/ddraid/kernel/dm-ddraid.c`)

A shallow embedding of the cluster RAID data path: the XOR parity codec, the
region table, the request dispatcher, the completion path and the protocol
engine, followed by theorems about them.

Conventions of the embedding

* Memory is addressed in `xor_t` lanes (8 bytes each).  A pointer is the index
  of the lane it points to; every pointer the codec handles is lane aligned
  because fragments are a multiple of `sizeof(xor_t)` bytes.
* A `struct region *` is represented by the region number it is hashed under.
  The table holds at most one record per number, so `find_region` recovers the
  record; a pointer whose record is gone denotes freed memory and the operation
  that dereferences it yields `none`.
* Operations that can fault (a `NULL` dereference, `BUG()`, a loop that runs
  off its buffer) return `Option`; `none` is the fault.
* The code is read sequentially: one operation runs to its end before the next
  starts.  Spin locks and the socket mutex therefore leave no trace in the state.
  Where a statement is about the points at which `region_lock` is released, the
  definitions named `..._unlocks` list the device at each `spin_unlock` of an
  operation.
* 32-bit words are naturals reduced modulo `2^32`.  A shift by 32 or more is
  undefined in C; the model takes the count modulo 32, and what is stated of the
  assertion of `ddraid_map` and of the region number is stated for counts
  below 32.
* `built` are the runs of the device as the file builds it (`NORAID 0`,
  `NOCALC 1`, `NOSYNC 1`); `reach` are runs that also enter the write path of
  `ddraid_map` behind the `NOSYNC` block.

The change list of `trunk/ddsnap/ddsnap.common.c` is embedded at the end of the
definitions.
-/

namespace ddraid

/-! ## Constants -/

def NORAID : Nat := 0
def NOCALC : Nat := 1
def NOSYNC : Nat := 1

def SECTOR_SHIFT : Nat := 9
def FINISH_FLAG : Nat := 4
def HASH_BUCKETS : Nat := 64
def MASK_BUCKETS : Nat := HASH_BUCKETS - 1
def MAX_MEMBERS : Nat := 10

def DESYNC_FLAG : Nat := 1
def DRAIN_FLAG : Nat := 2
def PAUSE_FLAG : Nat := 4

/-- Modelled from the spec: the kernel's `PAGE_CACHE_SHIFT`, which the sources
use but do not define.  The block size defaults to the host page size, 4 KiB in
the scenarios of the specification and in the `S4K*` strides of the codec. -/
def PAGE_CACHE_SHIFT : Nat := 12
def PAGE_CACHE_SIZE : Nat := 1 <<< PAGE_CACHE_SHIFT

/-- Linux's `EIO`, from the kernel headers. -/
def EIO : Int := 5

/-- Linux's `READ`, the data direction of a read bio. -/
def READ : Nat := 0

/-- Linux's `WRITE`, the data direction of a write bio. -/
def WRITE : Nat := 1

/-- The `~x` of a 32-bit `unsigned`. -/
def not32 (x : Nat) : Nat := 2 ^ 32 - 1 - x % 2 ^ 32

/-! ## Data model -/

/-- Models `typedef unsigned long long xor_t` -/
abbrev xor_t := Nat

/-- Memory, one `xor_t` per address. -/
abbrev memory := Nat → xor_t

def sizeof_xor_t : Nat := 8

structure bio_vec where
  bv_page : Nat
  bv_offset : Nat
  bv_len : Nat
deriving DecidableEq, Repr

/-- The fields of `struct bio` the driver reads; `bi_vcnt` is the length of
`bi_io_vec`. -/
structure bio where
  bi_sector : Nat
  bi_rw : Nat
  bi_size : Nat
  bi_io_vec : List bio_vec
deriving DecidableEq, Repr

def bio.bi_vcnt (b : bio) : Nat := b.bi_io_vec.length

def bio_data_dir (b : bio) : Nat := b.bi_rw &&& 1

/-- Models `struct region`; the `hash` link is the record's place in its bucket and
`wait` lists the bios of the `struct defer` entries in order. -/
structure region where
  count : Int
  flags : Nat
  regnum : Nat
  wait : List bio
deriving DecidableEq, Repr

/-- Models `struct retire`; `timer` tells whether a timer allocation hangs off it. -/
structure retire where
  region : Nat
  timer : Bool
deriving DecidableEq, Repr

/-- Models `struct devinfo`, without the device handles, sockets and exit semaphores. -/
structure devinfo where
  flags : Nat
  region_size_bits : Nat
  blocksize_bits : Nat
  fragsize_bits : Nat
  members : Nat
  more_work_sem : Int
  destroy_sem : Int
  hash : Nat → List region
  requests : List Nat
  releases : List retire
  bogus : List bio
  spare_region : Bool
  destroy_hold : Int
  highwater : Nat
  balance_acc : Nat
  balance_num : Nat
  balance_den : Nat
  balance : Nat
  dead : Int

def running (info : devinfo) : Bool := info.flags &&& FINISH_FLAG == 0

def frags_per_block_bits (info : devinfo) : Nat := info.blocksize_bits - info.fragsize_bits

def blocksize (info : devinfo) : Nat := 1 <<< info.blocksize_bits

/-! ## Parity codec -/

def S4K2 : Nat := 4096 / (2 * sizeof_xor_t)
def S4K4 : Nat := 4096 / (4 * sizeof_xor_t)
def S4K8 : Nat := 4096 / (8 * sizeof_xor_t)
def S4K16 : Nat := 4096 / (16 * sizeof_xor_t)

/-- The inner loop `while (n--) x ^= *(q += stride);` for `n ≥ 0`. -/
def xor_walk (mem : memory) (stride : Nat) : Nat → Nat → xor_t → xor_t
  | 0, _, x => x
  | n + 1, q, x => xor_walk mem stride n (q + stride) (x ^^^ mem (q + stride))

/-- One column of the general loop:
`int n = frags - 1; xor_t x = *v, *q = v; while (n--) x ^= *(q += stride);`.
With `n < 0` the countdown never meets zero inside the buffer: a fault. -/
def xor_column (frags : Int) (stride : Nat) (mem : memory) (v : Nat) : Option xor_t :=
  if frags - 1 < 0 then none
  else some (xor_walk mem stride (frags - 1).toNat v (mem v))

/-- The loops of shape `for (; p < limit; v++) *p++ = col(v);`, `col` being the
right-hand side evaluated on the memory as it stands. -/
def lane_loop (col : memory → Nat → Option xor_t) (limit : Nat) :
    Nat → memory → Nat → Nat → Option memory
  | 0, mem, _, p => if p < limit then none else some mem
  | fuel + 1, mem, v, p =>
    if p < limit then
      match col mem v with
      | none => none
      | some x => lane_loop col limit fuel (Function.update mem p x) (v + 1) (p + 1)
    else some mem

/-- Models `case 2:` of `compute_parity`, four lanes per round, each statement reading
the memory the previous one left. -/
def loop_2 (limit : Nat) : Nat → memory → Nat → Nat → Option memory
  | 0, mem, _, p => if p < limit then none else some mem
  | fuel + 1, mem, v, p =>
    if p < limit then
      let m0 := Function.update mem (p + 0) (mem (v + 0) ^^^ mem (v + 0 + S4K2))
      let m1 := Function.update m0 (p + 1) (m0 (v + 1) ^^^ m0 (v + 1 + S4K2))
      let m2 := Function.update m1 (p + 2) (m1 (v + 2) ^^^ m1 (v + 2 + S4K2))
      let m3 := Function.update m2 (p + 3) (m2 (v + 3) ^^^ m2 (v + 3 + S4K2))
      loop_2 limit fuel m3 (v + 4) (p + 4)
    else some mem

def col_4 (mem : memory) (v : Nat) : Option xor_t :=
  some (mem (v + 0 * S4K4) ^^^ mem (v + 1 * S4K4) ^^^ mem (v + 2 * S4K4) ^^^ mem (v + 3 * S4K4))

def col_8 (mem : memory) (v : Nat) : Option xor_t :=
  some (mem (v + 0 * S4K8) ^^^ mem (v + 1 * S4K8) ^^^ mem (v + 2 * S4K8) ^^^ mem (v + 3 * S4K8) ^^^
    mem (v + 4 * S4K8) ^^^ mem (v + 5 * S4K8) ^^^ mem (v + 6 * S4K8) ^^^ mem (v + 7 * S4K8))

def col_16 (mem : memory) (v : Nat) : Option xor_t :=
  some (mem (v + 0 * S4K16) ^^^ mem (v + 1 * S4K16) ^^^ mem (v + 2 * S4K16) ^^^ mem (v + 3 * S4K16) ^^^
    mem (v + 4 * S4K16) ^^^ mem (v + 5 * S4K16) ^^^ mem (v + 6 * S4K16) ^^^ mem (v + 7 * S4K16) ^^^
    mem (v + 8 * S4K16) ^^^ mem (v + 9 * S4K16) ^^^ mem (v + 10 * S4K16) ^^^ mem (v + 11 * S4K16) ^^^
    mem (v + 12 * S4K16) ^^^ mem (v + 13 * S4K16) ^^^ mem (v + 14 * S4K16) ^^^ mem (v + 15 * S4K16))

/-- Models `compute_parity(info, v, p)`: the memory after the call.  Each loop gets
`stride` rounds of fuel, one more than it can use. -/
def compute_parity (info : devinfo) (mem : memory) (v p : Nat) : Option memory :=
  let fragsize := 1 <<< info.fragsize_bits
  let frags : Int := (info.members : Int) - 1
  let stride := fragsize / sizeof_xor_t
  let limit := p + stride
  let sel : Int := if blocksize info = 4096 then frags else 0
  if sel = 2 then loop_2 limit (stride + 1) mem v p
  else if sel = 4 then lane_loop col_4 limit (stride + 1) mem v p
  else if sel = 8 then lane_loop col_8 limit (stride + 1) mem v p
  else if sel = 16 then lane_loop col_16 limit (stride + 1) mem v p
  else lane_loop (xor_column frags stride) limit (stride + 1) mem v p

/-- The loop of `verify_parity`. -/
def verify_loop (frags : Int) (stride limit : Nat) : Nat → memory → Nat → Nat → Option Int
  | 0, _, _, p => if p < limit then none else some 0
  | fuel + 1, mem, v, p =>
    if p < limit then
      match xor_column frags stride mem v with
      | none => none
      | some x => if mem p ^^^ x ≠ 0 then some (-1) else verify_loop frags stride limit fuel mem (v + 1) (p + 1)
    else some 0

/-- Models `verify_parity(info, v, p)`: `0` when the parity matches, `-1` otherwise. -/
def verify_parity (info : devinfo) (mem : memory) (v p : Nat) : Option Int :=
  let frags : Int := (info.members : Int) - 1
  let stride := (1 <<< info.fragsize_bits) / sizeof_xor_t
  let limit := p + stride
  verify_loop frags stride limit (stride + 1) mem v p

/-- Models `memcpy(d, s, n)` on lanes, for ranges that do not overlap. -/
def memcpy (mem : memory) (d s n : Nat) : memory :=
  fun a => if d ≤ a ∧ a < d + n then mem (s + (a - d)) else mem a

/-- The reconstruction step of `clone_read_endio` for one block, `dead >= 0`:
`d = s + (dead << fragsize_bits); memcpy(d, p + offset, 1 << fragsize_bits);
compute_parity(info, s, d);` with `s` the block and `pp = p + offset` the
block's parity fragment. -/
def reconstruct (info : devinfo) (mem : memory) (s pp : Nat) (dead : Nat) : Option memory :=
  let d := s + (dead <<< info.fragsize_bits) / sizeof_xor_t
  let mem1 := memcpy mem d pp ((1 <<< info.fragsize_bits) / sizeof_xor_t)
  compute_parity info mem1 s d

/-! ## Region table -/

def hash_region (value : Nat) : Nat := value &&& MASK_BUCKETS

def get_region (r : region) : region := { r with count := r.count + 1 }

/-- Models `atomic_dec_and_test`: the record after the decrement and whether it hit zero. -/
def put_region_test_zero (r : region) : region × Bool :=
  ({ r with count := r.count - 1 }, r.count - 1 == 0)

def region_count (r : region) : Int := r.count

def set_region_count (r : region) (value : Int) : region := { r with count := value }

def is_desynced (r : region) : Nat := r.flags &&& DESYNC_FLAG

def drain_region (r : region) : Nat := r.flags &&& DRAIN_FLAG

def find_region (info : devinfo) (regnum : Nat) : Option region :=
  (info.hash (hash_region regnum)).find? (fun r => r.regnum == regnum)

/-- Apply `f` to the first element that satisfies `p`. -/
def modify_first {α : Type} (p : α → Bool) (f : α → α) : List α → List α
  | [] => []
  | a :: l => if p a then f a :: l else a :: modify_first p f l

/-- A store through a `struct region *`: the record hashed under `regnum`
becomes `f` of itself. -/
def update_region (info : devinfo) (regnum : Nat) (f : region → region) : devinfo :=
  let bucket := modify_first (fun r => r.regnum == regnum) f (info.hash (hash_region regnum))
  { info with hash := Function.update info.hash (hash_region regnum) bucket }

/-- Models `insert_region`: empty wait list, record linked at the head of its bucket. -/
def insert_region (info : devinfo) (r : region) : devinfo :=
  let bucket := { r with wait := [] } :: info.hash (hash_region r.regnum)
  { info with hash := Function.update info.hash (hash_region r.regnum) bucket }

/-- Models `free_region_unlock`: the record is unlinked from its bucket and freed. -/
def free_region_unlock (info : devinfo) (regnum : Nat) : devinfo :=
  let bucket := (info.hash (hash_region regnum)).eraseP (fun r => r.regnum == regnum)
  { info with hash := Function.update info.hash (hash_region regnum) bucket }

/-- Models `restore_spare_region`: a spare is allocated unless one is there already. -/
def restore_spare_region (info : devinfo) : devinfo := { info with spare_region := true }

/-- Models `queue_request_lock` and `queue_request`: a `struct query` at the tail of
`requests`, and `up(&info->more_work_sem)`. -/
def queue_request (info : devinfo) (regnum : Nat) : devinfo :=
  { info with requests := info.requests ++ [regnum], more_work_sem := info.more_work_sem + 1 }

/-! ## Requests in flight -/

/-- Modelled from the spec: the messages the driver writes.  Their codes are
declared in `dm-ddraid.h`, which is not among the sources; the bodies are those
of the specification's external interfaces (a region number, an id, or none). -/
inductive message where
  | REQUEST_WRITE (regnum : Nat)
  | RELEASE_WRITE (regnum : Nat)
  | NEED_SERVER
  | REPLY_CONNECT_SERVER
  | IDENTIFY (id : Nat)
deriving DecidableEq, Repr

inductive endio where
  | clone_endio
  | clone_read_endio
  | clone_write_endio
  | bounce_read_endio
deriving DecidableEq, Repr

/-- Models `struct hook`; `region` is `none` for `NULL`, `parity` the parity clone. -/
structure hook where
  sector : Nat
  length : Nat
  region : Option Nat
  parity : Option bio
deriving DecidableEq, Repr

/-- A bio handed to a member device: by `generic_make_request` for a clone
(`bi_private` the parent, `bi_end_io` the completion) or by `submit_bdev`. -/
structure request where
  disk : Nat
  io : bio
  bi_private : Option bio
  bi_end_io : Option endio
deriving DecidableEq, Repr

/-- A parent bio while its clones are out: the count aliased onto `bi_bdev`
(`bio_hackcount`) and the hook aliased onto `bi_sector` (`bio_hackhook`). -/
structure stacked where
  parent : bio
  hackcount : Int
  hackhook : Option hook
deriving DecidableEq, Repr

/-- A bounce bio, the odd-sized read it stands in for, and the offset kept in
`bio_hacklong` of that read. -/
structure bounce_link where
  bounce : bio
  parent : bio
  hacklong : Nat
deriving DecidableEq, Repr

/-- The device together with what surrounds it: page memory, the page
allocator, the data socket, the member devices' queues, the armed timers, the
parents completed with `bio_endio` and the control socket. -/
structure machine where
  info : devinfo
  mem : memory
  next_page : Nat
  sock : List message
  submitted : List request
  stacked : List stacked
  bounces : List bounce_link
  timers : List retire
  ended : List (bio × Int)
  control : List message

/-- Models `kmap_atomic`: the lane a page starts at. -/
def kmap_atomic (page : Nat) : Nat := page * (PAGE_CACHE_SIZE / sizeof_xor_t)

def alloc_page (m : machine) : Nat × machine :=
  (m.next_page, { m with next_page := m.next_page + 1 })

def submit_bdev (m : machine) (b : bio) (disk : Nat) : machine :=
  let rq : request := { disk := disk, io := b, bi_private := none, bi_end_io := none }
  { m with submitted := m.submitted ++ [rq] }

def send_release (m : machine) (regnum : Nat) : machine :=
  { m with sock := m.sock ++ [message.RELEASE_WRITE regnum] }

/-! ## Dispatcher -/

/-- The vector of a data clone: fragment `disk` of every parent page. -/
def data_io_vec (info : devinfo) (disk : Nat) (io_vec : List bio_vec) : List bio_vec :=
  io_vec.map (fun sv =>
    { bv_page := sv.bv_page, bv_offset := disk <<< info.fragsize_bits,
      bv_len := 1 <<< info.fragsize_bits })

/-- The vector of the parity clone, built entry by entry from `vec` on; a page
is allocated whenever the offset wraps to zero and, unless `NOCALC`, the parity
of a written block is computed into it.  Page 0 stands for `NULL`. -/
def parity_io_vec (info : devinfo) (is_read : Bool) :
    Nat → List bio_vec → Nat → machine → Option (List bio_vec × machine)
  | _, [], _, m => some ([], m)
  | vec, sv :: rest, parity_page, m =>
    let offset := (vec <<< info.fragsize_bits) &&& (PAGE_CACHE_SIZE - 1)
    let pm := if offset = 0 then alloc_page m else (parity_page, m)
    let entry : bio_vec :=
      { bv_page := pm.1, bv_offset := offset, bv_len := 1 <<< info.fragsize_bits }
    let m1 :=
      if NOCALC = 0 ∧ ¬ is_read then
        (compute_parity info pm.2.mem (kmap_atomic sv.bv_page)
          (kmap_atomic pm.1 + offset / sizeof_xor_t)).map (fun mem => { pm.2 with mem := mem })
      else some pm.2
    match m1 with
    | none => none
    | some m2 =>
      match parity_io_vec info is_read (vec + 1) rest pm.1 m2 with
      | none => none
      | some (vs, m3) => some (entry :: vs, m3)

/-- One round of the `for (disk = 0; disk < disks; disk++)` loop of `submit_rw`. -/
def submit_clone (info : devinfo) (b : bio) (endio : endio) (st : machine × hook) (disk : Nat) :
    Option (machine × hook) :=
  let is_parity := decide ((disk : Int) = (info.members : Int) - 1)
  let is_read := bio_data_dir b == READ
  if (disk : Int) = info.dead then some st
  else
    let built :=
      if is_parity then parity_io_vec info is_read 0 b.bi_io_vec 0 st.1
      else some (data_io_vec info disk b.bi_io_vec, st.1)
    match built with
    | none => none
    | some (vs, m) =>
      let clone : bio :=
        { bi_sector := b.bi_sector >>> frags_per_block_bits info, bi_rw := b.bi_rw,
          bi_size := b.bi_vcnt <<< info.fragsize_bits, bi_io_vec := vs }
      let hk := if is_parity then { st.2 with parity := some clone } else st.2
      let rq : request :=
        { disk := disk, io := clone, bi_private := some b, bi_end_io := some endio }
      some ({ m with submitted := m.submitted ++ [rq] }, hk)

/-- The rounds of the disk loop from `disk` on. -/
def submit_clones (info : devinfo) (b : bio) (endio : endio) :
    List Nat → machine × hook → Option (machine × hook)
  | [], st => some st
  | disk :: rest, st =>
    match submit_clone info b endio st disk with
    | none => none
    | some st1 => submit_clones info b endio rest st1

/-- Models `submit_rw(info, bio, synced, hook, endio)`.  The parent's count and hook
are recorded once the clones are built, the hook then pointing at the parity
clone as it does in the code through `hook->parity`. -/
def submit_rw (m : machine) (b : bio) (_synced : Nat) (hk : Option hook) (endio : endio) :
    Option machine :=
  let info := m.info
  let count : Int := (info.members : Int) - (if info.dead ≥ 0 then 1 else 0)
  let hk0 : hook := match hk with
    | none => { sector := 0, length := 0, region := none, parity := none }
    | some h => h
  let hk1 : hook := { hk0 with sector := b.bi_sector, length := b.bi_size }
  match submit_clones info b endio (List.range info.members) (m, hk1) with
  | none => none
  | some (m1, hk2) =>
    let st : stacked := { parent := b, hackcount := count, hackhook := some hk2 }
    some { m1 with stacked := m1.stacked ++ [st] }

/-- Models `submit_write(info, bio, region, hook)`. -/
def submit_write (m : machine) (b : bio) (regnum : Nat) : Option machine :=
  submit_rw m b 1 (some { sector := 0, length := 0, region := some regnum, parity := none })
    endio.clone_write_endio

/-- The read balancing step:
`if ((info->balance_acc += size) >= info->balance_den) { ... }`. -/
def balance_step (info : devinfo) (size : Nat) : devinfo :=
  let acc := (info.balance_acc + size) % 2 ^ 32
  if acc ≥ info.balance_den then
    let bal := (info.balance + 1) % 2 ^ 32
    let bal1 := if bal = info.members then 0 else bal
    { info with balance_acc := acc - info.balance_den, balance := bal1 }
  else { info with balance_acc := acc }

/-- The write path of `ddraid_map`, from `defer = alloc_gizmo()` to the end:
the code that negotiates a grant for the region. -/
def ddraid_map_write (m : machine) (b : bio) (regnum : Nat) : Option (Int × machine) :=
  match find_region m.info regnum with
  | none =>
    -- the spare is restored first when it is missing, then consumed
    let info1 := { m.info with spare_region := false }
    let info2 := insert_region info1 { count := 0, flags := 0, regnum := regnum, wait := [] }
    -- queue_query:
    let info3 := update_region info2 regnum (fun r => set_region_count r (-1))
    let info4 := queue_request info3 regnum
    let info5 := update_region info4 regnum (fun r => { r with wait := r.wait ++ [b] })
    let info6 := if ¬ info5.spare_region then restore_spare_region info5 else info5
    some (0, { m with info := info6 })
  | some r =>
    if region_count r ≥ 0 ∧ drain_region r = 0 then
      match submit_write { m with info := update_region m.info regnum get_region } b regnum with
      | none => none
      | some m1 => some (0, m1)
    else
      let info1 :=
        if region_count r = -2 then
          queue_request (update_region m.info regnum (fun r => set_region_count r (-1))) regnum
        else m.info
      let info2 := update_region info1 regnum (fun r => { r with wait := r.wait ++ [b] })
      let info3 := if ¬ info2.spare_region then restore_spare_region info2 else info2
      some (0, { m with info := info3 })

/-- The read path of `ddraid_map` that follows the `NOSYNC` block. -/
def ddraid_map_read (m : machine) (b : bio) : Option (Int × machine) :=
  let info := balance_step m.info b.bi_size
  let m1 := { m with info := info }
  if info.members = 2 then some (0, submit_bdev m1 b info.balance)
  else
    match submit_rw m1 b 1 none endio.clone_read_endio with
    | none => none
    | some m2 => some (0, m2)

/-- The value of `1 << info->region_size_bits` as `ddraid_map` compares it with
the unsigned size of the request.  The shift is a 32-bit one; a count of 32 or
more is undefined in C, and the model takes the count modulo 32 as the shift
instruction of the processor does. -/
def region_limit (info : devinfo) : Nat :=
  (1 <<< (info.region_size_bits % 32)) % 2 ^ 32

/-- The region number `ddraid_map` computes on entry:
`unsigned sector = bio->bi_sector;
region_t regnum = sector >> (info->region_size_bits - SECTOR_SHIFT);`.
Sector and count are 32-bit words; a count of 32 or more is undefined in C, and
the model takes the count modulo 32 as the shift instruction of the processor
does. -/
def ddraid_map_regnum (info : devinfo) (b : bio) : Nat :=
  let sector := b.bi_sector % 2 ^ 32
  sector >>> (((info.region_size_bits + 2 ^ 32 - SECTOR_SHIFT) % 2 ^ 32) % 32)

/-- Models `ddraid_map(target, bio)`: the return value and the state it leaves. -/
def ddraid_map (m : machine) (b : bio) : Option (Int × machine) :=
  let info := m.info
  let sectors_per_block := info.blocksize_bits - SECTOR_SHIFT
  let secmask := (1 <<< sectors_per_block) - 1
  let blockmask := blocksize info - 1
  let sector := b.bi_sector % 2 ^ 32
  let is_read := bio_data_dir b == READ
  let size := b.bi_size
  let regnum := ddraid_map_regnum info b
  if ¬ (size ≤ region_limit info) then none
  else if NORAID ≠ 0 then some (0, submit_bdev m b 0)
  else if sector &&& secmask ≠ 0 ∨ size &&& blockmask ≠ 0 then
    let o := ((sector <<< SECTOR_SHIFT) % 2 ^ 32) &&& blockmask
    if (sector &&& secmask) + (size >>> SECTOR_SHIFT) > 1 <<< sectors_per_block ∨ ¬ is_read then
      some (- EIO, m)
    else
      let pm := alloc_page m
      let bounce : bio :=
        { bi_sector := sector &&& not32 secmask, bi_rw := b.bi_rw, bi_size := blocksize info,
          bi_io_vec := [{ bv_page := pm.1, bv_offset := 0, bv_len := PAGE_CACHE_SIZE }] }
      let link : bounce_link := { bounce := bounce, parent := b, hacklong := o }
      let m1 := { pm.2 with bounces := pm.2.bounces ++ [link] }
      match submit_rw m1 bounce 1 none endio.clone_read_endio with
      | none => none
      | some m2 => some (0, m2)
  else if NOSYNC ≠ 0 then
    if is_read then
      let info1 := balance_step info size
      let m1 := { m with info := info1 }
      if info1.members = 2 then some (0, submit_bdev m1 b info1.balance)
      else
        match submit_rw m1 b 1 none endio.clone_read_endio with
        | none => none
        | some m2 => some (0, m2)
    else
      match submit_rw m b 1 none endio.clone_endio with
      | none => none
      | some m2 => some (0, m2)
  else if is_read then ddraid_map_read m b
  else ddraid_map_write m b regnum

/-- Models `ddraid_map_bogus`: requests arriving before the server has announced the
region size are parked on `info->bogus`. -/
def ddraid_map_bogus (m : machine) (b : bio) : Option (Int × machine) :=
  if m.info.region_size_bits = 2 ^ 32 - 1 then
    some (0, { m with info := { m.info with bogus := m.info.bogus ++ [b] } })
  else ddraid_map m b

/-! ## Completion path -/

def find_stacked (l : List stacked) (b : bio) : Option stacked :=
  l.find? (fun s => s.parent == b)

/-- Models `queue_release`: the retire record goes to the tail of `releases`. -/
def queue_release (info : devinfo) (r : retire) : devinfo :=
  { info with releases := info.releases ++ [r], more_work_sem := info.more_work_sem + 1 }

/-- Models `timer_release`: the `k`-th armed timer fires. -/
def timer_release (m : machine) (k : Nat) : machine :=
  match m.timers.get? k with
  | none => m
  | some r => { m with timers := m.timers.eraseIdx k, info := queue_release m.info r }

/-- Models `clone_write_endio` for a clone of `parent`.  The parity pages are freed and
the clone is put; neither leaves a trace in the state. -/
def clone_write_endio (m : machine) (parent : bio) (error : Int) : Option machine :=
  match find_stacked m.stacked parent with
  | none => none
  | some st =>
    if st.hackcount - 1 ≠ 0 then
      let rest := modify_first (fun s => s.parent == parent)
        (fun s => { s with hackcount := s.hackcount - 1 }) m.stacked
      some { m with stacked := rest }
    else
      match st.hackhook with
      | none => none
      | some hk =>
        match hk.region with
        | none => none
        | some regnum =>
          match find_region m.info regnum with
          | none => none
          | some r =>
            let info1 := update_region m.info regnum (fun r => (put_region_test_zero r).1)
            let m1 : machine :=
              if (put_region_test_zero r).2 then
                let info2 := update_region info1 regnum get_region
                let hold := info2.destroy_hold + 1
                let sem := if hold = 1 then info2.destroy_sem - 1 else info2.destroy_sem
                let info3 := { info2 with destroy_hold := hold, destroy_sem := sem }
                { m with info := info3, timers := m.timers ++ [{ region := regnum, timer := true }] }
              else { m with info := info1 }
            let rest := m1.stacked.eraseP (fun s => s.parent == parent)
            some { m1 with stacked := rest, ended := m1.ended ++ [(parent, error)] }

/-- The loop `for (vec = 0; vec < bio->bi_vcnt; vec++)` of `clone_read_endio`
with `n` rounds to go: with a dead member the missing fragment of the block is
rebuilt in place, otherwise the parity is checked and a mismatch only warned
about.  An index past the end of a vector is a fault. -/
def read_fixup (info : devinfo) (parent parity : bio) : Nat → Nat → memory → Option memory
  | 0, _, mem => some mem
  | n + 1, vec, mem =>
    match parent.bi_io_vec.get? vec, parity.bi_io_vec.get? vec with
    | some sv, some pv =>
      let s := kmap_atomic sv.bv_page
      let p := kmap_atomic pv.bv_page
      let offset := (vec <<< info.fragsize_bits) &&& (PAGE_CACHE_SIZE - 1)
      let mem1 :=
        if info.dead ≥ 0 then reconstruct info mem s (p + offset / sizeof_xor_t) info.dead.toNat
        else (verify_parity info mem s (p + offset / sizeof_xor_t)).map (fun _ => mem)
      match mem1 with
      | none => none
      | some mem2 => read_fixup info parent parity n (vec + 1) mem2
    | _, _ => none

/-- Models `clone_read_endio` for the clone `b` of `parent`.  On the last clone
the block is fixed up from the parity clone unless `NOCALC`, the parity pages
are freed and the parent is completed; freeing leaves no trace in the state. -/
def clone_read_endio (m : machine) (b parent : bio) (error : Int) : Option machine :=
  match find_stacked m.stacked parent with
  | none => none
  | some st =>
    if st.hackcount - 1 ≠ 0 then
      let rest := modify_first (fun s => s.parent == parent)
        (fun s => { s with hackcount := s.hackcount - 1 }) m.stacked
      some { m with stacked := rest }
    else
      match st.hackhook with
      | none => none
      | some hk =>
        let fixed : Option memory :=
          match hk.parity with
          | none => some m.mem
          | some parity =>
            if NOCALC = 0 then read_fixup m.info parent parity b.bi_vcnt 0 m.mem
            else some m.mem
        match fixed with
        | none => none
        | some mem1 =>
          let rest := m.stacked.eraseP (fun s => s.parent == parent)
          some { m with mem := mem1, stacked := rest, ended := m.ended ++ [(parent, error)] }

/-- Models `clone_endio` for a clone of `parent`: on the last clone the hook and
the parity pages are freed, which leaves no trace in the state, and the parent
is completed. -/
def clone_endio (m : machine) (parent : bio) (error : Int) : Option machine :=
  match find_stacked m.stacked parent with
  | none => none
  | some st =>
    if st.hackcount - 1 ≠ 0 then
      let rest := modify_first (fun s => s.parent == parent)
        (fun s => { s with hackcount := s.hackcount - 1 }) m.stacked
      some { m with stacked := rest }
    else
      let rest := m.stacked.eraseP (fun s => s.parent == parent)
      some { m with stacked := rest, ended := m.ended ++ [(parent, error)] }

/-- Models `bounce_read_endio`, which `bio_endio` runs for a bounce bio: the
bytes read for the odd request are copied from the bounce page to the page
of the request (offsets and length taken in whole lanes), the bounce page is
freed and the request is completed. -/
def bounce_read_endio (m : machine) (bounce : bio) (error : Int) : Option machine :=
  match m.bounces.find? (fun l => l.bounce == bounce) with
  | none => none
  | some link =>
    match bounce.bi_io_vec.head?, link.parent.bi_io_vec.head? with
    | some bv, some pv =>
      let mem1 := memcpy m.mem (kmap_atomic pv.bv_page + pv.bv_offset / sizeof_xor_t)
        (kmap_atomic bv.bv_page + link.hacklong / sizeof_xor_t)
        (link.parent.bi_size / sizeof_xor_t)
      some { m with mem := mem1, bounces := m.bounces.eraseP (fun l => l.bounce == bounce),
                    ended := m.ended ++ [(link.parent, error)] }
    | _, _ => none

/-! ## Protocol engine -/

/-- Models `release_region_unlock(info, region)`. -/
def release_region_unlock (m : machine) (regnum : Nat) : Option machine :=
  match find_region m.info regnum with
  | none => none
  | some r =>
    if r.wait ≠ [] then
      let info1 := update_region m.info regnum (fun r =>
        { r with flags := r.flags &&& not32 DRAIN_FLAG, count := -1 })
      let m1 := send_release { m with info := info1 } regnum
      some { m1 with info := queue_request m1.info r.regnum }
    else if is_desynced r ≠ 0 ∧ r.regnum < m.info.highwater then
      some { m with info := update_region m.info regnum (fun r => set_region_count r (-2)) }
    else
      some (send_release { m with info := free_region_unlock m.info regnum } regnum)

/-- Models `send_next_request_locked`: the head of `requests` goes out as
`REQUEST_WRITE`. -/
def send_next_request_locked (m : machine) : machine :=
  match m.info.requests with
  | [] => m
  | regnum :: rest =>
    { m with info := { m.info with requests := rest },
             sock := m.sock ++ [message.REQUEST_WRITE regnum] }

/-- The loop "Send write request messages" of `worker`. -/
def worker_requests : Nat → machine → Option machine
  | 0, m =>
    if m.info.requests ≠ [] ∧ m.info.flags &&& (FINISH_FLAG ||| PAUSE_FLAG) = 0 then none
    else some m
  | fuel + 1, m =>
    if m.info.requests ≠ [] ∧ m.info.flags &&& (FINISH_FLAG ||| PAUSE_FLAG) = 0 then
      worker_requests fuel (send_next_request_locked m)
    else some m

/-- The body of the loop "Send write release messages" of `worker`: the head
of `releases` is taken off and processed. -/
def worker_retire (m : machine) : Option machine :=
  match m.info.releases with
  | [] => some m
  | rt :: rest =>
    let m1 := { m with info := { m.info with releases := rest } }
    match find_region m1.info rt.region with
    | none => none
    | some r =>
      let m2 := { m1 with info := update_region m1.info rt.region (fun r => (put_region_test_zero r).1) }
      if ¬ (put_region_test_zero r).2 then some m2
      else
        match release_region_unlock m2 rt.region with
        | none => none
        | some m3 =>
          let hold := m3.info.destroy_hold - 1
          let sem := if hold = 0 then m3.info.destroy_sem + 1 else m3.info.destroy_sem
          some { m3 with info := { m3.info with destroy_hold := hold, destroy_sem := sem } }

/-- The loop "Send write release messages" of `worker`. -/
def worker_releases : Nat → machine → Option machine
  | 0, m => if m.info.releases ≠ [] ∧ running m.info then none else some m
  | fuel + 1, m =>
    if m.info.releases ≠ [] ∧ running m.info then
      match worker_retire m with
      | none => none
      | some m1 => worker_releases fuel m1
    else some m

/-- One round of the `while (running(info))` loop of `worker`. -/
def worker (m : machine) : Option machine :=
  let m1 := { m with info := { m.info with more_work_sem := m.info.more_work_sem - 1 } }
  match worker_requests m1.info.requests.length m1 with
  | none => none
  | some m2 => worker_releases m2.info.releases.length m2

/-- The loop of `do_defered` that submits the deferred writes of a region. -/
def drain_wait (regnum : Nat) : Nat → machine → Option machine
  | 0, m =>
    match find_region m.info regnum with
    | none => none
    | some r => if r.wait ≠ [] then none else some m
  | fuel + 1, m =>
    match find_region m.info regnum with
    | none => none
    | some r =>
      match r.wait with
      | [] => some m
      | b :: rest =>
        let info1 := update_region m.info regnum (fun r => get_region { r with wait := rest })
        match submit_write { m with info := info1 } b regnum with
        | none => none
        | some m1 => drain_wait regnum fuel m1

/-- Models `do_defered(info, message, synced)`. -/
def do_defered (m : machine) (regnum : Nat) (synced : Nat) : Option machine :=
  match find_region m.info regnum with
  | none => none
  | some r =>
    let info1 := update_region m.info regnum (fun r => set_region_count r 1)
    let info2 :=
      if is_desynced r = synced then
        update_region info1 regnum (fun r => { r with flags := r.flags ^^^ DESYNC_FLAG })
      else info1
    match drain_wait regnum r.wait.length { m with info := info2 } with
    | none => none
    | some m1 =>
      match find_region m1.info regnum with
      | none => none
      | some r1 =>
        let m2 := { m1 with info := update_region m1.info regnum (fun r => (put_region_test_zero r).1) }
        if (put_region_test_zero r1).2 then release_region_unlock m2 regnum else some m2

/-- Modelled from the spec: the messages the server sends on the data socket.
Their codes are declared in `dm-ddraid.h`, which is not among the sources; the
bodies are those of the specification's external interfaces.  `unknown` stands
for any code `incoming` has no case for. -/
inductive inbound where
  | REPLY_IDENTIFY (region_bits : Nat)
  | GRANT_SYNCED (regnum : Nat)
  | GRANT_UNSYNCED (regnum : Nat)
  | ADD_UNSYNCED (regnum : Nat)
  | DEL_UNSYNCED (regnum : Nat)
  | SET_HIGHWATER (regnum : Nat)
  | DRAIN_REGION (regnum : Nat)
  | PAUSE_REQUESTS
  | RESUME_REQUESTS
  | BOUNCE_REQUEST (regnum : Nat)
  | unknown (code : Nat)
deriving DecidableEq, Repr

/-- The loop of `case REPLY_IDENTIFY:` that feeds the bios parked on
`info->bogus` to `ddraid_map`. -/
def drain_bogus : Nat → machine → Option machine
  | 0, m => if m.info.bogus ≠ [] then none else some m
  | fuel + 1, m =>
    match m.info.bogus with
    | [] => some m
    | b :: rest =>
      match ddraid_map { m with info := { m.info with bogus := rest } } b with
      | none => none
      | some (_, m1) => drain_bogus fuel m1

/-- The loop of `case RESUME_REQUESTS:`: every queued query is sent. -/
def resume_requests : Nat → machine → Option machine
  | 0, m => if m.info.requests ≠ [] then none else some m
  | fuel + 1, m =>
    if m.info.requests ≠ [] then resume_requests fuel (send_next_request_locked m)
    else some m

/-- The `switch (message.head.code)` of `incoming`: what handling one message
from the server does. -/
def incoming_message (m : machine) : inbound → Option machine
  | inbound.REPLY_IDENTIFY region_bits =>
    let m1 := { m with info := { m.info with region_size_bits := region_bits } }
    match drain_bogus m1.info.bogus.length m1 with
    | none => none
    | some m2 => some { m2 with control := m2.control ++ [message.REPLY_CONNECT_SERVER] }
  | inbound.GRANT_SYNCED regnum => do_defered m regnum 1
  | inbound.GRANT_UNSYNCED regnum => do_defered m regnum 0
  | inbound.ADD_UNSYNCED regnum =>
    match find_region m.info regnum with
    | none =>
      -- the spare is restored first when it is missing, then consumed
      let info1 := { m.info with spare_region := false }
      some { m with info := insert_region info1 ⟨-2, DESYNC_FLAG, regnum, []⟩ }
    | some _ =>
      let info1 := update_region m.info regnum (fun r => { r with flags := r.flags ||| DESYNC_FLAG })
      some { m with info := info1 }
  | inbound.DEL_UNSYNCED regnum =>
    match find_region m.info regnum with
    | none => some m
    | some r =>
      let info1 := update_region m.info regnum (fun r =>
        { r with flags := r.flags &&& not32 DESYNC_FLAG })
      if region_count r = -2 then some { m with info := free_region_unlock info1 regnum }
      else some { m with info := info1 }
  | inbound.SET_HIGHWATER regnum => some { m with info := { m.info with highwater := regnum } }
  | inbound.DRAIN_REGION regnum =>
    match find_region m.info regnum with
    | none => some m
    | some r =>
      if region_count r ≥ 0 then
        let info1 := update_region m.info regnum (fun r => { r with flags := r.flags ||| DRAIN_FLAG })
        some { m with info := info1 }
      else some m
  | inbound.PAUSE_REQUESTS =>
    some { m with info := { m.info with flags := m.info.flags ||| PAUSE_FLAG } }
  | inbound.RESUME_REQUESTS =>
    let m1 := { m with info := { m.info with flags := m.info.flags &&& not32 PAUSE_FLAG } }
    resume_requests m1.info.requests.length m1
  | inbound.BOUNCE_REQUEST regnum => some { m with info := queue_request m.info regnum }
  | inbound.unknown _ => some m

/-! ### Where the region lock is released -/

/-- The device each time the write path of `ddraid_map` lets go of
`region_lock`: in `restore_spare_region` when the spare is missing, after
`get_region` on a region already granted, at `queue_query:` once the count is
-1, in `restore_spare_region` once the request is parked, and at the end. -/
def ddraid_map_write_unlocks (m : machine) (b : bio) (regnum : Nat) : List devinfo :=
  match find_region m.info regnum with
  | none =>
    let info1 := { m.info with spare_region := false }
    let info2 := insert_region info1 { count := 0, flags := 0, regnum := regnum, wait := [] }
    let info3 := update_region info2 regnum (fun r => set_region_count r (-1))
    let info4 := queue_request info3 regnum
    let info5 := update_region info4 regnum (fun r => { r with wait := r.wait ++ [b] })
    let info6 := if ¬ info5.spare_region then restore_spare_region info5 else info5
    (if ¬ m.info.spare_region then [m.info] else []) ++ [info3] ++
      (if ¬ info5.spare_region then [info5] else []) ++ [info6]
  | some r =>
    if region_count r ≥ 0 ∧ drain_region r = 0 then [update_region m.info regnum get_region]
    else
      let asked := update_region m.info regnum (fun r => set_region_count r (-1))
      let info1 := if region_count r = -2 then queue_request asked regnum else m.info
      let info2 := update_region info1 regnum (fun r => { r with wait := r.wait ++ [b] })
      let info3 := if ¬ info2.spare_region then restore_spare_region info2 else info2
      (if region_count r = -2 then [asked] else []) ++
        (if ¬ info2.spare_region then [info2] else []) ++ [info3]

/-- What one pass of the `while (running(info))` loop of `incoming` gets from
the data socket: `readpipe` fails on the head, or the head arrives and
`readpipe` fails on the body, or head and body arrive.  `length` is the field
`message.head.length` as sent.  Modelled from the spec: the head is
`{ u32 code; u32 length }`; it is declared in a header that is not among the
sources. -/
inductive arrival where
  | head_error (err : Int)
  | body_error (length : Nat) (err : Int)
  | packet (length : Nat) (msg : inbound)
deriving DecidableEq, Repr

/-- The value a 32-bit unsigned word has once it is stored in an `int`, as in
`length = message.head.length`. -/
def int_of_word (x : Nat) : Int :=
  if x % 2 ^ 32 < 2 ^ 31 then ((x % 2 ^ 32 : Nat) : Int) else ((x % 2 ^ 32 : Nat) : Int) - 2 ^ 32

/-- Where `incoming` stands after a pass: at the top of its loop, or returned
through `out:`. -/
inductive reader where
  | reading
  | exited
deriving DecidableEq, Repr

/-- The code at `socket_error:` of `incoming`: while the device is running it
jumps to `connect:`, where `NEED_SERVER` is written to the control socket and
the loop is entered again with the socket handed over; otherwise to `out:`. -/
def socket_error (m : machine) : machine × reader :=
  if running m.info then
    ({ m with control := m.control ++ [message.NEED_SERVER] }, reader.reading)
  else (m, reader.exited)

/-- One pass of the loop of `incoming`, the loop test included.  `maxbody` is
declared in `dm-ddraid.h`, which is not among the sources; the pass is modelled
for every value of it, compared as an `int` with the local `int length`. -/
def incoming_read (maxbody : Int) (m : machine) : arrival → Option (machine × reader)
  | arrival.head_error _ =>
    if ¬ running m.info then some (m, reader.exited) else some (socket_error m)
  | arrival.body_error length _ =>
    if ¬ running m.info then some (m, reader.exited)
    else if int_of_word length > maxbody then some (m, reader.exited)
    else some (socket_error m)
  | arrival.packet length msg =>
    if ¬ running m.info then some (m, reader.exited)
    else if int_of_word length > maxbody then some (m, reader.exited)
    else (incoming_message m msg).map (fun m1 => (m1, reader.reading))

/-! ## Construction -/

def EINVAL : Int := 22

/-- The scan of `fls`: the highest `r` below the bound with bit `r - 1` set. -/
def fls_scan : Nat → Nat → Nat
  | 0, _ => 0
  | r + 1, x => if 2 ^ r ≤ x then r + 1 else fls_scan r x

/-- Models the kernel's `fls(x)` on the 32-bit word `x`: one more than the index
of the highest set bit, and `0` for `0`. -/
def fls (x : Nat) : Nat := fls_scan 32 (x % 2 ^ 32)

/-- Models `sector_div(n, b)`: the remainder and the quotient left in `n`, the
divisor being the 32-bit word of `b`; dividing by zero is a fault. -/
def sector_div (n : Nat) (b : Int) : Option (Nat × Nat) :=
  let base := (b % 2 ^ 32).toNat
  if base = 0 then none else some (n % base, n / base)

/-- How the parameter checks of `ddraid_create` end: at `eek:` with the error
to return, or passed with the order `k` and the length of a member. -/
inductive create_result where
  | eek (err : Int)
  | checked (k : Nat) (member_len : Nat)
deriving DecidableEq, Repr

/-- The parameter checks of `ddraid_create`, from `err = -EINVAL` to the end of
the `DDRAID` block, for `argc` arguments, the `int members` parsed from the
first of them and a target of `len` sectors.  `argc` is unsigned, so `members`
is compared with `argc - 2` as a 32-bit word; `info->dead` is `-1` here.  At
`eek:` `ddraid_destroy` finds `target->private` unset and returns at once. -/
def ddraid_create (argc : Nat) (members : Int) (len : Nat) : Option create_result :=
  if members > (MAX_MEMBERS : Int) ∨ (members % 2 ^ 32).toNat > (argc + 2 ^ 32 - 2) % 2 ^ 32 then
    some (create_result.eek (- EINVAL))
  else
    let n : Int := members - 1
    let k : Int := (fls (n % 2 ^ 32).toNat : Int) - 1
    match sector_div len (members - 1) with
    | none => none
    | some (rem, member_len) =>
      if rem ≠ 0 then some (create_result.eek (- EINVAL))
      else if members < 2 ∨
          (not32 (((2 ^ 32 - 1) <<< k.toNat) % 2 ^ 32) &&& (n % 2 ^ 32).toNat) ≠ 0 then
        some (create_result.eek (- EINVAL))
      else if (-1 : Int) ≥ members then some (create_result.eek (- EINVAL))
      else some (create_result.checked k.toNat member_len)

/-! ## Change lists (`ddsnap.common.c`) -/

def CHUNK_ARRAY_INIT : Nat := 1024

/-- Modelled from the spec: `struct change_list` is declared in `ddsnap.h`,
which is not among the sources; the fields are those the two functions use,
and the counters are naturals since their width is declared there.  `room` is
not a field: it is the number of `u64` slots of the block `chunks` points at,
as the allocator knows it. -/
structure change_list where
  count : Nat
  length : Nat
  chunksize_bits : Nat
  src_snap : Nat
  tgt_snap : Nat
  chunks : Nat → Nat
  room : Nat

/-- Models `init_change_list`; `none` is the `NULL` it returns when one of the
two `malloc` calls fails (`got_cl`, `got_chunks`), and `junk` is what the fresh
array happens to hold. -/
def init_change_list (chunksize_bits src_snap tgt_snap : Nat) (got_cl got_chunks : Bool)
    (junk : Nat → Nat) : Option change_list :=
  if ¬ got_cl then none
  else if ¬ got_chunks then none
  else some { count := 0, length := CHUNK_ARRAY_INIT, chunksize_bits := chunksize_bits,
              src_snap := src_snap, tgt_snap := tgt_snap, chunks := junk,
              room := CHUNK_ARRAY_INIT }

/-- Models `append_change_list`: the value returned and the list afterwards.
`got` tells whether `realloc` succeeds when it is called; a store outside the
block `chunks` points at is a fault. -/
def append_change_list (cl : change_list) (chunkaddr : Nat) (got : Bool) :
    Option (Int × change_list) :=
  let grown : Option change_list :=
    if cl.count + 1 ≥ cl.length then
      if ¬ got then none
      else some { cl with length := cl.length * 2, room := cl.length * 2 }
    else some cl
  match grown with
  | none => some (-1, cl)
  | some cl1 =>
    if cl1.count < cl1.room then
      some (0, { cl1 with chunks := Function.update cl1.chunks cl1.count chunkaddr,
                          count := cl1.count + 1 })
    else none

/-! ## Definitions used in the statements -/

/-- The right-hand side of one statement of `case 2:`. -/
def col_2 (mem : memory) (v : Nat) : Option xor_t :=
  some (mem v ^^^ mem (v + S4K2))

/-! ### The codec as the specification words it -/

/-- Lane `i` of the parity of `frags` data fragments laid out from `v` with
the given stride: the XOR over `j < frags` of lane `j * stride + i`. -/
def parity_lane (mem : memory) (v stride frags i : Nat) : xor_t :=
  (List.range frags).foldl (fun x j => x ^^^ mem (v + (j * stride + i))) 0

/-- The layout `ddraid_create` establishes wherever an unrolled loop is taken:
the `frags` fragments fill the 4096-byte block. -/
def unrolled_layout (info : devinfo) : Prop :=
  blocksize info = 4096 →
    (info.members = 3 ∨ info.members = 5 ∨ info.members = 9 ∨ info.members = 17) →
    (info.members - 1) * (1 <<< info.fragsize_bits) = 4096

/-- The memory that holds the data of `data` and, in the `n` lanes from `p`,
the contents `par` has there. -/
def with_parity (data par : memory) (p n : Nat) : memory :=
  fun a => if p ≤ a ∧ a < p + n then par a else data a

/-- A device in the state `ddraid_create` leaves it in for `members = 2^k + 1`,
with the region size the server has announced. -/
def created (members k region_size_bits : Nat) : devinfo :=
  { flags := 0, region_size_bits := region_size_bits,
    blocksize_bits := PAGE_CACHE_SHIFT, fragsize_bits := PAGE_CACHE_SHIFT - k,
    members := members, more_work_sem := 0, destroy_sem := 1,
    hash := fun _ => [], requests := [], releases := [], bogus := [],
    spare_region := false, destroy_hold := 0, highwater := 0,
    balance_acc := 0, balance_num := 0, balance_den := 1 <<< 21, balance := 0, dead := -1 }

/-- The members a request is striped over: every member but the dead one. -/
def live_disks (info : devinfo) : List Nat :=
  (List.range info.members).filter (fun (d : Nat) => decide ((d : Int) ≠ info.dead))

/-- The requests `submitted` are the clones of `b`, one per live member in
member order, completing through `e`. -/
def striped (info : devinfo) (b : bio) (e : endio) (submitted : List request) : Prop :=
  submitted.map (fun rq => rq.disk) = live_disks info ∧
  ∀ rq, rq ∈ submitted → rq.bi_private = some b ∧ rq.bi_end_io = some e

/-- No bucket of the table holds two records for one region number. -/
def table_ok (info : devinfo) : Prop :=
  ∀ k, ((info.hash k).map (fun r => r.regnum)).Nodup

/-- A machine around `info` with nothing in flight and nothing sent. -/
def fresh (info : devinfo) : machine :=
  { info := info, mem := fun _ => 0, next_page := 1, sock := [], submitted := [],
    stacked := [], bounces := [], timers := [], ended := [], control := [] }

/-- A one-block write of 4096 bytes at `sector`, its data in `page`. -/
def write_4k (sector page : Nat) : bio :=
  { bi_sector := sector, bi_rw := WRITE, bi_size := 4096,
    bi_io_vec := [{ bv_page := page, bv_offset := 0, bv_len := 4096 }] }

/-- The device `info` with the record `r` linked into its bucket as it stands. -/
def with_record (info : devinfo) (r : region) : devinfo :=
  let bucket := r :: info.hash (hash_region r.regnum)
  { info with hash := Function.update info.hash (hash_region r.regnum) bucket }

/-- Region 0 requested with two writes parked on it. -/
def two_parked : machine :=
  fresh (with_record (created 3 1 16) ⟨-1, 0, 0, [write_4k 0 100, write_4k 8 101]⟩)

/-- Region 3 holding only the delayed-release hold, `DRAIN` set, one write
parked, and its retire record queued for the worker. -/
def drained_retire : machine :=
  fresh { with_record (created 3 1 16) ⟨1, DRAIN_FLAG, 3, [write_4k 384 100]⟩ with
    releases := [⟨3, true⟩] }

/-- Region 3 desynced and below the highwater, its count just down to zero and
nobody waiting. -/
def desynced_idle : machine :=
  fresh { with_record (created 3 1 16) ⟨0, DESYNC_FLAG, 3, []⟩ with highwater := 10 }

/-- A block of data whose lanes are all zero. -/
def zero_block : memory := fun _ => 0

/-- The zero block with lane 0 of fragment 0 and lane 0 of fragment 1 both set
to one (three members, 256 lanes per fragment). -/
def paired_change : memory := fun a => if a = 0 ∨ a = 256 then 1 else 0

/-- The column reads of lane `i` stay clear of the lanes the loop has already
written: true when the output lies outside the data, and when it is one of the
data fragments. -/
def no_clash (v p stride frags : Nat) : Prop :=
  ∀ i, i < stride → ∀ j, j < frags → ∀ k, k < i → v + (j * stride + i) ≠ p + k

/-- The requests of a list handed to `ddraid_map` one after the other. -/
def ddraid_map_each : machine → List bio → Option machine
  | m, [] => some m
  | m, b :: rest =>
    match ddraid_map m b with
    | none => none
    | some (_, m1) => ddraid_map_each m1 rest

/-- A one-block read of 4096 bytes at `sector` into `page`. -/
def read_4k (sector page : Nat) : bio :=
  { bi_sector := sector, bi_rw := READ, bi_size := 4096,
    bi_io_vec := [{ bv_page := page, bv_offset := 0, bv_len := 4096 }] }

/-- The `i`-th of a run of block-aligned reads of `balance_den / 16` bytes
(128 KiB, 256 sectors, 32 pages). -/
def read_128k (i : Nat) : bio :=
  { bi_sector := i * 256, bi_rw := READ, bi_size := (1 <<< 21) / 16,
    bi_io_vec := (List.range 32).map (fun j =>
      { bv_page := 100 + 32 * i + j, bv_offset := 0, bv_len := 4096 }) }

/-- The request does not start on a block boundary or is not a whole number of
blocks long. -/
def misaligned (info : devinfo) (b : bio) : Prop :=
  b.bi_sector % (blocksize info / 512) ≠ 0 ∨ b.bi_size % blocksize info ≠ 0

/-- The request lies inside the block it starts in. -/
def within_block (info : devinfo) (b : bio) : Prop :=
  (b.bi_sector % (blocksize info / 512)) * 512 + b.bi_size ≤ blocksize info

instance (info : devinfo) (b : bio) : Decidable (misaligned info b) := by
  unfold misaligned
  infer_instance

instance (info : devinfo) (b : bio) : Decidable (within_block info b) := by
  unfold within_block
  infer_instance

/-- The offset of an odd read inside its block, kept in `bio_hacklong`. -/
def odd_offset (info : devinfo) (b : bio) : Nat :=
  (((b.bi_sector % 2 ^ 32) <<< SECTOR_SHIFT) % 2 ^ 32) &&& (blocksize info - 1)

/-- The bounce bio `ddraid_map` builds for an odd read: the whole block around
it, read into the page `pp`. -/
def bounce_of (info : devinfo) (b : bio) (pp : Nat) : bio :=
  { bi_sector := (b.bi_sector % 2 ^ 32) &&& not32 ((1 <<< (info.blocksize_bits - SECTOR_SHIFT)) - 1),
    bi_rw := b.bi_rw, bi_size := blocksize info,
    bi_io_vec := [{ bv_page := pp, bv_offset := 0, bv_len := PAGE_CACHE_SIZE }] }

/-- The clone `submit_rw` builds for the data member `disk`: fragment `disk`
of every page of the parent. -/
def data_clone (info : devinfo) (b : bio) (disk : Nat) : bio :=
  { bi_sector := b.bi_sector >>> frags_per_block_bits info, bi_rw := b.bi_rw,
    bi_size := b.bi_vcnt <<< info.fragsize_bits,
    bi_io_vec := data_io_vec info disk b.bi_io_vec }

/-! ### Runs of the device -/

/-- What can happen to the device: a request enters through `ddraid_map_bogus`,
a write enters the grant-negotiating write path of `ddraid_map`, a clone of
`parent` completes through `clone_write_endio`, the `k`-th armed timer fires,
the worker makes a pass, `incoming` handles a message. -/
inductive event where
  | map (b : bio)
  | write (b : bio) (regnum : Nat)
  | complete (parent : bio) (error : Int)
  | timer (k : Nat)
  | work
  | receive (msg : inbound)
deriving DecidableEq, Repr

/-- The state an event leaves, `none` where the code faults. -/
def step (m : machine) : event → Option machine
  | event.map b => (ddraid_map_bogus m b).map (fun p => p.2)
  | event.write b regnum => (ddraid_map_write m b regnum).map (fun p => p.2)
  | event.complete parent error => clone_write_endio m parent error
  | event.timer k => some (timer_release m k)
  | event.work => worker m
  | event.receive msg => incoming_message m msg

/-- The server grants what was asked for: a grant names a region whose record
is in state REQUESTED (count -1). -/
def granted_on_request (m : machine) : event → Prop
  | event.receive (inbound.GRANT_SYNCED regnum) =>
    (find_region m.info regnum).map (fun r => r.count) = some (-1)
  | event.receive (inbound.GRANT_UNSYNCED regnum) =>
    (find_region m.info regnum).map (fun r => r.count) = some (-1)
  | _ => True

/-- The states the device reaches from the one `ddraid_create` leaves, and the
events that led there. -/
inductive reach : List event → machine → Prop
  | start (members k bits : Nat) : reach [] (fresh (created members k bits))
  | next (evs : List event) (m : machine) (ev : event) (m1 : machine) :
      reach evs m → granted_on_request m ev → step m ev = some m1 → reach (evs ++ [ev]) m1

/-- The number of `REQUEST_WRITE` messages sent. -/
def sent_requests (m : machine) : Nat :=
  m.sock.countP (fun msg => match msg with | message.REQUEST_WRITE _ => true | _ => false)

/-- The number of `RELEASE_WRITE` messages sent. -/
def sent_releases (m : machine) : Nat :=
  m.sock.countP (fun msg => match msg with | message.RELEASE_WRITE _ => true | _ => false)

/-- The number of records in the table in state REQUESTED (count -1) or OWNED
(count >= 0). -/
def held_in (hash : Nat → List region) : Nat :=
  ((List.range HASH_BUCKETS).map (fun k =>
    (hash k).countP (fun r => decide (-1 ≤ r.count)))).sum

/-- The number of `BOUNCE_REQUEST` messages among the events. -/
def bounced (evs : List event) : Nat :=
  evs.countP (fun ev => match ev with
    | event.receive (inbound.BOUNCE_REQUEST _) => true
    | _ => false)

/-- The writes submitted for region `x` through `submit_write` whose clones are
not all back. -/
def inflight (m : machine) (x : Nat) : Nat :=
  m.stacked.countP (fun s => s.hackhook.bind (fun h => h.region) == some x)

/-- The delayed releases pending for region `x`: armed timers and retire
records queued for the worker. -/
def holds (m : machine) (x : Nat) : Nat :=
  m.timers.countP (fun t => t.region == x) + m.info.releases.countP (fun t => t.region == x)

/-- The count a record accounts for: its count when it is owned, nothing
otherwise. -/
def owned : Option region → Int
  | some r => if 0 ≤ r.count then r.count else 0
  | none => 0

/-- One for a record in state REQUESTED or OWNED, zero otherwise. -/
def live : Option region → Nat
  | some r => if -1 ≤ r.count then 1 else 0
  | none => 0

/-- The count of every owned region is the number of its writes in flight plus
the number of its pending delayed releases; a region that is not owned has
neither. -/
def accounted (m : machine) : Prop :=
  ∀ x, owned (find_region m.info x) = (inflight m x : Int) + (holds m x : Int)

/-- The bucket `l` with the record of region `x` replaced by `o`. -/
def bucket_set (l : List region) (x : Nat) (o : Option region) : List region :=
  match l.find? (fun r => r.regnum == x), o with
  | none, none => l
  | none, some r => r :: l
  | some _, none => l.eraseP (fun r => r.regnum == x)
  | some _, some r => modify_first (fun r => r.regnum == x) (fun _ => r) l

/-- The table with the record of region `x` replaced by `o`. -/
def set_record (hash : Nat → List region) (x : Nat) (o : Option region) : Nat → List region :=
  Function.update hash (hash_region x) (bucket_set (hash (hash_region x)) x o)

/-- What holds of the device in every state it reaches. -/
def inv (m : machine) : Prop :=
  table_ok m.info ∧ accounted m ∧
  (∀ k r, r ∈ m.info.hash k → r.count = -1 → r.wait ≠ []) ∧
  (∀ k r, r ∈ m.info.hash k → r.count = -2 → r.flags &&& DESYNC_FLAG ≠ 0)

/-- The balance of queries and releases, `bounces` counting the queries queued
for `BOUNCE_REQUEST`. -/
def ident (bounces : Nat) (m : machine) : Prop :=
  m.info.highwater = 0 ∧
  sent_requests m + m.info.requests.length
    = sent_releases m + held_in m.info.hash + bounces

/-! ### Runs of the device as built -/

/-- What happens to the device as built: a request enters through
`ddraid_map_bogus`, the `k`-th of the requests handed to the member devices
completes with `error` through the handler it carries, the `k`-th armed timer
fires, the worker makes a pass, `incoming` handles a message. -/
inductive happening where
  | map (b : bio)
  | complete (k : Nat) (error : Int)
  | timer (k : Nat)
  | work
  | receive (msg : inbound)
deriving DecidableEq, Repr

/-- The completion of the request `rq` handed to a member device: its
`bi_end_io` runs for its `bi_private`; a request handed down by `submit_bdev`
completes to the layer above.  When `clone_read_endio` completes a bounce bio,
`bio_endio` runs `bounce_read_endio` for it. -/
def complete_request (m : machine) (rq : request) (error : Int) : Option machine :=
  match rq.bi_private, rq.bi_end_io with
  | some parent, some endio.clone_endio => clone_endio m parent error
  | some parent, some endio.clone_write_endio => clone_write_endio m parent error
  | some parent, some endio.clone_read_endio =>
    match clone_read_endio m rq.io parent error with
    | none => none
    | some m1 =>
      if (find_stacked m.stacked parent).any (fun st => st.hackcount - 1 == 0) ∧
          m1.bounces.any (fun l => l.bounce == parent) then
        bounce_read_endio m1 parent error
      else some m1
  | _, some endio.bounce_read_endio => none
  | none, some _ => none
  | _, none => some { m with ended := m.ended ++ [(rq.io, error)] }

/-- The state a happening leaves, `none` where the code faults. -/
def built_step (m : machine) : happening → Option machine
  | happening.map b => (ddraid_map_bogus m b).map (fun p => p.2)
  | happening.complete k error =>
    match m.submitted.get? k with
    | none => none
    | some rq => complete_request m rq error
  | happening.timer k => some (timer_release m k)
  | happening.work => worker m
  | happening.receive msg => incoming_message m msg

/-- The states the device as built reaches from the one `ddraid_create` leaves,
whatever the requests, the completions and the messages of the server, and the
happenings that led there. -/
inductive built : List happening → machine → Prop
  | start (members k bits : Nat) : built [] (fresh (created members k bits))
  | next (evs : List happening) (m : machine) (ev : happening) (m1 : machine) :
      built evs m → built_step m ev = some m1 → built (evs ++ [ev]) m1

/-- The device after a first write to region 0 has gone through the write path
of `ddraid_map`. -/
def parked_write : machine :=
  (step (fresh (created 3 1 16)) (event.write (write_4k 0 100) 0)).getD (fresh (created 3 1 16))

/-- The device after the worker has then sent the query for region 0. -/
def queried_write : machine := (step parked_write event.work).getD parked_write

/-- The device after `ADD_UNSYNCED` for region 5 has been handled on the state
`ddraid_create` leaves. -/
def cached_five : machine :=
  (step (fresh (created 3 1 16)) (event.receive (inbound.ADD_UNSYNCED 5))).getD
    (fresh (created 3 1 16))

/-- A `BOUNCE_REQUEST` for region 7 is handled on the state `ddraid_create`
leaves and the worker makes a pass. -/
def bounced_query : Option machine := do
  let m1 ← incoming_message (fresh (created 3 1 16)) (inbound.BOUNCE_REQUEST 7)
  worker m1

/-- The fresh three-member device with a one in lane 0 of page 100, the first
lane of data fragment 0 of a block about to be written from that page. -/
def written_block : machine :=
  { fresh (created 3 1 16) with mem := fun a => if a = kmap_atomic 100 then 1 else 0 }

/-- The pages of the parity clone among `submitted` are pages the allocator
handed out between `lo` and `hi`. -/
def parity_pages_drawn (info : devinfo) (submitted : List request) (lo hi : Nat) : Prop :=
  ∀ rq, rq ∈ submitted → (rq.disk : Int) = (info.members : Int) - 1 →
    ∀ v, v ∈ rq.io.bi_io_vec → lo ≤ v.bv_page ∧ v.bv_page < hi

/-- The condition the specification puts on the construction parameters:
`N >= 2`, `N - 1` a power of two, and the target length a multiple of `N - 1`. -/
def create_valid (members : Int) (len : Nat) : Prop :=
  2 ≤ members ∧ (∃ k : Nat, members - 1 = 2 ^ k) ∧ (members - 1) ∣ (len : Int)

/-- The value of `~(-1 << k) & n` for `k = fls(n) - 1`, which `ddraid_create`
tests on `n = members - 1`. -/
def low_bits (n : Nat) : Nat :=
  not32 (((2 ^ 32 - 1) <<< (((fls n : Nat) : Int) - 1).toNat) % 2 ^ 32) &&& n

/-- The list `init_change_list(12, 0, 1)` returns when the fresh array holds
zeroes. -/
def first_list : change_list :=
  { count := 0, length := 1024, chunksize_bits := 12, src_snap := 0, tgt_snap := 1,
    chunks := fun _ => 0, room := 1024 }

/-- A list as `init_change_list` and `append_change_list` keep it: fewer entries
than `length`, and `length` slots in the block `chunks` points at. -/
def change_list_ok (cl : change_list) : Prop :=
  cl.count < cl.length ∧ cl.room = cl.length

/-! ## Codec lemmas -/

theorem parity_lane_succ (mem : memory) (v stride n i : Nat) :
    parity_lane mem v stride (n + 1) i
      = parity_lane mem v stride n i ^^^ mem (v + (n * stride + i)) := by
  simp [parity_lane, List.range_succ]

theorem parity_lane_congr (mem mem1 : memory) (v stride i : Nat) :
    ∀ n, (∀ j, j < n → mem1 (v + (j * stride + i)) = mem (v + (j * stride + i))) →
      parity_lane mem1 v stride n i = parity_lane mem v stride n i := by
  intro n
  induction n with
  | zero => intro _; rfl
  | succ n ih =>
    intro h
    rw [parity_lane_succ, parity_lane_succ, ih (fun j hj => h j (by omega)), h n (by omega)]

theorem xor_walk_succ (mem : memory) (stride : Nat) :
    ∀ n q x, xor_walk mem stride (n + 1) q x
      = xor_walk mem stride n q x ^^^ mem (q + (n + 1) * stride) := by
  intro n
  induction n with
  | zero => intro q x; simp [xor_walk]
  | succ n ih =>
    intro q x
    rw [xor_walk, ih (q + stride) (x ^^^ mem (q + stride))]
    conv_rhs => rw [xor_walk]
    congr 2
    ring

theorem xor_walk_eq (mem : memory) (stride v i : Nat) :
    ∀ n, xor_walk mem stride n (v + i) (mem (v + i)) = parity_lane mem v stride (n + 1) i := by
  intro n
  induction n with
  | zero => simp [xor_walk, parity_lane, List.range_succ]
  | succ n ih =>
    rw [xor_walk_succ, ih, parity_lane_succ mem v stride (n + 1)]
    congr 2
    ring

theorem xor_column_eq (mem : memory) (stride v i n : Nat) :
    xor_column ((n : Int) + 1) stride mem (v + i) = some (parity_lane mem v stride (n + 1) i) := by
  have h : ¬ ((n : Int) + 1 - 1 < 0) := by omega
  have h2 : ((n : Int) + 1 - 1).toNat = n := by omega
  simp only [xor_column, h, if_false, h2, xor_walk_eq]

theorem col_2_eq (mem : memory) (v i : Nat) :
    col_2 mem (v + i) = some (parity_lane mem v S4K2 2 i) := by
  simp only [col_2, parity_lane, List.range_succ, List.range_zero, List.nil_append,
    List.foldl_append, List.foldl_cons, List.foldl_nil, Nat.zero_xor, S4K2, sizeof_xor_t]
  ring_nf

theorem col_4_eq (mem : memory) (v i : Nat) :
    col_4 mem (v + i) = some (parity_lane mem v S4K4 4 i) := by
  simp only [col_4, parity_lane, List.range_succ, List.range_zero, List.nil_append,
    List.foldl_append, List.foldl_cons, List.foldl_nil, Nat.zero_xor, S4K4, sizeof_xor_t]
  ring_nf

theorem col_8_eq (mem : memory) (v i : Nat) :
    col_8 mem (v + i) = some (parity_lane mem v S4K8 8 i) := by
  simp only [col_8, parity_lane, List.range_succ, List.range_zero, List.nil_append,
    List.foldl_append, List.foldl_cons, List.foldl_nil, Nat.zero_xor, S4K8, sizeof_xor_t]
  ring_nf

theorem col_16_eq (mem : memory) (v i : Nat) :
    col_16 mem (v + i) = some (parity_lane mem v S4K16 16 i) := by
  simp only [col_16, parity_lane, List.range_succ, List.range_zero, List.nil_append,
    List.foldl_append, List.foldl_cons, List.foldl_nil, Nat.zero_xor, S4K16, sizeof_xor_t]
  ring_nf

/-- A lane loop writes `g i` to lane `p + i` when each right-hand side evaluates
to `g i` on every memory that differs from the start only in the lanes written
before it; everything outside the output is left alone. -/
theorem lane_loop_spec (col : memory → Nat → Option xor_t) :
    ∀ (r fuel : Nat) (g : Nat → xor_t) (mem : memory) (v p : Nat), r < fuel →
      (∀ i, i < r → ∀ mem1 : memory, (∀ a, (a < p ∨ p + i ≤ a) → mem1 a = mem a) →
        col mem1 (v + i) = some (g i)) →
      ∃ mem', lane_loop col (p + r) fuel mem v p = some mem' ∧
        (∀ i, i < r → mem' (p + i) = g i) ∧
        (∀ a, (a < p ∨ p + r ≤ a) → mem' a = mem a) := by
  intro r
  induction r with
  | zero =>
    intro fuel g mem v p hf _
    obtain ⟨f, rfl⟩ : ∃ f, fuel = f + 1 := ⟨fuel - 1, by omega⟩
    refine ⟨mem, ?_, ?_, ?_⟩
    · simp [lane_loop]
    · intro i hi; omega
    · intro a _; rfl
  | succ r ih =>
    intro fuel g mem v p hf H
    obtain ⟨f, rfl⟩ : ∃ f, fuel = f + 1 := ⟨fuel - 1, by omega⟩
    have h0 : col mem v = some (g 0) := by
      have := H 0 (by omega) mem (fun a _ => rfl)
      simpa using this
    have hlt : p < p + (r + 1) := by omega
    have hlim : p + (r + 1) = (p + 1) + r := by omega
    obtain ⟨mem', hrun, hlanes, hframe⟩ :=
      ih f (fun i => g (i + 1)) (Function.update mem p (g 0)) (v + 1) (p + 1) (by omega)
        (by
          intro i hi mem1 hagree
          have hv : v + 1 + i = v + (i + 1) := by omega
          rw [hv]
          apply H (i + 1) (by omega) mem1
          intro a ha
          have hne : a ≠ p := by omega
          rw [hagree a (by omega), Function.update_noteq hne])
    refine ⟨mem', ?_, ?_, ?_⟩
    · simp only [lane_loop, hlt, if_true, h0]
      rw [hlim]
      exact hrun
    · intro i hi
      cases i with
      | zero =>
        rw [Nat.add_zero, hframe p (by omega), Function.update_same]
      | succ i =>
        have := hlanes i (by omega)
        have hp : p + (i + 1) = p + 1 + i := by omega
        rw [hp]
        exact this
    · intro a ha
      have hne : a ≠ p := by omega
      rw [hframe a (by omega), Function.update_noteq hne]

/-- A lane loop whose right-hand side is the column XOR computes the parity of
the memory it started from, provided the column reads avoid the lanes written
earlier in the loop. -/
theorem lane_loop_parity (col : memory → Nat → Option xor_t) (S k : Nat)
    (hcol : ∀ (mem : memory) (v i : Nat), col mem (v + i) = some (parity_lane mem v S k i))
    (r fuel : Nat) (mem : memory) (v p : Nat) (hf : r < fuel)
    (hclash : ∀ i, i < r → ∀ j, j < k → ∀ l, l < i → v + (j * S + i) ≠ p + l) :
    ∃ mem', lane_loop col (p + r) fuel mem v p = some mem' ∧
      (∀ i, i < r → mem' (p + i) = parity_lane mem v S k i) ∧
      (∀ a, (a < p ∨ p + r ≤ a) → mem' a = mem a) := by
  apply lane_loop_spec col r fuel (fun i => parity_lane mem v S k i) mem v p hf
  intro i hi mem1 hagree
  rw [hcol mem1 v i]
  congr 1
  apply parity_lane_congr
  intro j hj
  apply hagree
  by_cases h : v + (j * S + i) < p
  · exact Or.inl h
  · right
    by_contra hcon
    exact hclash i hi j hj (v + (j * S + i) - p) (by omega) (by omega)

/-- The four-lanes-per-round loop of `case 2:` is the lane loop of its
statement when the lane count is a multiple of four. -/
theorem loop_2_eq_lane_loop :
    ∀ (k fuel2 fuel1 : Nat) (mem : memory) (v p : Nat), k < fuel2 → 4 * k < fuel1 →
      loop_2 (p + 4 * k) fuel2 mem v p = lane_loop col_2 (p + 4 * k) fuel1 mem v p := by
  intro k
  induction k with
  | zero =>
    intro fuel2 fuel1 mem v p h2 h1
    obtain ⟨f2, rfl⟩ : ∃ f, fuel2 = f + 1 := ⟨fuel2 - 1, by omega⟩
    obtain ⟨f1, rfl⟩ : ∃ f, fuel1 = f + 1 := ⟨fuel1 - 1, by omega⟩
    simp [loop_2, lane_loop]
  | succ k ih =>
    intro fuel2 fuel1 mem v p h2 h1
    obtain ⟨f2, rfl⟩ : ∃ f, fuel2 = f + 1 := ⟨fuel2 - 1, by omega⟩
    obtain ⟨f1, rfl⟩ : ∃ f, fuel1 = f + 4 := ⟨fuel1 - 4, by omega⟩
    have hlim : p + 4 * (k + 1) = (p + 4) + 4 * k := by omega
    have l0 : p < p + 4 + 4 * k := by omega
    have l1 : p + 1 < p + 4 + 4 * k := by omega
    have l2 : p + 1 + 1 < p + 4 + 4 * k := by omega
    have l3 : p + 1 + 1 + 1 < p + 4 + 4 * k := by omega
    rw [hlim]
    simp only [loop_2, lane_loop, col_2, l0, l1, l2, l3, if_true, Nat.add_zero]
    rw [ih f2 f1 _ (v + 4) (p + 4) (by omega) (by omega)]

/-- What `compute_parity` leaves behind, on every path: lane `i` of the output
holds the parity of the data as it was on entry, the rest of memory is as it
was.  The output may lie outside the data or be one of its fragments. -/
theorem compute_parity_lanes (info : devinfo) (mem : memory) (v p : Nat)
    (hN : 2 ≤ info.members) (hlay : unrolled_layout info)
    (hclash : no_clash v p ((1 <<< info.fragsize_bits) / sizeof_xor_t) (info.members - 1)) :
    ∃ mem', compute_parity info mem v p = some mem' ∧
      (∀ i, i < (1 <<< info.fragsize_bits) / sizeof_xor_t →
        mem' (p + i) = parity_lane mem v ((1 <<< info.fragsize_bits) / sizeof_xor_t)
          (info.members - 1) i) ∧
      (∀ a, (a < p ∨ p + (1 <<< info.fragsize_bits) / sizeof_xor_t ≤ a) → mem' a = mem a) := by
  unfold compute_parity
  simp only []
  by_cases hb : blocksize info = 4096
  · simp only [hb, if_true]
    by_cases h3 : info.members = 3
    · have hl := hlay hb (Or.inl h3)
      rw [h3] at hl
      have hfs : (1 <<< info.fragsize_bits) / sizeof_xor_t = 4 * 64 := by
        simp only [sizeof_xor_t]; omega
      have hsel : ((info.members : Int) - 1 = 2) := by omega
      simp only [hsel, if_true]
      rw [hfs] at hclash ⊢
      rw [h3] at hclash ⊢
      rw [loop_2_eq_lane_loop 64 (4 * 64 + 1) (4 * 64 + 1) mem v p (by omega) (by omega)]
      exact lane_loop_parity col_2 (4 * 64) 2 col_2_eq (4 * 64) (4 * 64 + 1) mem v p (by omega) hclash
    by_cases h5 : info.members = 5
    · have hl := hlay hb (Or.inr (Or.inl h5))
      rw [h5] at hl
      have hfs : (1 <<< info.fragsize_bits) / sizeof_xor_t = 128 := by
        simp only [sizeof_xor_t]; omega
      have hsel : ((info.members : Int) - 1 = 4) := by omega
      have hn2 : ¬ ((4 : Int) = 2) := by decide
      simp only [hsel, hn2, if_true, if_false]
      rw [hfs] at hclash ⊢
      rw [h5] at hclash ⊢
      exact lane_loop_parity col_4 128 4 col_4_eq 128 (128 + 1) mem v p (by omega) hclash
    by_cases h9 : info.members = 9
    · have hl := hlay hb (Or.inr (Or.inr (Or.inl h9)))
      rw [h9] at hl
      have hfs : (1 <<< info.fragsize_bits) / sizeof_xor_t = 64 := by
        simp only [sizeof_xor_t]; omega
      have hsel : ((info.members : Int) - 1 = 8) := by omega
      have hn2 : ¬ ((8 : Int) = 2) := by decide
      have hn4 : ¬ ((8 : Int) = 4) := by decide
      simp only [hsel, hn2, hn4, if_true, if_false]
      rw [hfs] at hclash ⊢
      rw [h9] at hclash ⊢
      exact lane_loop_parity col_8 64 8 col_8_eq 64 (64 + 1) mem v p (by omega) hclash
    by_cases h17 : info.members = 17
    · have hl := hlay hb (Or.inr (Or.inr (Or.inr h17)))
      rw [h17] at hl
      have hfs : (1 <<< info.fragsize_bits) / sizeof_xor_t = 32 := by
        simp only [sizeof_xor_t]; omega
      have hsel : ((info.members : Int) - 1 = 16) := by omega
      have hn2 : ¬ ((16 : Int) = 2) := by decide
      have hn4 : ¬ ((16 : Int) = 4) := by decide
      have hn8 : ¬ ((16 : Int) = 8) := by decide
      simp only [hsel, hn2, hn4, hn8, if_true, if_false]
      rw [hfs] at hclash ⊢
      rw [h17] at hclash ⊢
      exact lane_loop_parity col_16 32 16 col_16_eq 32 (32 + 1) mem v p (by omega) hclash
    · have e2 : ¬ ((info.members : Int) - 1 = 2) := by omega
      have e4 : ¬ ((info.members : Int) - 1 = 4) := by omega
      have e8 : ¬ ((info.members : Int) - 1 = 8) := by omega
      have e16 : ¬ ((info.members : Int) - 1 = 16) := by omega
      simp only [e2, e4, e8, e16, if_false]
      obtain ⟨n, hn⟩ : ∃ n, info.members = n + 2 := ⟨info.members - 2, by omega⟩
      have hfr : (info.members : Int) - 1 = (n : Int) + 1 := by omega
      have hk : info.members - 1 = n + 1 := by omega
      rw [hfr]
      rw [hk] at hclash ⊢
      exact lane_loop_parity _ _ (n + 1) (fun m w i => xor_column_eq m _ w i n) _ _ mem v p
        (by omega) hclash
  · have e2 : ¬ ((0 : Int) = 2) := by decide
    have e4 : ¬ ((0 : Int) = 4) := by decide
    have e8 : ¬ ((0 : Int) = 8) := by decide
    have e16 : ¬ ((0 : Int) = 16) := by decide
    simp only [hb, if_false, e2, e4, e8, e16]
    obtain ⟨n, hn⟩ : ∃ n, info.members = n + 2 := ⟨info.members - 2, by omega⟩
    have hfr : (info.members : Int) - 1 = (n : Int) + 1 := by omega
    have hk : info.members - 1 = n + 1 := by omega
    rw [hfr]
    rw [hk] at hclash ⊢
    exact lane_loop_parity _ _ (n + 1) (fun m w i => xor_column_eq m _ w i n) _ _ mem v p
      (by omega) hclash

theorem no_clash_of_disjoint (v p stride frags : Nat)
    (h : p + stride ≤ v ∨ v + frags * stride ≤ p) : no_clash v p stride frags := by
  intro i hi j hj k hk
  have hm := Nat.mul_le_mul_right stride (Nat.succ_le_of_lt hj)
  rw [Nat.succ_mul] at hm
  omega

theorem no_clash_of_fragment (v stride frags d : Nat) :
    no_clash v (v + d * stride) stride frags := by
  intro i hi j _ k hk
  rcases Nat.lt_trichotomy j d with hjd | hjd | hjd
  · have hm := Nat.mul_le_mul_right stride (Nat.succ_le_of_lt hjd)
    rw [Nat.succ_mul] at hm
    omega
  · subst hjd
    omega
  · have hm := Nat.mul_le_mul_right stride (Nat.succ_le_of_lt hjd)
    rw [Nat.succ_mul] at hm
    omega

theorem parity_lane_shift (mem : memory) (v S k i : Nat) :
    parity_lane mem (v + 1) S k i = parity_lane mem v S k (i + 1) := by
  unfold parity_lane
  congr 1
  funext x j
  congr 2
  omega

/-- Replacing the contents of one fragment changes a parity lane by the XOR of
the old and the new lane of that fragment. -/
theorem parity_lane_replace (mem1 D : memory) (v S i d : Nat) :
    ∀ n, d < n →
      (∀ j, j < n → j ≠ d → mem1 (v + (j * S + i)) = D (v + (j * S + i))) →
      parity_lane mem1 v S n i
        = parity_lane D v S n i ^^^ D (v + (d * S + i)) ^^^ mem1 (v + (d * S + i)) := by
  intro n
  induction n with
  | zero => intro h; omega
  | succ n ih =>
    intro hd hother
    rw [parity_lane_succ, parity_lane_succ]
    by_cases hdn : d = n
    · subst hdn
      rw [parity_lane_congr D mem1 v S i d (fun j hj => hother j (by omega) (by omega))]
      rw [Nat.xor_assoc (parity_lane D v S d i), Nat.xor_self, Nat.xor_zero]
    · rw [ih (by omega) (fun j hj hne => hother j (by omega) hne),
        hother n (by omega) (fun h => hdn h.symm)]
      ac_rfl

theorem xor_mismatch (x a b : Nat) (h : x = x ^^^ a ^^^ b) : a = b := by
  have h1 : x ^^^ x = x ^^^ (x ^^^ (a ^^^ b)) := by
    rw [← Nat.xor_assoc x a b]
    exact congrArg (fun t => x ^^^ t) h
  rw [Nat.xor_self, Nat.xor_cancel_left] at h1
  exact Nat.xor_eq_zero.mp h1.symm

/-- The loop of `verify_parity` answers `0` exactly when every lane matches the
parity of the data, and `-1` otherwise. -/
theorem verify_loop_spec (n stride : Nat) :
    ∀ (r fuel : Nat) (mem : memory) (v p : Nat), r < fuel →
      (verify_loop ((n : Int) + 1) stride (p + r) fuel mem v p = some 0 ↔
        ∀ i, i < r → mem (p + i) = parity_lane mem v stride (n + 1) i) ∧
      (verify_loop ((n : Int) + 1) stride (p + r) fuel mem v p = some 0 ∨
        verify_loop ((n : Int) + 1) stride (p + r) fuel mem v p = some (-1)) := by
  intro r
  induction r with
  | zero =>
    intro fuel mem v p hf
    obtain ⟨f, rfl⟩ : ∃ f, fuel = f + 1 := ⟨fuel - 1, by omega⟩
    simp [verify_loop]
  | succ r ih =>
    intro fuel mem v p hf
    obtain ⟨f, rfl⟩ : ∃ f, fuel = f + 1 := ⟨fuel - 1, by omega⟩
    have hlt : p < p + (r + 1) := by omega
    have hlim : p + (r + 1) = (p + 1) + r := by omega
    have hcol := xor_column_eq mem stride v 0 n
    rw [Nat.add_zero] at hcol
    simp only [verify_loop, hlt, if_true, hcol]
    by_cases hx : mem p ^^^ parity_lane mem v stride (n + 1) 0 = 0
    · have hp0 : mem p = parity_lane mem v stride (n + 1) 0 := Nat.xor_eq_zero.mp hx
      simp only [hx, ne_eq, not_true_eq_false, if_false]
      rw [hlim]
      obtain ⟨hiff, hor⟩ := ih f mem (v + 1) (p + 1) (by omega)
      refine ⟨?_, hor⟩
      rw [hiff]
      constructor
      · intro h i hi
        cases i with
        | zero => exact hp0
        | succ i =>
          have := h i (by omega)
          rw [parity_lane_shift] at this
          have hp : p + (i + 1) = p + 1 + i := by omega
          rw [hp]
          exact this
      · intro h i hi
        have := h (i + 1) (by omega)
        rw [parity_lane_shift]
        have hp : p + (i + 1) = p + 1 + i := by omega
        rw [← hp]
        exact this
    · rw [if_pos hx]
      refine ⟨?_, Or.inr rfl⟩
      constructor
      · intro h
        exact absurd h (by decide)
      · intro h
        exact absurd (Nat.xor_eq_zero.mpr (h 0 (by omega))) hx

theorem verify_parity_iff (info : devinfo) (mem : memory) (v p : Nat) (hN : 2 ≤ info.members) :
    (verify_parity info mem v p = some 0 ↔
      ∀ i, i < (1 <<< info.fragsize_bits) / sizeof_xor_t →
        mem (p + i) = parity_lane mem v ((1 <<< info.fragsize_bits) / sizeof_xor_t)
          (info.members - 1) i) ∧
    (verify_parity info mem v p = some 0 ∨ verify_parity info mem v p = some (-1)) := by
  obtain ⟨n, hn⟩ : ∃ n, info.members = n + 2 := ⟨info.members - 2, by omega⟩
  have hfr : (info.members : Int) - 1 = (n : Int) + 1 := by omega
  have hk : info.members - 1 = n + 1 := by omega
  unfold verify_parity
  simp only []
  rw [hfr, hk]
  exact verify_loop_spec n _ _ _ mem v p (by omega)

theorem created_layout (k r : Nat) (hk : k ≤ PAGE_CACHE_SHIFT) :
    unrolled_layout (created (2 ^ k + 1) k r) := by
  intro _ _
  show (2 ^ k + 1 - 1) * (1 <<< (PAGE_CACHE_SHIFT - k)) = 4096
  rw [Nat.add_sub_cancel, Nat.one_shiftLeft, ← Nat.pow_add, Nat.add_sub_cancel' hk]
  rfl

theorem shift_fragment (d bits : Nat) (h : 3 ≤ bits) :
    (d <<< bits) / sizeof_xor_t = d * ((1 <<< bits) / sizeof_xor_t) := by
  obtain ⟨b, rfl⟩ : ∃ b, bits = b + 3 := ⟨bits - 3, by omega⟩
  have h8 : (2 : Nat) ^ (b + 3) = 2 ^ b * 8 := by rw [Nat.pow_add]
  rw [Nat.shiftLeft_eq, Nat.one_shiftLeft, h8]
  simp only [sizeof_xor_t]
  rw [← Nat.mul_assoc, Nat.mul_div_cancel _ (by decide : 0 < 8),
    Nat.mul_div_cancel _ (by decide : 0 < 8)]

/-! ## Region table lemmas -/

theorem find_modify_first {α : Type} (p : α → Bool) (f : α → α) (hp : ∀ a, p (f a) = p a) :
    ∀ l : List α, (modify_first p f l).find? p = (l.find? p).map f := by
  intro l
  induction l with
  | nil => rfl
  | cons a l ih =>
    by_cases h : p a = true
    · have h2 : p (f a) = true := by rw [hp]; exact h
      simp [modify_first, h, List.find?, h2]
    · have h1 : p a = false := by simpa using h
      simp [modify_first, h1, List.find?, ih]

theorem find_modify_first_other {α : Type} (p q : α → Bool) (f : α → α)
    (h : ∀ a, p a = true → q a = false ∧ q (f a) = false) :
    ∀ l : List α, (modify_first p f l).find? q = l.find? q := by
  intro l
  induction l with
  | nil => rfl
  | cons a l ih =>
    by_cases hpa : p a = true
    · obtain ⟨h1, h2⟩ := h a hpa
      simp [modify_first, hpa, List.find?, h1, h2]
    · have h1 : p a = false := by simpa using hpa
      simp only [modify_first, h1, List.find?, ih]

theorem find_region_regnum (info : devinfo) (regnum : Nat) (r : region)
    (h : find_region info regnum = some r) : r.regnum = regnum := by
  have := List.find?_some h
  simpa using this

theorem find_region_update_same (info : devinfo) (regnum : Nat) (f : region → region)
    (hf : ∀ r, (f r).regnum = r.regnum) :
    find_region (update_region info regnum f) regnum = (find_region info regnum).map f := by
  simp only [find_region, update_region, Function.update_same]
  exact find_modify_first _ f (fun a => by simp [hf]) _

theorem find_region_update_other (info : devinfo) (regnum other : Nat) (f : region → region)
    (hf : ∀ r, (f r).regnum = r.regnum) (hne : other ≠ regnum) :
    find_region (update_region info regnum f) other = find_region info other := by
  simp only [find_region, update_region]
  by_cases hb : hash_region other = hash_region regnum
  · rw [hb, Function.update_same]
    apply find_modify_first_other
    intro a ha
    have ha' : a.regnum = regnum := by simpa using ha
    constructor
    · simp [ha', hne.symm]
    · simp [hf, ha', hne.symm]
  · rw [Function.update_noteq hb]

theorem find_region_insert_same (info : devinfo) (c : Int) (f regnum : Nat) (w : List bio) :
    find_region (insert_region info ⟨c, f, regnum, w⟩) regnum = some ⟨c, f, regnum, []⟩ := by
  simp [find_region, insert_region, List.find?]

theorem find_region_insert_other (info : devinfo) (c : Int) (f regnum : Nat) (w : List bio)
    (other : Nat) (hne : other ≠ regnum) :
    find_region (insert_region info ⟨c, f, regnum, w⟩) other = find_region info other := by
  simp only [find_region, insert_region]
  by_cases hb : hash_region other = hash_region regnum
  · rw [hb, Function.update_same]
    have : (regnum == other) = false := by simp [hne.symm]
    simp [List.find?, this]
  · rw [Function.update_noteq hb]

@[simp] theorem set_region_count_regnum (r : region) (v : Int) :
    (set_region_count r v).regnum = r.regnum := rfl

@[simp] theorem get_region_regnum (r : region) : (get_region r).regnum = r.regnum := rfl

@[simp] theorem put_region_regnum (r : region) :
    (put_region_test_zero r).1.regnum = r.regnum := rfl

theorem find_eraseP_nodup (regnum : Nat) :
    ∀ l : List region, (l.map (fun r => r.regnum)).Nodup →
      (l.eraseP (fun r => r.regnum == regnum)).find? (fun r => r.regnum == regnum) = none := by
  intro l
  induction l with
  | nil => intro _; rfl
  | cons a l ih =>
    intro hnd
    rw [List.map_cons, List.nodup_cons] at hnd
    by_cases ha : a.regnum = regnum
    · have e : (a :: l).eraseP (fun r => r.regnum == regnum) = l := by
        simp [List.eraseP_cons, ha]
      rw [e, List.find?_eq_none]
      intro x hx hxr
      have hxr' : x.regnum = regnum := by simpa using hxr
      apply hnd.1
      rw [ha, ← hxr']
      exact List.mem_map_of_mem _ hx
    · have e : (a :: l).eraseP (fun r => r.regnum == regnum)
          = a :: l.eraseP (fun r => r.regnum == regnum) := by
        simp [List.eraseP_cons, ha]
      have hp' : (a.regnum == regnum) = false := by simp [ha]
      rw [e]
      simp only [List.find?, hp']
      exact ih hnd.2

theorem find_eraseP_other (regnum other : Nat) (hne : other ≠ regnum) :
    ∀ l : List region,
      (l.eraseP (fun r => r.regnum == regnum)).find? (fun r => r.regnum == other)
        = l.find? (fun r => r.regnum == other) := by
  intro l
  induction l with
  | nil => rfl
  | cons a l ih =>
    by_cases ha : a.regnum = regnum
    · have hp : (a.regnum == regnum) = true := by simp [ha]
      have hq : (a.regnum == other) = false := by simp [ha, hne.symm]
      have e : (a :: l).eraseP (fun r => r.regnum == regnum) = l := by
        simp [List.eraseP_cons, ha]
      rw [e]
      simp [List.find?, hq]
    · have e : (a :: l).eraseP (fun r => r.regnum == regnum)
          = a :: l.eraseP (fun r => r.regnum == regnum) := by
        simp [List.eraseP_cons, ha]
      rw [e]
      simp only [List.find?, ih]

theorem find_region_free_same (info : devinfo) (regnum : Nat) (hok : table_ok info) :
    find_region (free_region_unlock info regnum) regnum = none := by
  simp only [find_region, free_region_unlock, Function.update_same]
  exact find_eraseP_nodup regnum _ (hok _)

theorem find_region_free_other (info : devinfo) (regnum other : Nat) (hne : other ≠ regnum) :
    find_region (free_region_unlock info regnum) other = find_region info other := by
  simp only [find_region, free_region_unlock]
  by_cases hb : hash_region other = hash_region regnum
  · rw [hb, Function.update_same]
    exact find_eraseP_other regnum other hne _
  · rw [Function.update_noteq hb]

/-! ## Dispatcher lemmas -/

/-- As built (`NOCALC`), building the parity vector only draws pages. -/
theorem parity_io_vec_frame (info : devinfo) (is_read : Bool) :
    ∀ (l : List bio_vec) (vec pp : Nat) (m : machine),
      ∃ vs n, parity_io_vec info is_read vec l pp m = some (vs, { m with next_page := n }) := by
  intro l
  induction l with
  | nil => intro vec pp m; exact ⟨[], m.next_page, rfl⟩
  | cons sv rest ih =>
    intro vec pp m
    have hno : ¬ (NOCALC = 0 ∧ ¬ (is_read = true)) := by simp [NOCALC]
    by_cases ho : (vec <<< info.fragsize_bits) &&& (PAGE_CACHE_SIZE - 1) = 0
    · obtain ⟨vs, n, h⟩ := ih (vec + 1) m.next_page { m with next_page := m.next_page + 1 }
      let entry : bio_vec := ⟨m.next_page, 0, 1 <<< info.fragsize_bits⟩
      refine ⟨entry :: vs, n, ?_⟩
      simp only [parity_io_vec, ho, if_true, alloc_page, hno, if_false, h, entry]
    · obtain ⟨vs, n, h⟩ := ih (vec + 1) pp m
      let entry : bio_vec :=
        ⟨pp, (vec <<< info.fragsize_bits) &&& (PAGE_CACHE_SIZE - 1), 1 <<< info.fragsize_bits⟩
      refine ⟨entry :: vs, n, ?_⟩
      simp only [parity_io_vec, ho, if_false, hno, h, entry]

theorem submit_clone_spec (info : devinfo) (b : bio) (e : endio) (m : machine) (hk0 : hook)
    (disk : Nat) :
    ∃ n new hk, submit_clone info b e (m, hk0) disk
        = some ({ m with next_page := n, submitted := m.submitted ++ new }, hk) ∧
      hk.region = hk0.region ∧
      new.map (fun rq => rq.disk) = [disk].filter (fun (d : Nat) => decide ((d : Int) ≠ info.dead)) ∧
      ∀ rq, rq ∈ new → rq.bi_private = some b ∧ rq.bi_end_io = some e := by
  by_cases hd : (disk : Int) = info.dead
  · refine ⟨m.next_page, [], hk0, ?_, rfl, ?_, ?_⟩
    · simp [submit_clone, hd]
    · simp [hd]
    · intro rq hrq; cases hrq
  · by_cases hp : (disk : Int) = (info.members : Int) - 1
    · obtain ⟨vs, n, h⟩ := parity_io_vec_frame info (bio_data_dir b == READ) b.bi_io_vec 0 0 m
      let clone : bio := ⟨b.bi_sector >>> frags_per_block_bits info, b.bi_rw,
        b.bi_vcnt <<< info.fragsize_bits, vs⟩
      refine ⟨n, [⟨disk, clone, some b, some e⟩], { hk0 with parity := some clone }, ?_, rfl, ?_, ?_⟩
      · have hd1 : ¬ ((info.members : Int) - 1 = info.dead) := by rw [← hp]; exact hd
        simp only [submit_clone, hp, hd1, if_false, decide_True, if_true, h, clone]
      · simp [hd]
      · intro rq hrq
        rw [List.mem_singleton] at hrq
        subst hrq
        exact ⟨rfl, rfl⟩
    · let clone : bio := ⟨b.bi_sector >>> frags_per_block_bits info, b.bi_rw,
        b.bi_vcnt <<< info.fragsize_bits, data_io_vec info disk b.bi_io_vec⟩
      refine ⟨m.next_page, [⟨disk, clone, some b, some e⟩], hk0, ?_, rfl, ?_, ?_⟩
      · simp only [submit_clone, hd, if_false, hp, decide_False, clone]
        rfl
      · simp [hd]
      · intro rq hrq
        rw [List.mem_singleton] at hrq
        subst hrq
        exact ⟨rfl, rfl⟩

theorem submit_clones_spec (info : devinfo) (b : bio) (e : endio) :
    ∀ (disks : List Nat) (m : machine) (hk0 : hook),
      ∃ n new hk, submit_clones info b e disks (m, hk0)
          = some ({ m with next_page := n, submitted := m.submitted ++ new }, hk) ∧
        hk.region = hk0.region ∧
        new.map (fun rq => rq.disk)
          = disks.filter (fun (d : Nat) => decide ((d : Int) ≠ info.dead)) ∧
        ∀ rq, rq ∈ new → rq.bi_private = some b ∧ rq.bi_end_io = some e := by
  intro disks
  induction disks with
  | nil =>
    intro m hk0
    exact ⟨m.next_page, [], hk0, by simp [submit_clones], rfl, rfl, fun rq hrq => by cases hrq⟩
  | cons d rest ih =>
    intro m hk0
    obtain ⟨n1, new1, hk1, h1, hr1, hm1, hp1⟩ := submit_clone_spec info b e m hk0 d
    obtain ⟨n2, new2, hk2, h2, hr2, hm2, hp2⟩ :=
      ih { m with next_page := n1, submitted := m.submitted ++ new1 } hk1
    refine ⟨n2, new1 ++ new2, hk2, ?_, ?_, ?_, ?_⟩
    · simp only [submit_clones, h1, h2, List.append_assoc]
    · rw [hr2, hr1]
    · rw [List.map_append, hm1, hm2, ← List.filter_append]
      rfl
    · intro rq hrq
      rcases List.mem_append.mp hrq with h | h
      · exact hp1 rq h
      · exact hp2 rq h

/-- As built, `submit_rw` always returns: it hands one clone per live member to
the devices and records the parent with its count and hook. -/
theorem submit_rw_spec (m : machine) (b : bio) (synced : Nat) (hk : Option hook) (e : endio) :
    ∃ n new hk1, submit_rw m b synced hk e
        = some { m with next_page := n, submitted := m.submitted ++ new,
                        stacked := m.stacked ++
                          [⟨b, (m.info.members : Int) - (if m.info.dead ≥ 0 then 1 else 0), some hk1⟩] } ∧
      hk1.region = hk.bind (fun h => h.region) ∧
      striped m.info b e new := by
  cases hk with
  | none =>
    obtain ⟨n, new, hk1, h, hr, hm, hp⟩ := submit_clones_spec m.info b e
      (List.range m.info.members) m ⟨b.bi_sector, b.bi_size, none, none⟩
    exact ⟨n, new, hk1, by simp only [submit_rw, h], hr, hm, hp⟩
  | some h0 =>
    obtain ⟨n, new, hk1, h, hr, hm, hp⟩ := submit_clones_spec m.info b e
      (List.range m.info.members) m { h0 with sector := b.bi_sector, length := b.bi_size }
    exact ⟨n, new, hk1, by simp only [submit_rw, h], hr, hm, hp⟩

/-- The frame of `submit_rw`: the device, the memory, the socket, the timers and
the completed parents are as before; the clones are appended to the devices'
queue and the parent to the stacked bios. -/
theorem submit_rw_frame (m : machine) (b : bio) (synced : Nat) (hk : Option hook) (e : endio) :
    ∃ m1 new hk1, submit_rw m b synced hk e = some m1 ∧
      m1.info = m.info ∧ m1.mem = m.mem ∧ m1.sock = m.sock ∧ m1.bounces = m.bounces ∧
      m1.timers = m.timers ∧ m1.ended = m.ended ∧
      m1.submitted = m.submitted ++ new ∧
      m1.stacked = m.stacked ++
        [⟨b, (m.info.members : Int) - (if m.info.dead ≥ 0 then 1 else 0), some hk1⟩] ∧
      hk1.region = hk.bind (fun h => h.region) ∧
      striped m.info b e new := by
  obtain ⟨n, new, hk1, hrun, hreg, hstr⟩ := submit_rw_spec m b synced hk e
  exact ⟨_, new, hk1, hrun, rfl, rfl, rfl, rfl, rfl, rfl, rfl, rfl, hreg, hstr⟩

theorem find_region_congr (info1 info2 : devinfo) (h : info1.hash = info2.hash) (regnum : Nat) :
    find_region info1 regnum = find_region info2 regnum := by
  simp only [find_region, h]

theorem find_region_queue (info : devinfo) (regnum other : Nat) :
    find_region (queue_request info regnum) other = find_region info other := rfl

theorem spare_restored_hash (info : devinfo) :
    (if ¬ info.spare_region then restore_spare_region info else info).hash = info.hash := by
  split <;> rfl

theorem spare_restored_requests (info : devinfo) :
    (if ¬ info.spare_region then restore_spare_region info else info).requests = info.requests := by
  split <;> rfl

/-! ## Claims about the parity codec -/

/-- C1: for every member count `N ≥ 2`, on the general loop and on each unrolled
loop, `compute_parity` with its output outside the data writes to lane `i` of
the parity fragment the XOR over `j ∈ [0, N-2]` of data lane `j * stride + i`,
`stride` being the fragment size over 8, and leaves all other memory as it was.
The device has the layout of `ddraid_create` where an unrolled loop is taken. -/
theorem compute_parity_xor_of_fragments (info : devinfo) (mem : memory) (v p : Nat)
    (hN : 2 ≤ info.members) (hlay : unrolled_layout info)
    (hout : p + (1 <<< info.fragsize_bits) / sizeof_xor_t ≤ v ∨
      v + (info.members - 1) * ((1 <<< info.fragsize_bits) / sizeof_xor_t) ≤ p) :
    ∃ mem', compute_parity info mem v p = some mem' ∧
      (∀ i, i < (1 <<< info.fragsize_bits) / sizeof_xor_t →
        mem' (p + i) = parity_lane mem v ((1 <<< info.fragsize_bits) / sizeof_xor_t)
          (info.members - 1) i) ∧
      (∀ a, (a < p ∨ p + (1 <<< info.fragsize_bits) / sizeof_xor_t ≤ a) → mem' a = mem a) :=
  compute_parity_lanes info mem v p hN hlay (no_clash_of_disjoint _ _ _ _ hout)

/-- Witness for C1: three members, 4096-byte blocks, data in lanes 0..511 and
the parity fragment in lanes 512..767 (the `case 2:` loop). -/
theorem compute_parity_xor_of_fragments_witness :
    (2 ≤ (created 3 1 12).members ∧ unrolled_layout (created 3 1 12)) ∧
    ∃ mem', compute_parity (created 3 1 12) (fun a => a * a) 0 512 = some mem' ∧
      (∀ i, i < 256 → mem' (512 + i) = parity_lane (fun a => a * a) 0 256 2 i) ∧
      (∀ a, (a < 512 ∨ 512 + 256 ≤ a) → mem' a = a * a) :=
  ⟨⟨by decide, created_layout 1 12 (by decide)⟩,
    compute_parity_xor_of_fragments (created 3 1 12) (fun a => a * a) 0 512 (by decide)
      (created_layout 1 12 (by decide)) (Or.inr (by decide))⟩

/-- C2: let `P` be the parity `compute_parity` produces for the data `D` of a
block at `s`, and let the buffer hold `D` except in fragment `dead`, which holds
anything.  Copying `P` into that fragment and running `compute_parity` with its
output aliased to it (the reconstruction step of `clone_read_endio`) leaves the
whole block equal to `D`. -/
theorem reconstruct_restores_block (info : devinfo) (D DP mem : memory) (s pp dead : Nat)
    (hN : 2 ≤ info.members) (hlay : unrolled_layout info) (h8 : 3 ≤ info.fragsize_bits)
    (hdead : dead < info.members - 1)
    (hout : pp + (1 <<< info.fragsize_bits) / sizeof_xor_t ≤ s ∨
      s + (info.members - 1) * ((1 <<< info.fragsize_bits) / sizeof_xor_t) ≤ pp)
    (hP : compute_parity info D s pp = some DP)
    (hpar : ∀ i, i < (1 <<< info.fragsize_bits) / sizeof_xor_t → mem (pp + i) = DP (pp + i))
    (hdata : ∀ j, j < info.members - 1 → j ≠ dead →
      ∀ i, i < (1 <<< info.fragsize_bits) / sizeof_xor_t →
        mem (s + (j * ((1 <<< info.fragsize_bits) / sizeof_xor_t) + i))
          = D (s + (j * ((1 <<< info.fragsize_bits) / sizeof_xor_t) + i))) :
    ∃ mem', reconstruct info mem s pp dead = some mem' ∧
      ∀ j, j < info.members - 1 → ∀ i, i < (1 <<< info.fragsize_bits) / sizeof_xor_t →
        mem' (s + (j * ((1 <<< info.fragsize_bits) / sizeof_xor_t) + i))
          = D (s + (j * ((1 <<< info.fragsize_bits) / sizeof_xor_t) + i)) := by
  generalize hS : (1 <<< info.fragsize_bits) / sizeof_xor_t = S at *
  obtain ⟨DP', hP', hDP, _⟩ :=
    compute_parity_lanes info D s pp hN hlay (by rw [hS]; exact no_clash_of_disjoint _ _ _ _ hout)
  rw [hS] at hDP
  rw [hP] at hP'
  cases hP'
  have hd : s + (dead <<< info.fragsize_bits) / sizeof_xor_t = s + dead * S := by
    rw [shift_fragment dead _ h8, hS]
  obtain ⟨mem', hrun, hlanes, hframe⟩ :=
    compute_parity_lanes info (memcpy mem (s + dead * S) pp S) s (s + dead * S) hN hlay
      (by rw [hS]; exact no_clash_of_fragment _ _ _ _)
  rw [hS] at hlanes hframe
  refine ⟨mem', ?_, ?_⟩
  · unfold reconstruct
    simp only []
    rw [hd, hS]
    exact hrun
  · intro j hj i hi
    have hmul := Nat.mul_le_mul_right S (Nat.succ_le_of_lt hdead)
    rw [Nat.succ_mul] at hmul
    by_cases hjd : j = dead
    · subst hjd
      have haddr : s + (j * S + i) = s + j * S + i := by omega
      rw [haddr, hlanes i hi]
      rw [parity_lane_replace (memcpy mem (s + j * S) pp S) D s S i j (info.members - 1) hj]
      · have hcopy : memcpy mem (s + j * S) pp S (s + (j * S + i)) = DP (pp + i) := by
          have h1 : s + j * S ≤ s + (j * S + i) ∧ s + (j * S + i) < s + j * S + S := by omega
          have h2 : s + (j * S + i) - (s + j * S) = i := by omega
          simp only [memcpy, h1, and_self, if_true, h2]
          exact hpar i hi
        rw [hcopy, hDP i hi, ← haddr]
        rw [Nat.xor_comm (parity_lane D s S (info.members - 1) i), Nat.xor_assoc,
          Nat.xor_self, Nat.xor_zero]
      · intro j' hj' hne
        have hnot : ¬ (s + j * S ≤ s + (j' * S + i) ∧ s + (j' * S + i) < s + j * S + S) := by
          rcases Nat.lt_or_gt_of_ne hne with hlt | hgt
          · have hm := Nat.mul_le_mul_right S (Nat.succ_le_of_lt hlt)
            rw [Nat.succ_mul] at hm
            omega
          · have hm := Nat.mul_le_mul_right S (Nat.succ_le_of_lt hgt)
            rw [Nat.succ_mul] at hm
            omega
        simp only [memcpy, hnot, if_false]
        exact hdata j' hj' hne i hi
    · have hnot : ¬ (s + dead * S ≤ s + (j * S + i) ∧ s + (j * S + i) < s + dead * S + S) := by
        rcases Nat.lt_or_gt_of_ne hjd with hlt | hgt
        · have hm := Nat.mul_le_mul_right S (Nat.succ_le_of_lt hlt)
          rw [Nat.succ_mul] at hm
          omega
        · have hm := Nat.mul_le_mul_right S (Nat.succ_le_of_lt hgt)
          rw [Nat.succ_mul] at hm
          omega
      rw [hframe _ (by omega)]
      simp only [memcpy, hnot, if_false]
      exact hdata j hj hjd i hi

/-- Witness for C2: three members, 4096-byte blocks; fragment 1 of the block at
lane 0 is overwritten with sevens and rebuilt from the parity kept at lane 512. -/
theorem reconstruct_restores_block_witness :
    ∃ DP, compute_parity (created 3 1 12) (fun a => a * a + 1) 0 512 = some DP ∧
      ∃ mem', reconstruct (created 3 1 12)
          (fun a => if 256 ≤ a ∧ a < 512 then 7 else DP a) 0 512 1 = some mem' ∧
        ∀ j, j < 2 → ∀ i, i < 256 → mem' (0 + (j * 256 + i)) = (0 + (j * 256 + i)) * (0 + (j * 256 + i)) + 1 := by
  obtain ⟨DP, hP, _, hf⟩ := compute_parity_lanes (created 3 1 12) (fun a => a * a + 1) 0 512
    (by decide) (created_layout 1 12 (by decide)) (no_clash_of_disjoint _ _ _ _ (Or.inr (by decide)))
  refine ⟨DP, hP, ?_⟩
  exact reconstruct_restores_block (created 3 1 12) (fun a => a * a + 1) DP
    (fun a => if 256 ≤ a ∧ a < 512 then 7 else DP a) 0 512 1 (by decide)
    (created_layout 1 12 (by decide)) (by decide) (by decide) (Or.inr (by decide)) hP
    (by
      intro i _
      have h : ¬ (256 ≤ 512 + i ∧ 512 + i < 512) := by omega
      simp only [h, if_false])
    (by
      intro j hj hne i hi
      have hj2 : j < 2 := hj
      have hi2 : i < 256 := hi
      have hj0 : j = 0 := by omega
      subst hj0
      have h : ¬ (256 ≤ 0 + (0 * ((1 <<< (created 3 1 12).fragsize_bits) / sizeof_xor_t) + i) ∧
          0 + (0 * ((1 <<< (created 3 1 12).fragsize_bits) / sizeof_xor_t) + i) < 512) := by omega
      simp only [h, if_false]
      exact hf _ (Or.inl (by omega)))

/-- C3: `verify_parity` returns `0` exactly when every lane of the parity
fragment equals the XOR of the corresponding lanes of the `N - 1` data
fragments, and `-1` otherwise; and the parity `compute_parity` has just
written, on whichever of its loops, verifies. -/
theorem verify_parity_iff_xor (info : devinfo) (mem : memory) (v p : Nat)
    (hN : 2 ≤ info.members) :
    (verify_parity info mem v p = some 0 ↔
      ∀ i, i < (1 <<< info.fragsize_bits) / sizeof_xor_t →
        mem (p + i) = parity_lane mem v ((1 <<< info.fragsize_bits) / sizeof_xor_t)
          (info.members - 1) i) ∧
    (verify_parity info mem v p = some 0 ∨ verify_parity info mem v p = some (-1)) ∧
    (unrolled_layout info →
      (p + (1 <<< info.fragsize_bits) / sizeof_xor_t ≤ v ∨
        v + (info.members - 1) * ((1 <<< info.fragsize_bits) / sizeof_xor_t) ≤ p) →
      ∃ mem', compute_parity info mem v p = some mem' ∧ verify_parity info mem' v p = some 0) := by
  refine ⟨(verify_parity_iff info mem v p hN).1, (verify_parity_iff info mem v p hN).2, ?_⟩
  intro hlay hout
  obtain ⟨mem', hrun, hlanes, hframe⟩ :=
    compute_parity_lanes info mem v p hN hlay (no_clash_of_disjoint _ _ _ _ hout)
  refine ⟨mem', hrun, ?_⟩
  rw [(verify_parity_iff info mem' v p hN).1]
  intro i hi
  rw [hlanes i hi]
  symm
  apply parity_lane_congr
  intro j hj
  apply hframe
  have hm := Nat.mul_le_mul_right ((1 <<< info.fragsize_bits) / sizeof_xor_t)
    (Nat.succ_le_of_lt hj)
  rw [Nat.succ_mul] at hm
  omega

/-- Witness for C3: three members, 4096-byte blocks, data at lane 0, parity at
lane 512; the parity `compute_parity` writes there verifies. -/
theorem verify_parity_iff_xor_witness :
    2 ≤ (created 3 1 12).members ∧
    (verify_parity (created 3 1 12) (fun a => a * a) 0 512 = some 0 ↔
      ∀ i, i < 256 → (512 + i) * (512 + i) = parity_lane (fun a => a * a) 0 256 2 i) ∧
    (verify_parity (created 3 1 12) (fun a => a * a) 0 512 = some 0 ∨
      verify_parity (created 3 1 12) (fun a => a * a) 0 512 = some (-1)) ∧
    ∃ mem', compute_parity (created 3 1 12) (fun a => a * a) 0 512 = some mem' ∧
      verify_parity (created 3 1 12) mem' 0 512 = some 0 :=
  ⟨by decide,
    (verify_parity_iff_xor (created 3 1 12) (fun a => a * a) 0 512 (by decide)).1,
    (verify_parity_iff_xor (created 3 1 12) (fun a => a * a) 0 512 (by decide)).2.1,
    (verify_parity_iff_xor (created 3 1 12) (fun a => a * a) 0 512 (by decide)).2.2
      (created_layout 1 12 (by decide)) (Or.inr (by decide))⟩

/-- C4, as stated, fails: with three members the zero block and the block whose
fragments 0 and 1 both carry a one in lane 0 have the same parity, so the
changed block verifies against the parity of the zero block. -/
theorem verify_misses_paired_change :
    paired_change 0 ≠ zero_block 0 ∧
    (compute_parity (created 3 1 12) zero_block 0 512).bind
      (fun DP => verify_parity (created 3 1 12) (with_parity paired_change DP 512 256) 0 512)
      = some 0 := by
  set_option maxRecDepth 1000000 in decide

/-- C4, amended: when `D'` differs from `D` in one fragment only (some lane of
fragment `d` differs, all other fragments agree), `verify_parity` on `D'` with
the parity `compute_parity` produced for `D` reports the mismatch. -/
theorem verify_detects_single_fragment (info : devinfo) (D D' DP mem : memory) (v p d l : Nat)
    (hN : 2 ≤ info.members) (hlay : unrolled_layout info)
    (hout : p + (1 <<< info.fragsize_bits) / sizeof_xor_t ≤ v ∨
      v + (info.members - 1) * ((1 <<< info.fragsize_bits) / sizeof_xor_t) ≤ p)
    (hP : compute_parity info D v p = some DP)
    (hmem : mem = with_parity D' DP p ((1 <<< info.fragsize_bits) / sizeof_xor_t))
    (hd : d < info.members - 1) (hl : l < (1 <<< info.fragsize_bits) / sizeof_xor_t)
    (hdiff : D' (v + (d * ((1 <<< info.fragsize_bits) / sizeof_xor_t) + l))
      ≠ D (v + (d * ((1 <<< info.fragsize_bits) / sizeof_xor_t) + l)))
    (hsame : ∀ j, j < info.members - 1 → j ≠ d →
      ∀ i, i < (1 <<< info.fragsize_bits) / sizeof_xor_t →
        D' (v + (j * ((1 <<< info.fragsize_bits) / sizeof_xor_t) + i))
          = D (v + (j * ((1 <<< info.fragsize_bits) / sizeof_xor_t) + i))) :
    verify_parity info mem v p = some (-1) := by
  generalize hS : (1 <<< info.fragsize_bits) / sizeof_xor_t = S at *
  obtain ⟨DP', hP', hDP, _⟩ :=
    compute_parity_lanes info D v p hN hlay (by rw [hS]; exact no_clash_of_disjoint _ _ _ _ hout)
  rw [hS] at hDP
  rw [hP] at hP'
  cases hP'
  have hv := verify_parity_iff info mem v p hN
  rw [hS] at hv
  rcases hv.2 with h0 | h1
  · exfalso
    have hlane := hv.1.mp h0 l hl
    have hdata : ∀ j, j < info.members - 1 → ∀ i, i < S →
        mem (v + (j * S + i)) = D' (v + (j * S + i)) := by
      intro j hj i hi
      have hm := Nat.mul_le_mul_right S (Nat.succ_le_of_lt hj)
      rw [Nat.succ_mul] at hm
      have hnot : ¬ (p ≤ v + (j * S + i) ∧ v + (j * S + i) < p + S) := by omega
      simp only [hmem, with_parity, hnot, if_false]
    have hpl : mem (p + l) = DP (p + l) := by
      have hin : p ≤ p + l ∧ p + l < p + S := by omega
      simp only [hmem, with_parity, hin, and_self, if_true]
    rw [hpl, hDP l hl] at hlane
    rw [parity_lane_replace mem D v S l d (info.members - 1) hd
      (fun j hj hne => by rw [hdata j hj l hl]; exact hsame j hj hne l hl)] at hlane
    rw [hdata d hd l hl] at hlane
    exact hdiff (xor_mismatch _ _ _ hlane).symm
  · exact h1

/-- Witness for the amended C4: three members, the zero block against the
block with a one in lane 0 of fragment 0 only. -/
theorem verify_detects_single_fragment_witness :
    ∃ DP, compute_parity (created 3 1 12) zero_block 0 512 = some DP ∧
      verify_parity (created 3 1 12)
        (with_parity (fun a => if a = 0 then 1 else 0) DP 512 256) 0 512 = some (-1) := by
  obtain ⟨DP, hP, _, _⟩ := compute_parity_lanes (created 3 1 12) zero_block 0 512
    (by decide) (created_layout 1 12 (by decide)) (no_clash_of_disjoint _ _ _ _ (Or.inr (by decide)))
  refine ⟨DP, hP, ?_⟩
  exact verify_detects_single_fragment (created 3 1 12) zero_block
    (fun a => if a = 0 then 1 else 0) DP _ 0 512 0 0 (by decide)
    (created_layout 1 12 (by decide)) (Or.inr (by decide)) hP rfl (by decide) (by decide)
    (by decide)
    (by
      intro j hj hne i hi
      have hj2 : j < 2 := hj
      have hj1 : j = 1 := by omega
      subst hj1
      have h : ¬ (0 + (1 * ((1 <<< (created 3 1 12).fragsize_bits) / sizeof_xor_t) + i) = 0) := by
        have : (1 <<< (created 3 1 12).fragsize_bits) / sizeof_xor_t = 256 := by decide
        omega
      simp only [h, if_false]
      rfl)

/-- What the grant-negotiating write path of `ddraid_map` does, case by case. -/
theorem ddraid_map_write_spec (m : machine) (b : bio) (regnum : Nat) :
    ∃ m', ddraid_map_write m b regnum = some (0, m') ∧
      (∀ other, other ≠ regnum → find_region m'.info other = find_region m.info other) ∧
      m'.sock = m.sock ∧
      match find_region m.info regnum with
      | none =>
        find_region m'.info regnum = some ⟨-1, 0, regnum, [b]⟩ ∧
        m'.info.requests = m.info.requests ++ [regnum] ∧ m'.submitted = m.submitted
      | some r =>
        if 0 ≤ r.count ∧ r.flags &&& DRAIN_FLAG = 0 then
          find_region m'.info regnum = some { r with count := r.count + 1 } ∧
          m'.info.requests = m.info.requests ∧
          ∃ clones, m'.submitted = m.submitted ++ clones ∧
            striped m.info b endio.clone_write_endio clones
        else if r.count = -2 then
          find_region m'.info regnum = some { r with count := -1, wait := r.wait ++ [b] } ∧
          m'.info.requests = m.info.requests ++ [regnum] ∧ m'.submitted = m.submitted
        else
          find_region m'.info regnum = some { r with wait := r.wait ++ [b] } ∧
          m'.info.requests = m.info.requests ∧ m'.submitted = m.submitted := by
  cases hfind : find_region m.info regnum with
  | none =>
    refine ⟨?w1, ?run1, ?oth1, ?sock1, ?reg1⟩
    case run1 => simp only [ddraid_map_write, hfind]; exact rfl
    case sock1 => rfl
    case oth1 =>
      intro other hne
      rw [find_region_congr _ _ (spare_restored_hash _)]
      simp [find_region_update_other, find_region_insert_other, hne, find_region_queue]
      rfl
    case reg1 =>
      refine ⟨?_, ?_, rfl⟩
      · rw [find_region_congr _ _ (spare_restored_hash _)]
        simp [find_region_update_same, find_region_insert_same, find_region_queue]
        exact ⟨rfl, rfl, rfl⟩
      · rw [spare_restored_requests]
        rfl
  | some r =>
    by_cases hgrant : 0 ≤ r.count ∧ r.flags &&& DRAIN_FLAG = 0
    · obtain ⟨n, new, hk1, hrun, _, hstr⟩ :=
        submit_rw_spec { m with info := update_region m.info regnum get_region } b 1
          (some ⟨0, 0, some regnum, none⟩) endio.clone_write_endio
      have hcond : region_count r ≥ 0 ∧ drain_region r = 0 := hgrant
      refine ⟨?w2, ?run2, ?oth2, ?sock2, ?reg2⟩
      case run2 =>
        simp only [ddraid_map_write, hfind, hcond, and_self, if_true, submit_write]
        rw [hrun]
        exact rfl
      case sock2 => rfl
      case oth2 =>
        intro other hne
        simp [find_region_update_other, hne]
      case reg2 =>
        simp only [hgrant, and_self, if_true]
        refine ⟨?_, rfl, new, rfl, hstr⟩
        simp [find_region_update_same, hfind]
        rfl
    · have hcond : ¬ (region_count r ≥ 0 ∧ drain_region r = 0) := hgrant
      by_cases h2 : r.count = -2
      · have h2' : region_count r = -2 := h2
        refine ⟨?w3, ?run3, ?oth3, ?sock3, ?reg3⟩
        case run3 => simp only [ddraid_map_write, hfind, hcond, if_false, h2', if_true]; exact rfl
        case sock3 => rfl
        case oth3 =>
          intro other hne
          rw [find_region_congr _ _ (spare_restored_hash _)]
          simp [find_region_update_other, hne, find_region_queue]
        case reg3 =>
          dsimp only
          rw [if_neg hgrant, if_pos h2]
          refine ⟨?_, ?_, rfl⟩
          · rw [find_region_congr _ _ (spare_restored_hash _)]
            simp [find_region_update_same, hfind, find_region_queue]
            exact ⟨rfl, rfl, rfl⟩
          · rw [spare_restored_requests]
            rfl
      · have h2' : ¬ (region_count r = -2) := h2
        refine ⟨?w4, ?run4, ?oth4, ?sock4, ?reg4⟩
        case run4 => simp only [ddraid_map_write, hfind, hcond, if_false, h2']; exact rfl
        case sock4 => rfl
        case oth4 =>
          intro other hne
          rw [find_region_congr _ _ (spare_restored_hash _)]
          simp [find_region_update_other, hne]
        case reg4 =>
          dsimp only
          rw [if_neg hgrant, if_neg h2]
          refine ⟨?_, ?_, rfl⟩
          · rw [find_region_congr _ _ (spare_restored_hash _)]
            simp [find_region_update_same, hfind]
          · rw [spare_restored_requests]
            rfl

/-- For a region size exponent below 32 the shift of the assertion is the
plain one. -/
theorem region_limit_eq (info : devinfo) (h : info.region_size_bits < 32) :
    region_limit info = 1 <<< info.region_size_bits := by
  unfold region_limit
  rw [Nat.mod_eq_of_lt h, Nat.one_shiftLeft]
  exact Nat.mod_eq_of_lt (Nat.pow_lt_pow_right (by norm_num) h)

/-- As built (`NOSYNC`), `ddraid_map` hands every block-aligned write to
`submit_rw` at once; the region table plays no part. -/
theorem ddraid_map_nosync_write (m : machine) (b : bio)
    (hsz : b.bi_size ≤ region_limit m.info)
    (hsec : (b.bi_sector % 2 ^ 32) &&& ((1 <<< (m.info.blocksize_bits - SECTOR_SHIFT)) - 1) = 0)
    (hlen : b.bi_size &&& (blocksize m.info - 1) = 0)
    (hw : bio_data_dir b ≠ READ) :
    ∃ m', ddraid_map m b = some (0, m') ∧ m'.info = m.info ∧ m'.sock = m.sock ∧
      ∃ clones, m'.submitted = m.submitted ++ clones ∧
        striped m.info b endio.clone_endio clones := by
  obtain ⟨n, new, hk1, hrun, _, hstr⟩ := submit_rw_spec m b 1 none endio.clone_endio
  refine ⟨?w, ?run, ?rest⟩
  case run =>
    have hnr : ¬ (NORAID ≠ 0) := by decide
    have hns : NOSYNC ≠ 0 := by decide
    have hal : ¬ ((b.bi_sector % 2 ^ 32) &&& ((1 <<< (m.info.blocksize_bits - SECTOR_SHIFT)) - 1) ≠ 0
        ∨ b.bi_size &&& (blocksize m.info - 1) ≠ 0) := by
      rw [hsec, hlen]; simp
    have hrd : ¬ ((bio_data_dir b == READ) = true) := by simpa using hw
    simp only [ddraid_map, hsz, not_true_eq_false, if_false, hnr, hal, hns, if_true, hrd, hrun]
    exact rfl
  case rest => exact ⟨rfl, rfl, new, rfl, hstr⟩

theorem striped_congr (i1 i2 : devinfo) (b : bio) (e : endio) (g : List request)
    (hm : i2.members = i1.members) (hd : i2.dead = i1.dead) (h : striped i2 b e g) :
    striped i1 b e g := by
  unfold striped live_disks at *
  rw [hm, hd] at h
  exact h

/-- The loop of `do_defered` submits the deferred writes of the region from the
head of the wait list on, raising the count once for each. -/
theorem drain_wait_spec (regnum : Nat) :
    ∀ (bios : List bio) (fuel : Nat) (m : machine) (r : region),
      find_region m.info regnum = some r → r.wait = bios → bios.length ≤ fuel →
      ∃ m' groups, drain_wait regnum fuel m = some m' ∧
        find_region m'.info regnum
          = some { r with count := r.count + (bios.length : Int), wait := [] } ∧
        (∀ other, other ≠ regnum → find_region m'.info other = find_region m.info other) ∧
        m'.sock = m.sock ∧ m'.info.requests = m.info.requests ∧
        m'.info.members = m.info.members ∧ m'.info.dead = m.info.dead ∧
        m'.submitted = m.submitted ++ groups.flatten ∧
        List.Forall₂ (fun b g => striped m.info b endio.clone_write_endio g) bios groups := by
  intro bios
  induction bios with
  | nil =>
    intro fuel m r hfind hwait _
    refine ⟨m, [], ?_, ?_, fun _ _ => rfl, rfl, rfl, rfl, rfl, by simp, List.Forall₂.nil⟩
    · cases fuel <;> simp [drain_wait, hfind, hwait]
    · rw [hfind]
      cases r
      simp only [List.length_nil, Nat.cast_zero, add_zero] at *
      rw [hwait]
  | cons b rest ih =>
    intro fuel m r hfind hwait hfuel
    obtain ⟨f, rfl⟩ : ∃ f, fuel = f + 1 := ⟨fuel - 1, by simp at hfuel; omega⟩
    obtain ⟨m1, new, hk1, hrun, hinfo, _, hsock, _, _, _, hsub, _, _, hstr⟩ :=
      submit_rw_frame
        { m with info := update_region m.info regnum (fun r => get_region { r with wait := rest }) }
        b 1 (some ⟨0, 0, some regnum, none⟩) endio.clone_write_endio
    have hfind1 : find_region m1.info regnum = some ⟨r.count + 1, r.flags, r.regnum, rest⟩ := by
      rw [hinfo]
      simp [find_region_update_same, hfind, get_region]
    obtain ⟨m', groups, hrun', hreg', hoth', hsock', hreq', hmem', hdead', hsub', hall'⟩ :=
      ih f m1 ⟨r.count + 1, r.flags, r.regnum, rest⟩ hfind1 rfl (by simp at hfuel; omega)
    refine ⟨m', new :: groups, ?_, ?_, ?_, ?_, ?_, ?_, ?_, ?_, ?_⟩
    · simp only [drain_wait, hfind, hwait, submit_write]
      rw [hrun]
      exact hrun'
    · rw [hreg']
      simp only [List.length_cons, Nat.cast_add, Nat.cast_one]
      congr 2
      ring
    · intro other hne
      rw [hoth' other hne, hinfo]
      simp [find_region_update_other, hne]
    · rw [hsock', hsock]
    · rw [hreq', hinfo]
      rfl
    · rw [hmem', hinfo]
      rfl
    · rw [hdead', hinfo]
      rfl
    · rw [hsub', hsub]
      simp only [List.flatten, List.append_assoc]
    · refine List.Forall₂.cons hstr ?_
      rw [hinfo] at hall'
      exact hall'

theorem xor_one_div (f : Nat) : (f ^^^ 1) / 2 = f / 2 := by
  rw [Nat.xor_div_two]; simp

theorem xor_one_mod (f : Nat) : (f ^^^ 1) % 2 = 1 - f % 2 := by
  have h := Nat.testBit_xor f 1 0
  rw [Nat.testBit_zero, Nat.testBit_zero, Nat.testBit_one_zero] at h
  have h2 : f % 2 < 2 := Nat.mod_lt _ (by decide)
  have h3 : (f ^^^ 1) % 2 < 2 := Nat.mod_lt _ (by decide)
  by_cases hf : f % 2 = 1
  · rw [hf] at h
    simp only [decide_True, Bool.xor_self, decide_eq_false_iff_not] at h
    omega
  · have hd : decide (f % 2 = 1) = false := by simp [hf]
    rw [hd] at h
    simp only [Bool.false_xor, decide_eq_true_eq] at h
    omega

/-- The flag update of `do_defered`: afterwards `DESYNC` is the complement of
`synced` and the other flags are as before. -/
theorem resolve_desync (flags synced : Nat) (hs : synced = 0 ∨ synced = 1) :
    (if flags &&& DESYNC_FLAG = synced then flags ^^^ DESYNC_FLAG else flags) % 2 = 1 - synced ∧
    (if flags &&& DESYNC_FLAG = synced then flags ^^^ DESYNC_FLAG else flags) / 2 = flags / 2 := by
  have hand : flags &&& DESYNC_FLAG = flags % 2 := Nat.and_one_is_mod flags
  have h2 : flags % 2 < 2 := Nat.mod_lt _ (by decide)
  rw [hand]
  by_cases h : flags % 2 = synced
  · rw [if_pos h]
    exact ⟨by rw [show DESYNC_FLAG = 1 from rfl, xor_one_mod]; omega,
      by rw [show DESYNC_FLAG = 1 from rfl, xor_one_div]⟩
  · rw [if_neg h]
    exact ⟨by omega, rfl⟩

theorem eraseP_modify_first {α : Type} (p : α → Bool) (f : α → α) (hp : ∀ a, p (f a) = p a) :
    ∀ l : List α, (modify_first p f l).eraseP p = l.eraseP p := by
  intro l
  induction l with
  | nil => rfl
  | cons a l ih =>
    by_cases h : p a = true
    · have h2 : p (f a) = true := by rw [hp]; exact h
      simp [modify_first, h, List.eraseP_cons, h2]
    · have h1 : p a = false := by simpa using h
      simp [modify_first, h1, List.eraseP_cons, ih]

theorem find_region_free_updated (info : devinfo) (regnum : Nat) (f : region → region)
    (hf : ∀ r, (f r).regnum = r.regnum) (hok : table_ok info) :
    find_region (free_region_unlock (update_region info regnum f) regnum) regnum = none := by
  have h : (free_region_unlock (update_region info regnum f) regnum).hash
      = (free_region_unlock info regnum).hash := by
    simp only [free_region_unlock, update_region, Function.update_same, Function.update_idem]
    rw [eraseP_modify_first _ f (fun a => by simp [hf])]
  rw [find_region_congr _ _ h]
  exact find_region_free_same info regnum hok

theorem find_region_free_updated_other (info : devinfo) (regnum other : Nat)
    (f : region → region) (hf : ∀ r, (f r).regnum = r.regnum) (hne : other ≠ regnum) :
    find_region (free_region_unlock (update_region info regnum f) regnum) other
      = find_region info other := by
  rw [find_region_free_other _ _ _ hne]
  exact find_region_update_other info regnum other f hf hne

theorem drain_cleared (flags : Nat) : (flags &&& not32 DRAIN_FLAG) &&& DRAIN_FLAG = 0 := by
  rw [Nat.and_assoc]
  have h : not32 DRAIN_FLAG &&& DRAIN_FLAG = 0 := by decide
  rw [h, Nat.and_zero]

/-- What `release_region_unlock` does, case by case: what becomes of the record, what is
sent and what is queued. -/
theorem release_region_unlock_spec (m : machine) (regnum : Nat) (r : region)
    (hfind : find_region m.info regnum = some r) :
    ∃ m', release_region_unlock m regnum = some m' ∧
      m'.info.releases = m.info.releases ∧ m'.info.destroy_hold = m.info.destroy_hold ∧
      m'.info.destroy_sem = m.info.destroy_sem ∧ m'.timers = m.timers ∧
      m'.submitted = m.submitted ∧
      (∀ other, other ≠ regnum → find_region m'.info other = find_region m.info other) ∧
      if r.wait ≠ [] then
        find_region m'.info regnum
          = some { r with count := -1, flags := r.flags &&& not32 DRAIN_FLAG } ∧
        m'.sock = m.sock ++ [message.RELEASE_WRITE regnum] ∧
        m'.info.requests = m.info.requests ++ [regnum]
      else if r.flags &&& DESYNC_FLAG ≠ 0 ∧ regnum < m.info.highwater then
        find_region m'.info regnum = some { r with count := -2 } ∧
        m'.sock = m.sock ∧ m'.info.requests = m.info.requests
      else
        (table_ok m.info → find_region m'.info regnum = none) ∧
        m'.sock = m.sock ++ [message.RELEASE_WRITE regnum] ∧
        m'.info.requests = m.info.requests := by
  have hreg : r.regnum = regnum := find_region_regnum _ _ _ hfind
  by_cases hw : r.wait ≠ []
  · refine ⟨?w1, ?run1, ?a1, ?b1, ?c1, ?d1, ?e1, ?oth1, ?reg1⟩
    case run1 =>
      simp only [release_region_unlock, hfind]
      rw [if_pos hw]
      exact rfl
    case a1 => rfl
    case b1 => rfl
    case c1 => rfl
    case d1 => rfl
    case e1 => rfl
    case oth1 =>
      intro other hne
      simp [send_release, find_region_queue, find_region_update_other, hne]
    case reg1 =>
      rw [if_pos hw]
      refine ⟨?_, rfl, ?_⟩
      · simp [send_release, find_region_queue, find_region_update_same, hfind]
      · simp [send_release, queue_request, hreg]
        rfl
  · have hw' : ¬ (r.wait ≠ []) := hw
    by_cases hd : r.flags &&& DESYNC_FLAG ≠ 0 ∧ regnum < m.info.highwater
    · have hd' : is_desynced r ≠ 0 ∧ r.regnum < m.info.highwater := by
        rw [hreg]; exact hd
      refine ⟨?w2, ?run2, ?a2, ?b2, ?c2, ?d2, ?e2, ?oth2, ?reg2⟩
      case run2 =>
        simp only [release_region_unlock, hfind]
        rw [if_neg hw', if_pos hd']
        exact rfl
      case a2 => rfl
      case b2 => rfl
      case c2 => rfl
      case d2 => rfl
      case e2 => rfl
      case oth2 =>
        intro other hne
        simp [find_region_update_other, hne]
      case reg2 =>
        rw [if_neg hw', if_pos hd]
        refine ⟨?_, rfl, rfl⟩
        simp [find_region_update_same, hfind, set_region_count]
    · have hd' : ¬ (is_desynced r ≠ 0 ∧ r.regnum < m.info.highwater) := by
        rw [hreg]; exact hd
      refine ⟨?w3, ?run3, ?a3, ?b3, ?c3, ?d3, ?e3, ?oth3, ?reg3⟩
      case run3 =>
        simp only [release_region_unlock, hfind]
        rw [if_neg hw', if_neg hd']
        exact rfl
      case a3 => rfl
      case b3 => rfl
      case c3 => rfl
      case d3 => rfl
      case e3 => rfl
      case oth3 =>
        intro other hne
        exact find_region_free_other m.info regnum other hne
      case reg3 =>
        rw [if_neg hw', if_neg hd]
        refine ⟨?_, rfl, rfl⟩
        intro hok
        exact find_region_free_same m.info regnum hok

theorem map_modify_first {α β : Type} (p : α → Bool) (f : α → α) (g : α → β)
    (hg : ∀ a, g (f a) = g a) :
    ∀ l : List α, (modify_first p f l).map g = l.map g := by
  intro l
  induction l with
  | nil => rfl
  | cons a l ih =>
    by_cases h : p a = true
    · simp [modify_first, h, hg]
    · have h1 : p a = false := by simpa using h
      simp [modify_first, h1, ih]

theorem table_ok_update_region (info : devinfo) (regnum : Nat) (f : region → region)
    (hf : ∀ r, (f r).regnum = r.regnum) (hok : table_ok info) :
    table_ok (update_region info regnum f) := by
  intro k
  simp only [update_region]
  by_cases hk : k = hash_region regnum
  · subst hk
    rw [Function.update_same, map_modify_first _ f _ hf]
    exact hok _
  · rw [Function.update_noteq hk]
    exact hok _

/-- The body of the worker's release loop: either the count stays off zero and
the retire is dropped, or `release_region_unlock` runs on the record and the
destroy hold is lowered. -/
theorem worker_retire_spec (m : machine) (rt : retire) (rest : List retire) (r : region)
    (hrel : m.info.releases = rt :: rest)
    (hfind : find_region m.info rt.region = some r) :
    ∃ m', worker_retire m = some m' ∧ m'.info.releases = rest ∧ m'.timers = m.timers ∧
      m'.submitted = m.submitted ∧
      (∀ other, other ≠ rt.region → find_region m'.info other = find_region m.info other) ∧
      if r.count - 1 ≠ 0 then
        find_region m'.info rt.region = some { r with count := r.count - 1 } ∧
        m'.sock = m.sock ∧ m'.info.requests = m.info.requests ∧
        m'.info.destroy_hold = m.info.destroy_hold
      else
        m'.info.destroy_hold = m.info.destroy_hold - 1 ∧
        if r.wait ≠ [] then
          find_region m'.info rt.region
            = some { r with count := -1, flags := r.flags &&& not32 DRAIN_FLAG } ∧
          m'.sock = m.sock ++ [message.RELEASE_WRITE rt.region] ∧
          m'.info.requests = m.info.requests ++ [rt.region]
        else if r.flags &&& DESYNC_FLAG ≠ 0 ∧ rt.region < m.info.highwater then
          find_region m'.info rt.region = some { r with count := -2 } ∧
          m'.sock = m.sock ∧ m'.info.requests = m.info.requests
        else
          (table_ok m.info → find_region m'.info rt.region = none) ∧
          m'.sock = m.sock ++ [message.RELEASE_WRITE rt.region] ∧
          m'.info.requests = m.info.requests := by
  have hfind1 : find_region { m.info with releases := rest } rt.region = some r := hfind
  have hfind2 : find_region (update_region { m.info with releases := rest } rt.region
      (fun r => (put_region_test_zero r).1)) rt.region = some { r with count := r.count - 1 } := by
    simp [find_region_update_same, hfind1, put_region_test_zero]
  by_cases hnz : r.count - 1 ≠ 0
  · have hnz' : ¬ ((put_region_test_zero r).2 = true) := by
      simp only [put_region_test_zero, beq_iff_eq]
      exact hnz
    refine ⟨?w1, ?run1, ?a1, ?b1, ?c1, ?oth1, ?reg1⟩
    case run1 =>
      simp only [worker_retire, hrel, hfind1]
      rw [if_pos hnz']
      exact rfl
    case a1 => rfl
    case b1 => rfl
    case c1 => rfl
    case oth1 =>
      intro other hne
      simp [find_region_update_other, hne]
      rfl
    case reg1 =>
      rw [if_pos hnz]
      exact ⟨hfind2, rfl, rfl, rfl⟩
  · have hz' : ¬ ¬ ((put_region_test_zero r).2 = true) := by
      simp only [put_region_test_zero, beq_iff_eq, not_not]
      exact not_not.mp hnz
    obtain ⟨m3, hrun3, hrel3, hhold3, _, htim3, hsub3, hoth3, hreg3⟩ :=
      release_region_unlock_spec
        ⟨update_region { m.info with releases := rest } rt.region
            (fun r => (put_region_test_zero r).1),
          m.mem, m.next_page, m.sock, m.submitted, m.stacked, m.bounces, m.timers, m.ended,
          m.control⟩
        rt.region _ hfind2
    refine ⟨?w2, ?run2, ?a2, ?b2, ?c2, ?oth2, ?reg2⟩
    case run2 =>
      simp only [worker_retire, hrel, hfind1]
      rw [if_neg hz', hrun3]
      exact rfl
    case a2 => exact hrel3
    case b2 => exact htim3
    case c2 => exact hsub3
    case oth2 =>
      intro other hne
      show find_region m3.info other = _
      rw [hoth3 other hne]
      simp [find_region_update_other, hne]
      rfl
    case reg2 =>
      rw [if_neg hnz]
      refine ⟨?_, ?_⟩
      · show m3.info.destroy_hold - 1 = _
        rw [hhold3]
        rfl
      · have hreg3' :
            if r.wait ≠ [] then
              find_region m3.info rt.region
                = some ⟨-1, r.flags &&& not32 DRAIN_FLAG, r.regnum, r.wait⟩ ∧
              m3.sock = m.sock ++ [message.RELEASE_WRITE rt.region] ∧
              m3.info.requests = m.info.requests ++ [rt.region]
            else if r.flags &&& DESYNC_FLAG ≠ 0 ∧ rt.region < m.info.highwater then
              find_region m3.info rt.region = some ⟨-2, r.flags, r.regnum, r.wait⟩ ∧
              m3.sock = m.sock ∧ m3.info.requests = m.info.requests
            else
              (table_ok (update_region { m.info with releases := rest } rt.region
                  (fun r => (put_region_test_zero r).1)) →
                find_region m3.info rt.region = none) ∧
              m3.sock = m.sock ++ [message.RELEASE_WRITE rt.region] ∧
              m3.info.requests = m.info.requests := hreg3
        by_cases hw : r.wait ≠ []
        · rw [if_pos hw] at hreg3' ⊢
          exact hreg3'
        · rw [if_neg hw] at hreg3' ⊢
          by_cases hd : r.flags &&& DESYNC_FLAG ≠ 0 ∧ rt.region < m.info.highwater
          · rw [if_pos hd] at hreg3' ⊢
            exact hreg3'
          · rw [if_neg hd] at hreg3' ⊢
            refine ⟨?_, hreg3'.2.1, hreg3'.2.2⟩
            intro hok
            apply hreg3'.1
            exact table_ok_update_region _ _ _ (fun _ => rfl) hok

theorem table_ok_with_record (members k bits : Nat) (r : region) :
    table_ok (with_record (created members k bits) r) := by
  intro j
  simp only [with_record, created]
  by_cases hj : j = hash_region r.regnum
  · subst hj
    simp
  · rw [Function.update_noteq hj]
    simp

/-! ## Claims about the dispatcher -/

/-- C5: the write path of `ddraid_map` that follows the `NOSYNC` block.  A
record for the region with `count ≥ 0` and `DRAIN` unset gets its count raised
by one, the write is submitted striped and no query is queued.  Otherwise the
write goes to the tail of the region's wait list and nothing is submitted; a
`REQUEST_WRITE` query is queued and the count set to `-1` exactly when there was
no record (one is installed) or the record had count `-2`; any other record
keeps its count and gets no query.  Other regions are not touched. -/
theorem ddraid_map_write_grants (m : machine) (b : bio) (regnum : Nat) :
    ∃ m', ddraid_map_write m b regnum = some (0, m') ∧
      (∀ other, other ≠ regnum → find_region m'.info other = find_region m.info other) ∧
      m'.sock = m.sock ∧
      match find_region m.info regnum with
      | none =>
        find_region m'.info regnum = some ⟨-1, 0, regnum, [b]⟩ ∧
        m'.info.requests = m.info.requests ++ [regnum] ∧ m'.submitted = m.submitted
      | some r =>
        if 0 ≤ r.count ∧ r.flags &&& DRAIN_FLAG = 0 then
          find_region m'.info regnum = some { r with count := r.count + 1 } ∧
          m'.info.requests = m.info.requests ∧
          ∃ clones, m'.submitted = m.submitted ++ clones ∧
            striped m.info b endio.clone_write_endio clones
        else if r.count = -2 then
          find_region m'.info regnum = some { r with count := -1, wait := r.wait ++ [b] } ∧
          m'.info.requests = m.info.requests ++ [regnum] ∧ m'.submitted = m.submitted
        else
          find_region m'.info regnum = some { r with wait := r.wait ++ [b] } ∧
          m'.info.requests = m.info.requests ∧ m'.submitted = m.submitted :=
  ddraid_map_write_spec m b regnum

/-- C6, as stated, fails: on a device with no region record at all and nothing
sent to the server, an aligned 4 KiB write entering through `ddraid_map_bogus`
is submitted to the three members at once. -/
theorem ungranted_write_is_submitted :
    find_region (fresh (created 3 1 12)).info 0 = none ∧
    (ddraid_map_bogus (fresh (created 3 1 12)) (write_4k 0 100)).map (fun x => x.1) = some 0 ∧
    (ddraid_map_bogus (fresh (created 3 1 12)) (write_4k 0 100)).map
      (fun x => x.2.submitted.map (fun rq => rq.disk)) = some [0, 1, 2] ∧
    (ddraid_map_bogus (fresh (created 3 1 12)) (write_4k 0 100)).map
      (fun x => x.2.submitted.map (fun rq => rq.bi_private))
      = some [some (write_4k 0 100), some (write_4k 0 100), some (write_4k 0 100)] ∧
    (ddraid_map_bogus (fresh (created 3 1 12)) (write_4k 0 100)).map (fun x => x.2.sock)
      = some [] ∧
    (ddraid_map_bogus (fresh (created 3 1 12)) (write_4k 0 100)).bind
      (fun x => find_region x.2.info 0) = none := by
  decide

/-- C6, amended: as built (`NOSYNC = 1`), once the region size has been
announced (an exponent below 32) the dispatcher entry point submits every
block-aligned write no larger than a region at once, whatever the region table
holds and without any message to the server; it is the write path after the
`NOSYNC` block that submits a write only when the region has a record with
`count ≥ 0` (and `DRAIN` unset) and parks it otherwise. -/
theorem write_gate_as_built (m : machine) (b : bio)
    (hrb : m.info.region_size_bits < 32)
    (hsz : b.bi_size ≤ 1 <<< m.info.region_size_bits)
    (hsec : (b.bi_sector % 2 ^ 32) &&& ((1 <<< (m.info.blocksize_bits - SECTOR_SHIFT)) - 1) = 0)
    (hlen : b.bi_size &&& (blocksize m.info - 1) = 0)
    (hw : bio_data_dir b ≠ READ) :
    (∃ m', ddraid_map_bogus m b = some (0, m') ∧ m'.info = m.info ∧ m'.sock = m.sock ∧
      ∃ clones, m'.submitted = m.submitted ++ clones ∧
        striped m.info b endio.clone_endio clones) ∧
    (∀ regnum, ∃ m', ddraid_map_write m b regnum = some (0, m') ∧
      (m'.submitted ≠ m.submitted →
        ∃ r, find_region m.info regnum = some r ∧ 0 ≤ r.count ∧ r.flags &&& DRAIN_FLAG = 0) ∧
      ((find_region m.info regnum = none ∨
          ∃ r, find_region m.info regnum = some r ∧ (r.count = -1 ∨ r.count = -2)) →
        m'.submitted = m.submitted ∧
        ∃ r', find_region m'.info regnum = some r' ∧ r'.count = -1 ∧ b ∈ r'.wait)) := by
  constructor
  · have hshake : m.info.region_size_bits ≠ 2 ^ 32 - 1 := by omega
    have hb : ddraid_map_bogus m b = ddraid_map m b := by
      simp only [ddraid_map_bogus, hshake, if_false]
    rw [hb]
    rw [← region_limit_eq _ hrb] at hsz
    exact ddraid_map_nosync_write m b hsz hsec hlen hw
  · intro regnum
    obtain ⟨m', hrun, _, _, hreg⟩ := ddraid_map_write_spec m b regnum
    refine ⟨m', hrun, ?_, ?_⟩
    · intro hsub
      cases hfind : find_region m.info regnum with
      | none =>
        rw [hfind] at hreg
        exact absurd hreg.2.2 hsub
      | some r =>
        rw [hfind] at hreg
        dsimp only at hreg
        by_cases hgrant : 0 ≤ r.count ∧ r.flags &&& DRAIN_FLAG = 0
        · exact ⟨r, rfl, hgrant.1, hgrant.2⟩
        · rw [if_neg hgrant] at hreg
          by_cases h2 : r.count = -2
          · rw [if_pos h2] at hreg
            exact absurd hreg.2.2 hsub
          · rw [if_neg h2] at hreg
            exact absurd hreg.2.2 hsub
    · intro hno
      rcases hno with hnone | ⟨r, hfind, hcnt⟩
      · rw [hnone] at hreg
        exact ⟨hreg.2.2, _, hreg.1, rfl, by simp⟩
      · rw [hfind] at hreg
        dsimp only at hreg
        have hgrant : ¬ (0 ≤ r.count ∧ r.flags &&& DRAIN_FLAG = 0) := by
          intro h
          omega
        rw [if_neg hgrant] at hreg
        by_cases h2 : r.count = -2
        · rw [if_pos h2] at hreg
          exact ⟨hreg.2.2, _, hreg.1, rfl, by simp⟩
        · rw [if_neg h2] at hreg
          have h1 : r.count = -1 := by omega
          exact ⟨hreg.2.2, _, hreg.1, h1, by simp⟩

/-- Witness for the amended C6: the aligned 4 KiB write on the fresh
three-member device. -/
theorem write_gate_as_built_witness :
    (∃ m', ddraid_map_bogus (fresh (created 3 1 12)) (write_4k 0 100) = some (0, m') ∧
      m'.info = (fresh (created 3 1 12)).info ∧ m'.sock = (fresh (created 3 1 12)).sock ∧
      ∃ clones, m'.submitted = (fresh (created 3 1 12)).submitted ++ clones ∧
        striped (fresh (created 3 1 12)).info (write_4k 0 100) endio.clone_endio clones) ∧
    (∀ regnum, ∃ m', ddraid_map_write (fresh (created 3 1 12)) (write_4k 0 100) regnum
        = some (0, m') ∧
      (m'.submitted ≠ (fresh (created 3 1 12)).submitted →
        ∃ r, find_region (fresh (created 3 1 12)).info regnum = some r ∧ 0 ≤ r.count ∧
          r.flags &&& DRAIN_FLAG = 0) ∧
      ((find_region (fresh (created 3 1 12)).info regnum = none ∨
          ∃ r, find_region (fresh (created 3 1 12)).info regnum = some r ∧
            (r.count = -1 ∨ r.count = -2)) →
        m'.submitted = (fresh (created 3 1 12)).submitted ∧
        ∃ r', find_region m'.info regnum = some r' ∧ r'.count = -1 ∧
          write_4k 0 100 ∈ r'.wait)) :=
  write_gate_as_built (fresh (created 3 1 12)) (write_4k 0 100) (by decide) (by decide)
    (by decide) (by decide) (by decide)

/-! ## Claims about the protocol engine -/

/-- C7: `do_defered` for a grant on a region with `k ≥ 1` deferred writes (as a
region in REQUESTED state has), no completion arriving meanwhile.  Afterwards
`DESYNC` is clear for `GRANT_SYNCED` (`synced = 1`) and set for `GRANT_UNSYNCED`
(`synced = 0`), the other flags are unchanged, the wait list is empty, the `k`
writes have been submitted striped in the order they were parked, and the count
is `k`: one per write, the extra count of the drain dropped again.  Nothing is
sent and no query is queued. -/
theorem do_defered_drains (m : machine) (regnum synced : Nat) (r : region)
    (hfind : find_region m.info regnum = some r) (hk : r.wait ≠ [])
    (hs : synced = 0 ∨ synced = 1) :
    ∃ m' r' groups, do_defered m regnum synced = some m' ∧
      find_region m'.info regnum = some r' ∧
      r'.count = (r.wait.length : Int) ∧ r'.wait = [] ∧
      r'.flags % 2 = 1 - synced ∧ r'.flags / 2 = r.flags / 2 ∧
      m'.submitted = m.submitted ++ groups.flatten ∧
      List.Forall₂ (fun b g => striped m.info b endio.clone_write_endio g) r.wait groups ∧
      m'.sock = m.sock ∧ m'.info.requests = m.info.requests := by
  obtain ⟨hmod, hdiv⟩ := resolve_desync r.flags synced hs
  have hfind2 : find_region
      (if is_desynced r = synced then
        update_region (update_region m.info regnum (fun r => set_region_count r 1)) regnum
          (fun r => { r with flags := r.flags ^^^ DESYNC_FLAG })
      else update_region m.info regnum (fun r => set_region_count r 1)) regnum
      = some ⟨1, if r.flags &&& DESYNC_FLAG = synced then r.flags ^^^ DESYNC_FLAG else r.flags,
          r.regnum, r.wait⟩ := by
    by_cases h : is_desynced r = synced
    · have h' : r.flags &&& DESYNC_FLAG = synced := h
      rw [if_pos h, if_pos h']
      simp [find_region_update_same, hfind, set_region_count]
    · have h' : ¬ (r.flags &&& DESYNC_FLAG = synced) := h
      rw [if_neg h, if_neg h']
      simp [find_region_update_same, hfind, set_region_count]
  obtain ⟨m1, groups, hrun1, hreg1, _, hsock1, hreq1, hmem1, hdead1, hsub1, hall1⟩ :=
    drain_wait_spec regnum r.wait r.wait.length
      { m with info :=
          (if is_desynced r = synced then
            update_region (update_region m.info regnum (fun r => set_region_count r 1)) regnum
              (fun r => { r with flags := r.flags ^^^ DESYNC_FLAG })
          else update_region m.info regnum (fun r => set_region_count r 1)) }
      _ hfind2 rfl (Nat.le_refl _)
  have hlen : 0 < r.wait.length := List.length_pos.mpr hk
  have hnz : ((1 : Int) + (r.wait.length : Int) - 1 == 0) = false := by
    simp only [beq_eq_false_iff_ne, ne_eq]
    omega
  refine ⟨?w, ?r, groups, ?run, ?reg, ?cnt, ?wt, ?fl1, ?fl2, ?sub, ?all, ?sock, ?req⟩
  case run =>
    simp only [do_defered, hfind]
    rw [hrun1]
    simp only [hreg1, put_region_test_zero, hnz, Bool.false_eq_true, if_false]
    exact rfl
  case reg =>
    simp [find_region_update_same, hreg1]
    exact rfl
  case cnt => simp [put_region_test_zero]
  case wt => rfl
  case fl1 => exact hmod
  case fl2 => exact hdiv
  case sub => exact hsub1
  case all =>
    refine List.Forall₂.imp ?_ hall1
    intro b g hstr
    refine striped_congr m.info _ b _ g ?_ ?_ hstr
    · split <;> rfl
    · split <;> rfl
  case sock => exact hsock1
  case req =>
    show m1.info.requests = m.info.requests
    rw [hreq1]
    show (ite _ _ _ : devinfo).requests = _
    split <;> rfl

/-- Witness for C7: `GRANT_SYNCED` for region 0 with two writes parked. -/
theorem do_defered_drains_witness :
    (find_region two_parked.info 0 = some ⟨-1, 0, 0, [write_4k 0 100, write_4k 8 101]⟩ ∧
      [write_4k 0 100, write_4k 8 101] ≠ []) ∧
    ∃ m' r' groups, do_defered two_parked 0 1 = some m' ∧
      find_region m'.info 0 = some r' ∧
      r'.count = 2 ∧ r'.wait = [] ∧ r'.flags % 2 = 1 - 1 ∧ r'.flags / 2 = 0 / 2 ∧
      m'.submitted = two_parked.submitted ++ groups.flatten ∧
      List.Forall₂ (fun b g => striped two_parked.info b endio.clone_write_endio g)
        [write_4k 0 100, write_4k 8 101] groups ∧
      m'.sock = two_parked.sock ∧ m'.info.requests = two_parked.info.requests :=
  ⟨⟨by decide, by decide⟩,
    do_defered_drains two_parked 0 1 ⟨-1, 0, 0, [write_4k 0 100, write_4k 8 101]⟩
      (by decide) (by decide) (Or.inr rfl)⟩

/-- C8: the worker processing the retire record at the head of `releases`, for
a region whose count holds the delayed-release hold (`count ≥ 1`).  If the
count stays above zero once the hold is dropped, the record keeps its flags and
wait list, nothing is sent and nothing queued.  Otherwise: with waiters the
record is kept with count `-1`, `DRAIN` cleared, and one `REQUEST_WRITE` query
queued; else a desynced region below the highwater is kept with count `-2`;
else the record is removed from the table. -/
theorem worker_retire_cases (m : machine) (rt : retire) (rest : List retire) (r : region)
    (hrel : m.info.releases = rt :: rest)
    (hfind : find_region m.info rt.region = some r)
    (hhold : 1 ≤ r.count) (hok : table_ok m.info) :
    ∃ m', worker_retire m = some m' ∧ m'.info.releases = rest ∧
      (∀ other, other ≠ rt.region → find_region m'.info other = find_region m.info other) ∧
      if 0 < r.count - 1 then
        find_region m'.info rt.region = some { r with count := r.count - 1 } ∧
        m'.sock = m.sock ∧ m'.info.requests = m.info.requests
      else if r.wait ≠ [] then
        find_region m'.info rt.region
          = some { r with count := -1, flags := r.flags &&& not32 DRAIN_FLAG } ∧
        (r.flags &&& not32 DRAIN_FLAG) &&& DRAIN_FLAG = 0 ∧
        m'.info.requests = m.info.requests ++ [rt.region]
      else if r.flags &&& DESYNC_FLAG ≠ 0 ∧ rt.region < m.info.highwater then
        find_region m'.info rt.region = some { r with count := -2 } ∧
        m'.info.requests = m.info.requests
      else
        find_region m'.info rt.region = none ∧ m'.info.requests = m.info.requests := by
  obtain ⟨m', hrun, hrel', _, _, hoth, hreg⟩ := worker_retire_spec m rt rest r hrel hfind
  refine ⟨m', hrun, hrel', hoth, ?_⟩
  by_cases hpos : 0 < r.count - 1
  · have hnz : r.count - 1 ≠ 0 := by omega
    rw [if_pos hpos]
    rw [if_pos hnz] at hreg
    exact ⟨hreg.1, hreg.2.1, hreg.2.2.1⟩
  · have hz : ¬ (r.count - 1 ≠ 0) := by omega
    rw [if_neg hpos]
    rw [if_neg hz] at hreg
    obtain ⟨_, hreg⟩ := hreg
    by_cases hw : r.wait ≠ []
    · rw [if_pos hw] at hreg ⊢
      exact ⟨hreg.1, drain_cleared _, hreg.2.2⟩
    · rw [if_neg hw] at hreg ⊢
      by_cases hd : r.flags &&& DESYNC_FLAG ≠ 0 ∧ rt.region < m.info.highwater
      · rw [if_pos hd] at hreg ⊢
        exact ⟨hreg.1, hreg.2.2⟩
      · rw [if_neg hd] at hreg ⊢
        exact ⟨hreg.1 hok, hreg.2.2⟩

/-- Witness for C8: region 3 drained while its release was delayed, one write
waiting. -/
theorem worker_retire_cases_witness :
    (drained_retire.info.releases = [⟨3, true⟩] ∧
      find_region drained_retire.info 3 = some ⟨1, DRAIN_FLAG, 3, [write_4k 384 100]⟩ ∧
      (1 : Int) ≤ 1 ∧ table_ok drained_retire.info) ∧
    ∃ m', worker_retire drained_retire = some m' ∧ m'.info.releases = [] ∧
      (∀ other, other ≠ 3 → find_region m'.info other = find_region drained_retire.info other) ∧
      find_region m'.info 3 = some ⟨-1, DRAIN_FLAG &&& not32 DRAIN_FLAG, 3, [write_4k 384 100]⟩ ∧
      (DRAIN_FLAG &&& not32 DRAIN_FLAG) &&& DRAIN_FLAG = 0 ∧
      m'.info.requests = drained_retire.info.requests ++ [3] :=
  ⟨⟨rfl, by decide, by decide, table_ok_with_record 3 1 16 _⟩,
    worker_retire_cases drained_retire ⟨3, true⟩ [] ⟨1, DRAIN_FLAG, 3, [write_4k 384 100]⟩
      rfl (by decide) (by decide) (table_ok_with_record 3 1 16 _)⟩

/-- C9 at its failing input: for a desynced region below the highwater whose
count has reached zero, `release_region_unlock` keeps the record with count
`-2` and sends nothing. -/
theorem release_desynced_sends_nothing :
    find_region desynced_idle.info 3 = some ⟨0, DESYNC_FLAG, 3, []⟩ ∧
    desynced_idle.sock = [] ∧
    (release_region_unlock desynced_idle 3).map (fun m => m.sock) = some [] ∧
    (release_region_unlock desynced_idle 3).bind (fun m => find_region m.info 3)
      = some ⟨-2, DESYNC_FLAG, 3, []⟩ := by
  decide

/-! ## Pause and the worker -/

theorem pause_sets_finish (flags : Nat) : (flags ||| PAUSE_FLAG) &&& FINISH_FLAG ≠ 0 := by
  intro h
  have h1 := congrArg (fun n => Nat.testBit n 2) h
  have h4 : Nat.testBit 4 2 = true := by decide
  simp [PAUSE_FLAG, FINISH_FLAG, Nat.testBit_and, Nat.testBit_or, h4] at h1

theorem pause_sets_either (flags : Nat) :
    (flags ||| PAUSE_FLAG) &&& (FINISH_FLAG ||| PAUSE_FLAG) ≠ 0 := by
  have h : FINISH_FLAG ||| PAUSE_FLAG = FINISH_FLAG := by decide
  rw [h]
  exact pause_sets_finish flags

theorem worker_requests_stopped (m : machine)
    (h : m.info.flags &&& (FINISH_FLAG ||| PAUSE_FLAG) ≠ 0) :
    ∀ fuel, worker_requests fuel m = some m := by
  intro fuel
  cases fuel <;> simp [worker_requests, h]

theorem worker_releases_stopped (m : machine) (h : running m.info = false) :
    ∀ fuel, worker_releases fuel m = some m := by
  intro fuel
  cases fuel <;> simp [worker_releases, h]

/-- C11 at its failing input, which is every state: `PAUSE_FLAG` and
`FINISH_FLAG` are the same bit of `info->flags`, so once `incoming` has handled
`PAUSE_REQUESTS` the test `running(info)` fails; a pass of the worker then
sends nothing and leaves both the queued queries and every retire record on
`releases` where they were. -/
theorem pause_requests_stops_releases (m : machine) :
    ∃ m1, incoming_message m inbound.PAUSE_REQUESTS = some m1 ∧
      running m1.info = false ∧
      ∃ m2, worker m1 = some m2 ∧ m2.sock = m1.sock ∧
        m2.info.requests = m1.info.requests ∧ m2.info.releases = m1.info.releases ∧
        m2.info.releases = m.info.releases ∧ m2.info.hash = m.info.hash := by
  have hr : running ({ m with info := { m.info with flags := m.info.flags ||| PAUSE_FLAG } } :
      machine).info = false := by
    simpa [running] using pause_sets_finish m.info.flags
  have hw : worker { m with info := { m.info with flags := m.info.flags ||| PAUSE_FLAG } }
      = some { m with info := { m.info with flags := m.info.flags ||| PAUSE_FLAG,
                                            more_work_sem := m.info.more_work_sem - 1 } } := by
    unfold worker
    simp only []
    rw [worker_requests_stopped _ (by simpa using pause_sets_either m.info.flags)]
    simp only []
    rw [worker_releases_stopped _ (by simpa [running] using pause_sets_finish m.info.flags)]
  exact ⟨_, rfl, hr, _, hw, rfl, rfl, rfl, rfl, rfl⟩

/-! ## Claims about balancing and striping -/

/-- C16 refuted as worded: on a two-member device fresh from `ddraid_create`,
16 block-aligned reads of `balance_den / 16` bytes do not alternate; the first
fifteen all go to member 0 and only the sixteenth goes to member 1. -/
theorem balance_does_not_alternate :
    (ddraid_map_each (fresh (created 2 0 20)) ((List.range 16).map read_128k)).map
        (fun m => m.submitted.map (fun rq => rq.disk))
      = some [0, 0, 0, 0, 0, 0, 0, 0, 0, 0, 0, 0, 0, 0, 0, 1] := by
  decide

/-- C17 refuted as worded: on a three-member device with no dead member a
block-aligned read is cloned to all three members, the parity member 2
included. -/
theorem aligned_read_reads_parity :
    (ddraid_map (fresh (created 3 1 16)) (read_4k 0 100)).map
        (fun p => (p.1, p.2.submitted.map (fun rq => (rq.disk, rq.bi_end_io))))
      = some (0, [(0, some endio.clone_read_endio), (1, some endio.clone_read_endio),
                  (2, some endio.clone_read_endio)]) := by
  decide

/-! ## Alignment lemmas -/

theorem blocksize_div (info : devinfo) (hb : SECTOR_SHIFT ≤ info.blocksize_bits) :
    blocksize info / 512 = 2 ^ (info.blocksize_bits - SECTOR_SHIFT) := by
  unfold blocksize
  unfold SECTOR_SHIFT at *
  rw [Nat.one_shiftLeft]
  have h : (512 : Nat) = 2 ^ 9 := by norm_num
  rw [h, Nat.pow_div hb (by norm_num)]

theorem blocksize_mul (info : devinfo) (hb : SECTOR_SHIFT ≤ info.blocksize_bits) :
    blocksize info = 2 ^ (info.blocksize_bits - SECTOR_SHIFT) * 512 := by
  unfold blocksize
  unfold SECTOR_SHIFT at *
  rw [Nat.one_shiftLeft]
  have h : (512 : Nat) = 2 ^ 9 := by norm_num
  rw [h, ← pow_add]
  congr 1
  omega

theorem sector_mask (info : devinfo) (b : bio) (hb : SECTOR_SHIFT ≤ info.blocksize_bits)
    (hb32 : info.blocksize_bits ≤ 32) :
    (b.bi_sector % 2 ^ 32) &&& ((1 <<< (info.blocksize_bits - SECTOR_SHIFT)) - 1)
      = b.bi_sector % (blocksize info / 512) := by
  rw [blocksize_div info hb, Nat.one_shiftLeft, Nat.and_pow_two_sub_one_eq_mod]
  exact Nat.mod_mod_of_dvd _ (pow_dvd_pow 2 (by omega))

theorem size_mask (info : devinfo) (b : bio) :
    b.bi_size &&& (blocksize info - 1) = b.bi_size % blocksize info := by
  unfold blocksize
  rw [Nat.one_shiftLeft, Nat.and_pow_two_sub_one_eq_mod]

/-- The alignment test of `ddraid_map` in terms of remainders. -/
theorem odd_test_iff (info : devinfo) (b : bio) (hb : SECTOR_SHIFT ≤ info.blocksize_bits)
    (hb32 : info.blocksize_bits ≤ 32) :
    ((b.bi_sector % 2 ^ 32) &&& ((1 <<< (info.blocksize_bits - SECTOR_SHIFT)) - 1) ≠ 0
      ∨ b.bi_size &&& (blocksize info - 1) ≠ 0) ↔ misaligned info b := by
  rw [sector_mask info b hb hb32, size_mask]
  rfl

/-- The test for a request that runs over the end of its block, for a request
of whole sectors. -/
theorem long_test_iff (info : devinfo) (b : bio) (hb : SECTOR_SHIFT ≤ info.blocksize_bits)
    (hb32 : info.blocksize_bits ≤ 32) (h512 : 512 ∣ b.bi_size) :
    ((b.bi_sector % 2 ^ 32) &&& ((1 <<< (info.blocksize_bits - SECTOR_SHIFT)) - 1))
        + (b.bi_size >>> SECTOR_SHIFT) > 1 <<< (info.blocksize_bits - SECTOR_SHIFT)
      ↔ ¬ within_block info b := by
  rw [sector_mask info b hb hb32, Nat.shiftRight_eq_div_pow, Nat.one_shiftLeft]
  unfold within_block
  obtain ⟨q, hq⟩ := h512
  have h1 := blocksize_mul info hb
  have h2 := blocksize_div info hb
  have h3 : b.bi_size / 2 ^ SECTOR_SHIFT = q := by
    rw [hq]
    exact Nat.mul_div_cancel_left q (by decide)
  rw [h3, h2]
  generalize b.bi_sector % 2 ^ (info.blocksize_bits - SECTOR_SHIFT) = a
  rw [h1, hq]
  generalize 2 ^ (info.blocksize_bits - SECTOR_SHIFT) = P
  omega

theorem balance_step_members (info : devinfo) (size : Nat) :
    (balance_step info size).members = info.members := by
  unfold balance_step
  simp only []
  split <;> rfl

theorem balance_step_dead (info : devinfo) (size : Nat) :
    (balance_step info size).dead = info.dead := by
  unfold balance_step
  simp only []
  split <;> rfl

/-- As built (`NOSYNC`), a block-aligned read takes the balancing step and goes
to the member `balance` selects when there are two members, to `submit_rw`
otherwise. -/
theorem ddraid_map_nosync_read (m : machine) (b : bio)
    (hsz : b.bi_size ≤ region_limit m.info)
    (hsec : (b.bi_sector % 2 ^ 32) &&& ((1 <<< (m.info.blocksize_bits - SECTOR_SHIFT)) - 1) = 0)
    (hlen : b.bi_size &&& (blocksize m.info - 1) = 0)
    (hr : bio_data_dir b = READ) :
    ddraid_map m b =
      if m.info.members = 2 then
        some ((0 : Int), submit_bdev { m with info := balance_step m.info b.bi_size } b
          (balance_step m.info b.bi_size).balance)
      else
        match submit_rw { m with info := balance_step m.info b.bi_size } b 1 none
            endio.clone_read_endio with
        | none => none
        | some m2 => some ((0 : Int), m2) := by
  have hnr : ¬ (NORAID ≠ 0) := by decide
  have hns : NOSYNC ≠ 0 := by decide
  have hal : ¬ ((b.bi_sector % 2 ^ 32) &&& ((1 <<< (m.info.blocksize_bits - SECTOR_SHIFT)) - 1) ≠ 0
      ∨ b.bi_size &&& (blocksize m.info - 1) ≠ 0) := by
    rw [hsec, hlen]; simp
  have hrd : (bio_data_dir b == READ) = true := by simpa using hr
  simp only [ddraid_map, hsz, not_true_eq_false, if_false, hnr, hal, if_true, hrd,
    balance_step_members]
  exact if_pos hns

/-- An odd request fails when it runs over the end of its block or is a write;
an odd read inside one block goes out as a bounce. -/
theorem ddraid_map_odd (m : machine) (b : bio)
    (hsz : b.bi_size ≤ region_limit m.info)
    (hodd : (b.bi_sector % 2 ^ 32) &&& ((1 <<< (m.info.blocksize_bits - SECTOR_SHIFT)) - 1) ≠ 0
      ∨ b.bi_size &&& (blocksize m.info - 1) ≠ 0) :
    ddraid_map m b =
      if ((b.bi_sector % 2 ^ 32) &&& ((1 <<< (m.info.blocksize_bits - SECTOR_SHIFT)) - 1))
            + (b.bi_size >>> SECTOR_SHIFT) > 1 <<< (m.info.blocksize_bits - SECTOR_SHIFT)
          ∨ ¬ ((bio_data_dir b == READ) = true) then
        some (- EIO, m)
      else
        match submit_rw
            { m with next_page := m.next_page + 1,
                     bounces := m.bounces ++ [⟨bounce_of m.info b m.next_page, b,
                       odd_offset m.info b⟩] }
            (bounce_of m.info b m.next_page) 1 none endio.clone_read_endio with
        | none => none
        | some m2 => some ((0 : Int), m2) := by
  have hnr : ¬ (NORAID ≠ 0) := by decide
  simp only [ddraid_map, hsz, not_true_eq_false, if_false, hnr, hodd, if_true]
  rfl

theorem live_disks_all (info : devinfo) (h : info.dead = -1) :
    live_disks info = List.range info.members := by
  unfold live_disks
  rw [h]
  apply List.filter_eq_self.mpr
  intro d _
  simp only [decide_eq_true_eq]
  omega

/-! ## Claims about reads and alignment -/

/-- C17 as the code has it: for every block-aligned read no larger than a
region (region size exponent below 32) on a device of three or more members
with no dead member, `ddraid_map` returns 0 and `submit_rw` issues exactly N
child reads, one to each member 0..N-1 in order, the parity member N-1
included, each carrying `clone_read_endio` as its completion. -/
theorem aligned_read_clones_every_member (m : machine) (b : bio)
    (hN : 3 ≤ m.info.members) (hdead : m.info.dead = -1)
    (hb : SECTOR_SHIFT ≤ m.info.blocksize_bits) (hb32 : m.info.blocksize_bits ≤ 32)
    (hrb : m.info.region_size_bits < 32)
    (hsz : b.bi_size ≤ 1 <<< m.info.region_size_bits)
    (hal : ¬ misaligned m.info b) (hr : bio_data_dir b = READ) :
    ∃ m1 clones, ddraid_map m b = some (0, m1) ∧ m1.submitted = m.submitted ++ clones ∧
      clones.map (fun rq => rq.disk) = List.range m.info.members ∧
      clones.length = m.info.members ∧
      (∃ rq, rq ∈ clones ∧ rq.disk = m.info.members - 1) ∧
      ∀ rq, rq ∈ clones →
        rq.bi_private = some b ∧ rq.bi_end_io = some endio.clone_read_endio := by
  have hodd := (odd_test_iff m.info b hb hb32).not.mpr hal
  rw [not_or, not_not, not_not] at hodd
  rw [← region_limit_eq _ hrb] at hsz
  obtain ⟨m1, new, hk1, hrun, _, _, _, _, _, _, hsub, _, _, hstr⟩ :=
    submit_rw_frame { m with info := balance_step m.info b.bi_size } b 1 none
      endio.clone_read_endio
  have h2 : ¬ m.info.members = 2 := by omega
  have hmap : new.map (fun rq => rq.disk) = List.range m.info.members := by
    rw [hstr.1, ← balance_step_members m.info b.bi_size]
    exact live_disks_all _ (by rw [balance_step_dead]; exact hdead)
  refine ⟨m1, new, ?_, hsub, hmap, ?_, ?_, hstr.2⟩
  · rw [ddraid_map_nosync_read m b hsz hodd.1 hodd.2 hr, if_neg h2, hrun]
  · have h := congrArg List.length hmap
    simpa using h
  · have hmem : m.info.members - 1 ∈ new.map (fun rq => rq.disk) := by
      rw [hmap, List.mem_range]; omega
    obtain ⟨rq, hrq, hd⟩ := List.mem_map.mp hmem
    exact ⟨rq, hrq, hd⟩

theorem aligned_read_clones_every_member_witness :
    ∃ m1 clones, ddraid_map (fresh (created 3 1 16)) (read_4k 0 100) = some (0, m1) ∧
      m1.submitted = (fresh (created 3 1 16)).submitted ++ clones ∧
      clones.map (fun rq => rq.disk) = List.range (fresh (created 3 1 16)).info.members ∧
      clones.length = (fresh (created 3 1 16)).info.members ∧
      (∃ rq, rq ∈ clones ∧ rq.disk = (fresh (created 3 1 16)).info.members - 1) ∧
      ∀ rq, rq ∈ clones →
        rq.bi_private = some (read_4k 0 100) ∧ rq.bi_end_io = some endio.clone_read_endio :=
  aligned_read_clones_every_member (fresh (created 3 1 16)) (read_4k 0 100)
    (by decide) (by decide) (by decide) (by decide) (by decide) (by decide) (by decide)
    (by decide)

/-- C20: for every request of whole sectors no larger than a region (the region
size exponent being below 32, where the shift of the assertion is defined), on
a device whose block is at least a sector, `ddraid_map` returns `-EIO` and leaves
everything as it was (no clone is submitted) exactly when the request is
misaligned and is a write or does not fit inside the block it starts in; every
other request makes it return 0, and a misaligned read that lies within one
block goes out as a bounce read of the whole block. -/
theorem ddraid_map_eio_iff (m : machine) (b : bio)
    (hb : SECTOR_SHIFT ≤ m.info.blocksize_bits) (hb32 : m.info.blocksize_bits ≤ 32)
    (hrb : m.info.region_size_bits < 32)
    (hsz : b.bi_size ≤ 1 <<< m.info.region_size_bits) (h512 : 512 ∣ b.bi_size) :
    (ddraid_map m b = some (- EIO, m) ↔
      misaligned m.info b ∧ (bio_data_dir b ≠ READ ∨ ¬ within_block m.info b)) ∧
    (¬ (misaligned m.info b ∧ (bio_data_dir b ≠ READ ∨ ¬ within_block m.info b)) →
      ∃ m1, ddraid_map m b = some (0, m1)) ∧
    (misaligned m.info b → bio_data_dir b = READ → within_block m.info b →
      ∃ m1 clones, ddraid_map m b = some (0, m1) ∧
        m1.submitted = m.submitted ++ clones ∧
        striped m.info (bounce_of m.info b m.next_page) endio.clone_read_endio clones ∧
        m1.bounces = m.bounces ++ [⟨bounce_of m.info b m.next_page, b,
          odd_offset m.info b⟩]) := by
  rw [← region_limit_eq _ hrb] at hsz
  have hbounce : misaligned m.info b → bio_data_dir b = READ → within_block m.info b →
      ∃ m1 clones, ddraid_map m b = some (0, m1) ∧
        m1.submitted = m.submitted ++ clones ∧
        striped m.info (bounce_of m.info b m.next_page) endio.clone_read_endio clones ∧
        m1.bounces = m.bounces ++ [⟨bounce_of m.info b m.next_page, b,
          odd_offset m.info b⟩] := by
    intro hmis hr hin
    have hodd := (odd_test_iff m.info b hb hb32).mpr hmis
    have hlong := (long_test_iff m.info b hb hb32 h512).not.mpr (not_not.mpr hin)
    have hrd : (bio_data_dir b == READ) = true := by simpa using hr
    obtain ⟨m1, new, hk1, hrun, _, _, _, hbn, _, _, hsub, _, _, hstr⟩ :=
      submit_rw_frame
        { m with next_page := m.next_page + 1,
                 bounces := m.bounces ++ [⟨bounce_of m.info b m.next_page, b,
                   odd_offset m.info b⟩] }
        (bounce_of m.info b m.next_page) 1 none endio.clone_read_endio
    refine ⟨m1, new, ?_, hsub, hstr, hbn⟩
    rw [ddraid_map_odd m b hsz hodd, if_neg (by rw [not_or, not_not]; exact ⟨hlong, hrd⟩), hrun]
  have hfail : misaligned m.info b ∧ (bio_data_dir b ≠ READ ∨ ¬ within_block m.info b) →
      ddraid_map m b = some (- EIO, m) := by
    rintro ⟨hmis, hc⟩
    have hodd := (odd_test_iff m.info b hb hb32).mpr hmis
    rw [ddraid_map_odd m b hsz hodd, if_pos]
    rcases hc with hw | hout
    · right; simpa using hw
    · left; exact (long_test_iff m.info b hb hb32 h512).mpr hout
  have hpass : ¬ (misaligned m.info b ∧ (bio_data_dir b ≠ READ ∨ ¬ within_block m.info b)) →
      ∃ m1, ddraid_map m b = some (0, m1) := by
    intro hn
    by_cases hmis : misaligned m.info b
    · have hr : bio_data_dir b = READ := by
        by_contra hw; exact hn ⟨hmis, Or.inl hw⟩
      have hin : within_block m.info b := by
        by_contra hout; exact hn ⟨hmis, Or.inr hout⟩
      obtain ⟨m1, _, h, _⟩ := hbounce hmis hr hin
      exact ⟨m1, h⟩
    · have hodd := (odd_test_iff m.info b hb hb32).not.mpr hmis
      rw [not_or, not_not, not_not] at hodd
      by_cases hr : bio_data_dir b = READ
      · rw [ddraid_map_nosync_read m b hsz hodd.1 hodd.2 hr]
        by_cases h2 : m.info.members = 2
        · rw [if_pos h2]; exact ⟨_, rfl⟩
        · obtain ⟨m1, _, _, hrun, _⟩ :=
            submit_rw_frame { m with info := balance_step m.info b.bi_size } b 1 none
              endio.clone_read_endio
          rw [if_neg h2, hrun]; exact ⟨_, rfl⟩
      · obtain ⟨m1, h, _⟩ := ddraid_map_nosync_write m b hsz hodd.1 hodd.2 hr
        exact ⟨m1, h⟩
  refine ⟨⟨?_, hfail⟩, hpass, hbounce⟩
  intro h
  by_contra hn
  obtain ⟨m1, h1⟩ := hpass hn
  rw [h] at h1
  have h2 : (- EIO : Int) = 0 := congrArg Prod.fst (Option.some.inj h1)
  exact absurd h2 (by decide)

theorem ddraid_map_eio_iff_witness :
    (ddraid_map (fresh (created 3 1 16)) (write_4k 3 100)
        = some (- EIO, fresh (created 3 1 16)) ↔
      misaligned (fresh (created 3 1 16)).info (write_4k 3 100) ∧
        (bio_data_dir (write_4k 3 100) ≠ READ
          ∨ ¬ within_block (fresh (created 3 1 16)).info (write_4k 3 100))) ∧
    (¬ (misaligned (fresh (created 3 1 16)).info (write_4k 3 100) ∧
        (bio_data_dir (write_4k 3 100) ≠ READ
          ∨ ¬ within_block (fresh (created 3 1 16)).info (write_4k 3 100))) →
      ∃ m1, ddraid_map (fresh (created 3 1 16)) (write_4k 3 100) = some (0, m1)) ∧
    (misaligned (fresh (created 3 1 16)).info (write_4k 3 100) →
      bio_data_dir (write_4k 3 100) = READ →
      within_block (fresh (created 3 1 16)).info (write_4k 3 100) →
      ∃ m1 clones, ddraid_map (fresh (created 3 1 16)) (write_4k 3 100) = some (0, m1) ∧
        m1.submitted = (fresh (created 3 1 16)).submitted ++ clones ∧
        striped (fresh (created 3 1 16)).info
          (bounce_of (fresh (created 3 1 16)).info (write_4k 3 100)
            (fresh (created 3 1 16)).next_page) endio.clone_read_endio clones ∧
        m1.bounces = (fresh (created 3 1 16)).bounces ++
          [⟨bounce_of (fresh (created 3 1 16)).info (write_4k 3 100)
              (fresh (created 3 1 16)).next_page, write_4k 3 100,
            odd_offset (fresh (created 3 1 16)).info (write_4k 3 100)⟩]) :=
  ddraid_map_eio_iff (fresh (created 3 1 16)) (write_4k 3 100)
    (by decide) (by decide) (by decide) (by decide) (by decide)

/-! ## Read balancing -/

theorem balance_step_below (info : devinfo) (size : Nat)
    (h : info.balance_acc + size < info.balance_den) (hd : info.balance_den ≤ 2 ^ 32) :
    balance_step info size = { info with balance_acc := info.balance_acc + size } := by
  unfold balance_step
  have h1 : (info.balance_acc + size) % 2 ^ 32 = info.balance_acc + size :=
    Nat.mod_eq_of_lt (by omega)
  simp only [h1]
  rw [if_neg (by omega)]

theorem balance_step_flip (info : devinfo) (size : Nat)
    (h : info.balance_den ≤ info.balance_acc + size) (h32 : info.balance_acc + size < 2 ^ 32)
    (hbal : info.balance = 0) (hN : info.members = 2) :
    balance_step info size
      = { info with balance_acc := info.balance_acc + size - info.balance_den, balance := 1 } := by
  unfold balance_step
  have h1 : (info.balance_acc + size) % 2 ^ 32 = info.balance_acc + size :=
    Nat.mod_eq_of_lt h32
  simp only [h1]
  rw [if_pos h, hbal, hN]
  rfl

/-- On a two-member device a block-aligned read takes the balancing step and
goes whole to the member `balance` then selects. -/
theorem ddraid_map_balanced (m : machine) (b : bio) (hN : m.info.members = 2)
    (hb : SECTOR_SHIFT ≤ m.info.blocksize_bits) (hb32 : m.info.blocksize_bits ≤ 32)
    (hsz : b.bi_size ≤ region_limit m.info)
    (hal : ¬ misaligned m.info b) (hr : bio_data_dir b = READ) :
    ddraid_map m b
      = some (0, submit_bdev { m with info := balance_step m.info b.bi_size } b
          (balance_step m.info b.bi_size).balance) := by
  have hodd := (odd_test_iff m.info b hb hb32).not.mpr hal
  rw [not_or, not_not, not_not] at hodd
  rw [ddraid_map_nosync_read m b hsz hodd.1 hodd.2 hr, if_pos hN]

theorem ddraid_map_each_append (l1 l2 : List bio) :
    ∀ m, ddraid_map_each m (l1 ++ l2) = (ddraid_map_each m l1).bind (fun m1 => ddraid_map_each m1 l2) := by
  induction l1 with
  | nil => intro m; rfl
  | cons b rest ih =>
    intro m
    simp only [List.cons_append, ddraid_map_each]
    cases h : ddraid_map m b with
    | none => rfl
    | some p => exact ih p.2

/-- While the bytes read stay short of `balance_den`, every read of a run goes
to the member `balance` selected at the start. -/
theorem ddraid_map_each_below (sz : Nat) :
    ∀ (bs : List bio) (m : machine),
      m.info.members = 2 → SECTOR_SHIFT ≤ m.info.blocksize_bits → m.info.blocksize_bits ≤ 32 →
      m.info.balance_den ≤ 2 ^ 32 → sz ≤ region_limit m.info →
      (∀ b, b ∈ bs → bio_data_dir b = READ ∧ ¬ misaligned m.info b ∧ b.bi_size = sz) →
      m.info.balance_acc + bs.length * sz < m.info.balance_den →
      ∃ m1, ddraid_map_each m bs = some m1 ∧
        m1.info.balance_acc = m.info.balance_acc + bs.length * sz ∧
        m1.info.balance = m.info.balance ∧ m1.info.members = m.info.members ∧
        m1.info.blocksize_bits = m.info.blocksize_bits ∧
        m1.info.region_size_bits = m.info.region_size_bits ∧
        m1.info.balance_den = m.info.balance_den ∧
        m1.submitted = m.submitted ++ bs.map (fun b => ⟨m.info.balance, b, none, none⟩) := by
  intro bs
  induction bs with
  | nil =>
    intro m _ _ _ _ _ _ _
    exact ⟨m, rfl, by simp, rfl, rfl, rfl, rfl, rfl, by simp⟩
  | cons b rest ih =>
    intro m hN hb hb32 hd hsz hbs hacc
    obtain ⟨hr, hal, hbsz⟩ := hbs b (List.mem_cons_self b rest)
    have hlen : (b :: rest).length * sz = sz + rest.length * sz := by
      rw [List.length_cons, Nat.succ_mul, Nat.add_comm]
    rw [hlen] at hacc
    have hstep := ddraid_map_balanced m b hN hb hb32 (by rw [hbsz]; exact hsz) hal hr
    rw [hbsz, balance_step_below m.info sz (by omega) hd] at hstep
    obtain ⟨m1, hrun, h1, h2, h3, h4, h5, h6, h7⟩ :=
      ih (submit_bdev { m with info := { m.info with balance_acc := m.info.balance_acc + sz } } b
          m.info.balance) hN hb hb32 hd hsz
        (fun b1 hb1 => hbs b1 (List.mem_cons_of_mem b hb1))
        (by show m.info.balance_acc + sz + rest.length * sz < m.info.balance_den; omega)
    refine ⟨m1, ?_, ?_, h2, h3, h4, h5, h6, ?_⟩
    · simp only [ddraid_map_each, hstep]
      exact hrun
    · rw [h1, hlen]
      show m.info.balance_acc + sz + rest.length * sz = _
      omega
    · rw [h7]
      simp [submit_bdev]

/-- C16 as the code has it: on a two-member device with the balance state as
`ddraid_create` leaves it (`balance = 0`, `balance_acc = 0`,
`balance_den = 1 << 21`) and a region size exponent below 32 that admits the
reads, of 16 consecutive block-aligned reads of `balance_den / 16` bytes the
first fifteen are all submitted to member 0 and the sixteenth, with which the
bytes read reach `balance_den`, to member 1. -/
theorem balance_flips_on_sixteenth (m : machine) (bs : List bio)
    (hN : m.info.members = 2) (hbal : m.info.balance = 0) (hacc : m.info.balance_acc = 0)
    (hden : m.info.balance_den = 1 <<< 21)
    (hb : SECTOR_SHIFT ≤ m.info.blocksize_bits) (hb32 : m.info.blocksize_bits ≤ 32)
    (hrb : m.info.region_size_bits < 32)
    (hrs : (1 <<< 21) / 16 ≤ 1 <<< m.info.region_size_bits)
    (hlen : bs.length = 16)
    (hbs : ∀ b, b ∈ bs →
      bio_data_dir b = READ ∧ ¬ misaligned m.info b ∧ b.bi_size = (1 <<< 21) / 16) :
    ∃ m1, ddraid_map_each m bs = some m1 ∧
      m1.submitted = m.submitted ++ (bs.take 15).map (fun b => ⟨0, b, none, none⟩)
        ++ (bs.drop 15).map (fun b => ⟨1, b, none, none⟩) := by
  have hsz : (1 <<< 21) / 16 = 131072 := by decide
  have hd21 : (1 <<< 21 : Nat) = 2097152 := by decide
  rw [hsz] at hrs hbs
  rw [hd21] at hden
  rw [← region_limit_eq _ hrb] at hrs
  have hlim : ∀ i : devinfo, i.region_size_bits = m.info.region_size_bits →
      region_limit i = region_limit m.info := by
    intro i hi
    unfold region_limit
    rw [hi]
  have htake : (bs.take 15).length = 15 := by rw [List.length_take, hlen]; rfl
  have hdrop : (bs.drop 15).length = 1 := by rw [List.length_drop, hlen]
  obtain ⟨last, hlast⟩ := List.length_eq_one.mp hdrop
  have hsplit : bs = bs.take 15 ++ [last] := by
    rw [← hlast]; exact (List.take_append_drop 15 bs).symm
  obtain ⟨m1, hrun, h1, h2, h3, h4, h5, h6, h7⟩ :=
    ddraid_map_each_below 131072 (bs.take 15) m hN hb hb32 (by rw [hden]; norm_num) hrs
      (fun b hb1 => hbs b (List.mem_of_mem_take hb1))
      (by rw [hacc, hden, htake]; norm_num)
  have hl := hbs last (by rw [hsplit]; simp)
  have hal : ¬ misaligned m1.info last := by
    unfold misaligned blocksize
    rw [h4]
    exact hl.2.1
  have hstep := ddraid_map_balanced m1 last (by rw [h3]; exact hN) (by rw [h4]; exact hb)
    (by rw [h4]; exact hb32) (by rw [hl.2.2, hlim _ h5]; exact hrs) hal hl.1
  rw [hl.2.2, balance_step_flip m1.info 131072 (by rw [h6, hden, h1, hacc, htake])
    (by rw [h1, hacc, htake]; norm_num) (by rw [h2]; exact hbal) (by rw [h3]; exact hN)] at hstep
  have hfin : ddraid_map_each m (bs.take 15 ++ [last])
      = some (submit_bdev { m1 with info := { m1.info with
          balance_acc := m1.info.balance_acc + 131072 - m1.info.balance_den, balance := 1 } }
        last 1) := by
    rw [ddraid_map_each_append, hrun]
    simp only [Option.bind, ddraid_map_each, hstep]
  rw [← hsplit] at hfin
  refine ⟨_, hfin, ?_⟩
  rw [hlast]
  simp only [submit_bdev, h7, hbal, List.map_cons, List.map_nil]

theorem balance_flips_on_sixteenth_witness :
    ∃ m1, ddraid_map_each (fresh (created 2 0 20)) ((List.range 16).map read_128k) = some m1 ∧
      m1.submitted = (fresh (created 2 0 20)).submitted
        ++ (((List.range 16).map read_128k).take 15).map (fun b => ⟨0, b, none, none⟩)
        ++ (((List.range 16).map read_128k).drop 15).map (fun b => ⟨1, b, none, none⟩) :=
  balance_flips_on_sixteenth (fresh (created 2 0 20)) ((List.range 16).map read_128k)
    (by decide) (by decide) (by decide) (by decide) (by decide) (by decide) (by decide)
    (by decide) (by decide) (by decide)

/-! ## Striping lemmas -/

theorem range_filter_ne (k : Nat) :
    ∀ n, ((List.range n).filter (fun (d : Nat) => decide (d ≠ k))).length
      = if k < n then n - 1 else n := by
  intro n
  induction n with
  | zero => simp
  | succ n ih =>
    rw [List.range_succ, List.filter_append, List.length_append, ih]
    by_cases h : n = k
    · subst h
      simp
    · have h1 : ([n].filter (fun (d : Nat) => decide (d ≠ k))).length = 1 := by simp [h]
      rw [h1]
      split_ifs <;> omega

theorem live_disks_nodup (info : devinfo) : (live_disks info).Nodup :=
  List.Nodup.filter _ (List.nodup_range info.members)

theorem mem_live_disks (info : devinfo) (d : Nat) :
    d ∈ live_disks info ↔ d < info.members ∧ (d : Int) ≠ info.dead := by
  unfold live_disks
  rw [List.mem_filter, List.mem_range]
  simp

theorem live_disks_count (info : devinfo) (d : Nat) :
    (live_disks info).count d = if d < info.members ∧ (d : Int) ≠ info.dead then 1 else 0 := by
  by_cases h : d < info.members ∧ (d : Int) ≠ info.dead
  · rw [if_pos h]
    exact List.count_eq_one_of_mem (live_disks_nodup info) ((mem_live_disks info d).mpr h)
  · rw [if_neg h]
    exact List.count_eq_zero_of_not_mem (fun hm => h ((mem_live_disks info d).mp hm))

theorem live_disks_length (info : devinfo)
    (hdead : info.dead = -1 ∨ (0 ≤ info.dead ∧ info.dead < info.members)) :
    ((live_disks info).length : Int)
      = (info.members : Int) - (if info.dead ≥ 0 then 1 else 0) := by
  rcases hdead with h | ⟨h0, h1⟩
  · rw [live_disks_all info h, h]
    simp
  · obtain ⟨k, hk⟩ := Int.eq_ofNat_of_zero_le h0
    have hkn : k < info.members := by rw [hk] at h1; exact_mod_cast h1
    have hl : live_disks info = (List.range info.members).filter (fun (d : Nat) => decide (d ≠ k)) := by
      unfold live_disks
      apply List.filter_congr
      intro d _
      rw [hk]
      simp
    rw [hl, range_filter_ne, if_pos hkn, if_pos h0]
    omega

theorem submit_clone_data (info : devinfo) (b : bio) (e : endio) (m : machine) (hk0 : hook)
    (disk : Nat) (st1 : machine × hook)
    (h : submit_clone info b e (m, hk0) disk = some st1) :
    ∃ new, st1.1.submitted = m.submitted ++ new ∧
      ∀ rq, rq ∈ new → (rq.disk : Int) ≠ (info.members : Int) - 1 →
        rq.io = data_clone info b rq.disk := by
  by_cases hd : (disk : Int) = info.dead
  · simp only [submit_clone, hd, if_true] at h
    cases h
    exact ⟨[], by simp, fun rq hrq => by cases hrq⟩
  · by_cases hp : (disk : Int) = (info.members : Int) - 1
    · obtain ⟨vs, n, hv⟩ := parity_io_vec_frame info (bio_data_dir b == READ) b.bi_io_vec 0 0 m
      have hd1 : ¬ ((info.members : Int) - 1 = info.dead) := by rw [← hp]; exact hd
      simp only [submit_clone, hp, hd1, if_false, decide_True, if_true, hv] at h
      cases h
      refine ⟨[_], rfl, ?_⟩
      intro rq hrq hne
      rw [List.mem_singleton] at hrq
      subst hrq
      exact absurd hp hne
    · simp only [submit_clone, hd, if_false, hp, decide_False] at h
      cases h
      refine ⟨[_], rfl, ?_⟩
      intro rq hrq _
      rw [List.mem_singleton] at hrq
      subst hrq
      rfl

theorem submit_clones_data (info : devinfo) (b : bio) (e : endio) :
    ∀ (disks : List Nat) (m : machine) (hk0 : hook) (st1 : machine × hook),
      submit_clones info b e disks (m, hk0) = some st1 →
      ∃ new, st1.1.submitted = m.submitted ++ new ∧
        ∀ rq, rq ∈ new → (rq.disk : Int) ≠ (info.members : Int) - 1 →
          rq.io = data_clone info b rq.disk := by
  intro disks
  induction disks with
  | nil =>
    intro m hk0 st1 h
    simp only [submit_clones] at h
    cases h
    exact ⟨[], by simp, fun rq hrq => by cases hrq⟩
  | cons d rest ih =>
    intro m hk0 st1 h
    simp only [submit_clones] at h
    cases h1 : submit_clone info b e (m, hk0) d with
    | none => rw [h1] at h; cases h
    | some st =>
      rw [h1] at h
      obtain ⟨new1, hs1, hp1⟩ := submit_clone_data info b e m hk0 d st h1
      obtain ⟨new2, hs2, hp2⟩ := ih st.1 st.2 st1 h
      refine ⟨new1 ++ new2, ?_, ?_⟩
      · rw [hs2, hs1, List.append_assoc]
      · intro rq hrq
        rcases List.mem_append.mp hrq with hm | hm
        · exact hp1 rq hm
        · exact hp2 rq hm

/-- Every clone `submit_rw` hands to a data member is the data clone of that
member. -/
theorem submit_rw_data (m : machine) (b : bio) (synced : Nat) (hk : Option hook) (e : endio)
    (m1 : machine) (h : submit_rw m b synced hk e = some m1) :
    ∃ new, m1.submitted = m.submitted ++ new ∧
      ∀ rq, rq ∈ new → (rq.disk : Int) ≠ (m.info.members : Int) - 1 →
        rq.io = data_clone m.info b rq.disk := by
  unfold submit_rw at h
  simp only [] at h
  split at h
  · cases h
  · rename_i m2 hk2 hrun
    cases h
    exact submit_clones_data m.info b e _ m _ (m2, hk2) hrun

/-! ## Claims about the clones of one parent -/

/-- C18: for every parent request, on a device of at least two members whose
`dead` is none (-1) or a member index in [0, N-1], `submit_rw` initialises the
parent's shared counter to N minus the number of dead members and submits
exactly that many clones, at most N: one for every live member and none for a
dead one.  Exactly one clone goes to the parity member N-1 when no member is
dead and none when the parity member is the dead one; with N = 3 and dead = 1
the clones go to members 0 and 2 only. -/
theorem submit_rw_counts_live_members (m : machine) (b : bio) (synced : Nat)
    (hk : Option hook) (e : endio) (hN : 2 ≤ m.info.members)
    (hdead : m.info.dead = -1 ∨ (0 ≤ m.info.dead ∧ m.info.dead < m.info.members)) :
    ∃ m1 clones hk1, submit_rw m b synced hk e = some m1 ∧
      m1.submitted = m.submitted ++ clones ∧
      m1.stacked = m.stacked ++
        [⟨b, (m.info.members : Int) - (if m.info.dead ≥ 0 then 1 else 0), some hk1⟩] ∧
      (clones.length : Int) = (m.info.members : Int) - (if m.info.dead ≥ 0 then 1 else 0) ∧
      clones.length ≤ m.info.members ∧
      (∀ d, (clones.map (fun rq => rq.disk)).count d
        = if d < m.info.members ∧ (d : Int) ≠ m.info.dead then 1 else 0) ∧
      (m.info.dead = -1 →
        (clones.map (fun rq => rq.disk)).count (m.info.members - 1) = 1) ∧
      (m.info.dead = (m.info.members : Int) - 1 →
        (clones.map (fun rq => rq.disk)).count (m.info.members - 1) = 0) ∧
      (m.info.members = 3 → m.info.dead = 1 → clones.map (fun rq => rq.disk) = [0, 2]) := by
  obtain ⟨m1, new, hk1, hrun, _, _, _, _, _, _, hsub, hst, _, hstr⟩ :=
    submit_rw_frame m b synced hk e
  have hlen := live_disks_length m.info hdead
  rw [← hstr.1, List.length_map] at hlen
  refine ⟨m1, new, hk1, hrun, hsub, hst, hlen, ?_, ?_, ?_, ?_, ?_⟩
  · split_ifs at hlen <;> omega
  · intro d
    rw [hstr.1]
    exact live_disks_count m.info d
  · intro h
    rw [hstr.1, live_disks_count, if_pos]
    rw [h]
    constructor <;> omega
  · intro h
    rw [hstr.1, live_disks_count, if_neg]
    rw [h]
    intro hc
    apply hc.2
    omega
  · intro h3 h1
    rw [hstr.1]
    unfold live_disks
    rw [h3, h1]
    decide

theorem submit_rw_counts_live_members_witness :
    ∃ m1 clones hk1,
      submit_rw (fresh { created 3 1 16 with dead := 1 }) (write_4k 0 100) 1 none
          endio.clone_endio = some m1 ∧
      m1.submitted = (fresh { created 3 1 16 with dead := 1 }).submitted ++ clones ∧
      m1.stacked = (fresh { created 3 1 16 with dead := 1 }).stacked ++
        [⟨write_4k 0 100, ((fresh { created 3 1 16 with dead := 1 }).info.members : Int)
            - (if (fresh { created 3 1 16 with dead := 1 }).info.dead ≥ 0 then 1 else 0),
          some hk1⟩] ∧
      (clones.length : Int) = ((fresh { created 3 1 16 with dead := 1 }).info.members : Int)
        - (if (fresh { created 3 1 16 with dead := 1 }).info.dead ≥ 0 then 1 else 0) ∧
      clones.length ≤ (fresh { created 3 1 16 with dead := 1 }).info.members ∧
      (∀ d, (clones.map (fun rq => rq.disk)).count d
        = if d < (fresh { created 3 1 16 with dead := 1 }).info.members
            ∧ (d : Int) ≠ (fresh { created 3 1 16 with dead := 1 }).info.dead then 1 else 0) ∧
      ((fresh { created 3 1 16 with dead := 1 }).info.dead = -1 →
        (clones.map (fun rq => rq.disk)).count
          ((fresh { created 3 1 16 with dead := 1 }).info.members - 1) = 1) ∧
      ((fresh { created 3 1 16 with dead := 1 }).info.dead
          = ((fresh { created 3 1 16 with dead := 1 }).info.members : Int) - 1 →
        (clones.map (fun rq => rq.disk)).count
          ((fresh { created 3 1 16 with dead := 1 }).info.members - 1) = 0) ∧
      ((fresh { created 3 1 16 with dead := 1 }).info.members = 3 →
        (fresh { created 3 1 16 with dead := 1 }).info.dead = 1 →
        clones.map (fun rq => rq.disk) = [0, 2]) :=
  submit_rw_counts_live_members (fresh { created 3 1 16 with dead := 1 }) (write_4k 0 100) 1
    none endio.clone_endio (by decide) (by decide)

/-- The fragment size `ddraid_create` sets for `members = 2^k + 1`: the block
divided by the number of data members. -/
theorem fragsize_created (info : devinfo) (k : Nat) (hN : info.members = 2 ^ k + 1)
    (hfs : info.fragsize_bits = info.blocksize_bits - k) (hk : k ≤ info.blocksize_bits) :
    1 <<< info.fragsize_bits = blocksize info / (info.members - 1) ∧
    (1 <<< info.fragsize_bits) * (info.members - 1) = blocksize info ∧
    frags_per_block_bits info = k := by
  unfold blocksize frags_per_block_bits
  rw [hfs, hN, Nat.one_shiftLeft, Nat.one_shiftLeft, Nat.add_sub_cancel]
  refine ⟨(Nat.pow_div hk (by norm_num)).symm, ?_, by omega⟩
  rw [← pow_add]
  congr 1
  omega

/-- C19: on a device laid out by `ddraid_create` (`members = 2^k + 1`,
`fragsize_bits = blocksize_bits - k`, so that the fragment size is the block
size divided by N-1), `submit_rw` builds for every live data member d in
[0, N-2] a clone whose vector has, for every page-vector entry of the parent,
the parent's page at byte offset d * fragment_size with length fragment_size;
the clone's size is the number of vector entries times fragment_size and its
start sector is the parent's sector shifted right by k = log2(N-1).  Every byte
of a block lies in the range of exactly one data member: the N-1 ranges are
pairwise disjoint and cover the block. -/
theorem data_children_tile_the_block (m : machine) (b : bio) (synced : Nat)
    (hk : Option hook) (e : endio) (k : Nat)
    (hN : m.info.members = 2 ^ k + 1)
    (hfs : m.info.fragsize_bits = m.info.blocksize_bits - k)
    (hkb : k ≤ m.info.blocksize_bits) :
    ∃ m1 clones, submit_rw m b synced hk e = some m1 ∧
      m1.submitted = m.submitted ++ clones ∧
      (∀ d, d < m.info.members - 1 → (d : Int) ≠ m.info.dead →
        ∃ rq, rq ∈ clones ∧ rq.disk = d) ∧
      (∀ rq, rq ∈ clones → rq.disk < m.info.members - 1 →
        rq.io.bi_io_vec = b.bi_io_vec.map (fun sv =>
          { bv_page := sv.bv_page,
            bv_offset := rq.disk * (blocksize m.info / (m.info.members - 1)),
            bv_len := blocksize m.info / (m.info.members - 1) }) ∧
        rq.io.bi_size = b.bi_io_vec.length * (blocksize m.info / (m.info.members - 1)) ∧
        rq.io.bi_sector = b.bi_sector >>> k ∧ rq.io.bi_rw = b.bi_rw) ∧
      (∀ x, x < blocksize m.info →
        ∃! d, d < m.info.members - 1 ∧
          d * (blocksize m.info / (m.info.members - 1)) ≤ x ∧
          x < d * (blocksize m.info / (m.info.members - 1))
                + blocksize m.info / (m.info.members - 1)) := by
  obtain ⟨hfrag, hmul, hbits⟩ := fragsize_created m.info k hN hfs hkb
  obtain ⟨m1, new, hk1, hrun, _, _, _, _, _, _, hsub, _, _, hstr⟩ :=
    submit_rw_frame m b synced hk e
  obtain ⟨new1, hsub1, hdata⟩ := submit_rw_data m b synced hk e m1 hrun
  have hnew : new1 = new := List.append_cancel_left (hsub1.symm.trans hsub)
  subst hnew
  refine ⟨m1, new1, hrun, hsub, ?_, ?_, ?_⟩
  · intro d hd hlive
    have hmem : d ∈ new1.map (fun rq => rq.disk) := by
      rw [hstr.1, mem_live_disks]
      exact ⟨by omega, hlive⟩
    obtain ⟨rq, hrq, hdisk⟩ := List.mem_map.mp hmem
    exact ⟨rq, hrq, hdisk⟩
  · intro rq hrq hlt
    have hio := hdata rq hrq (by omega)
    rw [hio]
    simp only [data_clone, data_io_vec, bio.bi_vcnt, hbits, ← hfrag, Nat.shiftLeft_eq,
      Nat.one_mul, and_self]
  · intro x hx
    rw [← hfrag]
    rw [← hmul] at hx
    generalize 1 <<< m.info.fragsize_bits = fs at hx
    generalize m.info.members - 1 = n at hx
    have hfs0 : 0 < fs := by
      rcases Nat.eq_zero_or_pos fs with h | h
      · rw [h] at hx; simp at hx
      · exact h
    refine ⟨x / fs, ⟨?_, ?_, ?_⟩, ?_⟩
    · exact Nat.div_lt_of_lt_mul hx
    · exact Nat.div_mul_le_self x fs
    · have := Nat.lt_div_mul_add hfs0 (a := x)
      omega
    · rintro d ⟨_, hlo, hhi⟩
      symm
      apply Nat.div_eq_of_lt_le
      · exact hlo
      · rw [Nat.succ_mul]; exact hhi

theorem data_children_tile_the_block_witness :
    ∃ m1 clones,
      submit_rw (fresh (created 3 1 16)) (write_4k 0 100) 1 none endio.clone_endio = some m1 ∧
      m1.submitted = (fresh (created 3 1 16)).submitted ++ clones ∧
      (∀ d, d < (fresh (created 3 1 16)).info.members - 1 →
        (d : Int) ≠ (fresh (created 3 1 16)).info.dead →
        ∃ rq, rq ∈ clones ∧ rq.disk = d) ∧
      (∀ rq, rq ∈ clones → rq.disk < (fresh (created 3 1 16)).info.members - 1 →
        rq.io.bi_io_vec = (write_4k 0 100).bi_io_vec.map (fun sv =>
          { bv_page := sv.bv_page,
            bv_offset := rq.disk * (blocksize (fresh (created 3 1 16)).info
              / ((fresh (created 3 1 16)).info.members - 1)),
            bv_len := blocksize (fresh (created 3 1 16)).info
              / ((fresh (created 3 1 16)).info.members - 1) }) ∧
        rq.io.bi_size = (write_4k 0 100).bi_io_vec.length
          * (blocksize (fresh (created 3 1 16)).info
              / ((fresh (created 3 1 16)).info.members - 1)) ∧
        rq.io.bi_sector = (write_4k 0 100).bi_sector >>> 1 ∧
        rq.io.bi_rw = (write_4k 0 100).bi_rw) ∧
      (∀ x, x < blocksize (fresh (created 3 1 16)).info →
        ∃! d, d < (fresh (created 3 1 16)).info.members - 1 ∧
          d * (blocksize (fresh (created 3 1 16)).info
            / ((fresh (created 3 1 16)).info.members - 1)) ≤ x ∧
          x < d * (blocksize (fresh (created 3 1 16)).info
                / ((fresh (created 3 1 16)).info.members - 1))
              + blocksize (fresh (created 3 1 16)).info
                / ((fresh (created 3 1 16)).info.members - 1)) :=
  data_children_tile_the_block (fresh (created 3 1 16)) (write_4k 0 100) 1 none
    endio.clone_endio 1 (by decide) (by decide) (by decide)

/-! ## Table lemmas -/

theorem modify_first_absent {α : Type} (p : α → Bool) (f : α → α) :
    ∀ l : List α, l.find? p = none → modify_first p f l = l := by
  intro l
  induction l with
  | nil => intro _; rfl
  | cons a l ih =>
    intro h
    by_cases ha : p a = true
    · simp [List.find?, ha] at h
    · have h1 : p a = false := by simpa using ha
      simp only [List.find?, h1] at h
      simp only [modify_first, h1, ih h]
      rfl

theorem modify_first_found {α : Type} (p : α → Bool) (f g : α → α) (a : α) (hfg : f a = g a) :
    ∀ l : List α, l.find? p = some a → modify_first p f l = modify_first p g l := by
  intro l
  induction l with
  | nil => intro h; cases h
  | cons b l ih =>
    intro h
    by_cases hb : p b = true
    · simp only [List.find?, hb] at h
      cases h
      simp only [modify_first, hb, if_true, hfg]
    · have h1 : p b = false := by simpa using hb
      simp only [List.find?, h1] at h
      simp [modify_first, h1, ih h]

theorem find_modify_const {α : Type} (p : α → Bool) (r a : α) (hr : p r = true) :
    ∀ l : List α, l.find? p = some a →
      (modify_first p (fun _ => r) l).find? p = some r := by
  intro l
  induction l with
  | nil => intro h; cases h
  | cons b l ih =>
    intro h
    by_cases hb : p b = true
    · simp [modify_first, hb, List.find?, hr]
    · have h1 : p b = false := by simpa using hb
      simp only [List.find?, h1] at h
      simp only [modify_first, h1, List.find?]
      exact ih h

theorem mem_modify_const {α : Type} (p : α → Bool) (r y : α) :
    ∀ l : List α, y ∈ modify_first p (fun _ => r) l → y ∈ l ∨ y = r := by
  intro l
  induction l with
  | nil => intro h; cases h
  | cons b l ih =>
    intro h
    by_cases hb : p b = true
    · simp only [modify_first, hb, if_true, List.mem_cons] at h
      rcases h with h | h
      · exact Or.inr h
      · exact Or.inl (List.mem_cons_of_mem _ h)
    · have h1 : p b = false := by simpa using hb
      simp only [modify_first, h1, Bool.false_eq_true, if_false, List.mem_cons] at h
      rcases h with h3 | h3
      · exact Or.inl (by rw [h3]; exact List.mem_cons_self _ _)
      · rcases ih h3 with h2 | h2
        · exact Or.inl (List.mem_cons_of_mem _ h2)
        · exact Or.inr h2

theorem map_modify_const {α β : Type} (p : α → Bool) (g : α → β) (r a : α) (hg : g r = g a) :
    ∀ l : List α, l.find? p = some a →
      (modify_first p (fun _ => r) l).map g = l.map g := by
  intro l
  induction l with
  | nil => intro h; cases h
  | cons b l ih =>
    intro h
    by_cases hb : p b = true
    · simp only [List.find?, hb] at h
      cases h
      simp [modify_first, hb, hg]
    · have h1 : p b = false := by simpa using hb
      simp only [List.find?, h1] at h
      simp [modify_first, h1, ih h]

theorem countP_modify_const {α : Type} (p q : α → Bool) (r a : α) :
    ∀ l : List α, l.find? p = some a →
      (modify_first p (fun _ => r) l).countP q + (if q a then 1 else 0)
        = l.countP q + (if q r then 1 else 0) := by
  intro l
  induction l with
  | nil => intro h; cases h
  | cons b l ih =>
    intro h
    by_cases hb : p b = true
    · simp only [List.find?, hb] at h
      cases h
      simp only [modify_first, hb, if_true, List.countP_cons]
      omega
    · have h1 : p b = false := by simpa using hb
      simp only [List.find?, h1] at h
      have := ih h
      simp only [modify_first, h1, Bool.false_eq_true, if_false, List.countP_cons]
      omega

theorem countP_eraseP_found {α : Type} (p q : α → Bool) (a : α) :
    ∀ l : List α, l.find? p = some a →
      (l.eraseP p).countP q + (if q a then 1 else 0) = l.countP q := by
  intro l
  induction l with
  | nil => intro h; cases h
  | cons b l ih =>
    intro h
    by_cases hb : p b = true
    · simp only [List.find?, hb] at h
      cases h
      simp [List.eraseP_cons, hb, List.countP_cons]
    · have h1 : p b = false := by simpa using hb
      simp only [List.find?, h1] at h
      have := ih h
      simp only [List.eraseP_cons, h1, cond_false, List.countP_cons]
      omega

theorem eraseP_modify_const {α : Type} (p : α → Bool) (r : α) (hr : p r = true) :
    ∀ l : List α, (modify_first p (fun _ => r) l).eraseP p = l.eraseP p := by
  intro l
  induction l with
  | nil => rfl
  | cons b l ih =>
    by_cases hb : p b = true
    · simp [modify_first, hb, List.eraseP_cons, hr]
    · have h1 : p b = false := by simpa using hb
      simp [modify_first, h1, List.eraseP_cons, ih]

theorem modify_modify_const {α : Type} (p : α → Bool) (r1 r2 : α) (hr : p r1 = true) :
    ∀ l : List α, modify_first p (fun _ => r2) (modify_first p (fun _ => r1) l)
      = modify_first p (fun _ => r2) l := by
  intro l
  induction l with
  | nil => rfl
  | cons b l ih =>
    by_cases hb : p b = true
    · simp [modify_first, hb, hr]
    · have h1 : p b = false := by simpa using hb
      simp [modify_first, h1, ih]

theorem modify_first_self {α : Type} (p : α → Bool) (a : α) :
    ∀ l : List α, l.find? p = some a → modify_first p (fun _ => a) l = l := by
  intro l
  induction l with
  | nil => intro h; cases h
  | cons b l ih =>
    intro h
    by_cases hb : p b = true
    · simp only [List.find?, hb] at h
      cases h
      simp [modify_first, hb]
    · have h1 : p b = false := by simpa using hb
      simp only [List.find?, h1] at h
      simp [modify_first, h1, ih h]

theorem update_region_hash (info : devinfo) (x : Nat) (f : region → region) :
    (update_region info x f).hash = set_record info.hash x ((find_region info x).map f) := by
  unfold update_region set_record find_region
  simp only []
  cases h : (info.hash (hash_region x)).find? (fun r => r.regnum == x) with
  | none =>
    simp only [Option.map, bucket_set, h]
    rw [modify_first_absent _ f _ h]
  | some a =>
    simp only [Option.map, bucket_set, h]
    rw [modify_first_found _ f (fun _ => f a) a rfl _ h]

theorem insert_region_hash (info : devinfo) (r : region)
    (h : find_region info r.regnum = none) :
    (insert_region info r).hash = set_record info.hash r.regnum (some { r with wait := [] }) := by
  unfold find_region at h
  unfold insert_region set_record
  simp only [bucket_set, h]

theorem free_region_hash (info : devinfo) (x : Nat) :
    (free_region_unlock info x).hash = set_record info.hash x none := by
  unfold free_region_unlock set_record
  simp only []
  cases h : (info.hash (hash_region x)).find? (fun r => r.regnum == x) with
  | none =>
    simp only [bucket_set, h]
    rw [List.eraseP_of_forall_not]
    intro a ha
    have := List.find?_eq_none.mp h a ha
    simpa using this
  | some a => simp only [bucket_set, h]

theorem set_record_self (info : devinfo) (x : Nat) :
    set_record info.hash x (find_region info x) = info.hash := by
  unfold set_record find_region
  have hb : bucket_set (info.hash (hash_region x)) x
      ((info.hash (hash_region x)).find? (fun r => r.regnum == x)) = info.hash (hash_region x) := by
    cases h : (info.hash (hash_region x)).find? (fun r => r.regnum == x) with
    | none => simp only [bucket_set, h]
    | some a =>
      simp only [bucket_set, h]
      exact modify_first_self _ a _ h
  rw [hb, Function.update_eq_self]

theorem set_record_comp (hash : Nat → List region) (x : Nat) (r1 : region) (o2 : Option region)
    (hr : r1.regnum = x) :
    set_record (set_record hash x (some r1)) x o2 = set_record hash x o2 := by
  have hp : (fun r : region => r.regnum == x) r1 = true := by simp [hr]
  unfold set_record
  rw [Function.update_same, Function.update_idem]
  cases h : (hash (hash_region x)).find? (fun r => r.regnum == x) with
  | none =>
    have h1 : (r1 :: hash (hash_region x)).find? (fun r => r.regnum == x) = some r1 := by
      simp [List.find?, hr]
    cases o2 with
    | none => simp [bucket_set, h, h1, List.eraseP_cons, hr]
    | some r2 => simp [bucket_set, h, h1, modify_first, hr]
  | some a =>
    have h1 : (modify_first (fun r => r.regnum == x) (fun _ => r1) (hash (hash_region x))).find?
        (fun r => r.regnum == x) = some r1 := find_modify_const _ r1 a hp _ h
    cases o2 with
    | none =>
      simp only [bucket_set, h, h1]
      rw [eraseP_modify_const (fun r : region => r.regnum == x) r1 hp _]
    | some r2 =>
      simp only [bucket_set, h, h1]
      rw [modify_modify_const (fun r : region => r.regnum == x) r1 r2 hp _]

theorem find_set_record_same (info info1 : devinfo) (x : Nat) (o : Option region)
    (hh : info1.hash = set_record info.hash x o) (hreg : ∀ r, o = some r → r.regnum = x)
    (hok : o = none → table_ok info) :
    find_region info1 x = o := by
  unfold find_region
  rw [hh]
  unfold set_record
  rw [Function.update_same]
  cases h : (info.hash (hash_region x)).find? (fun r => r.regnum == x) with
  | none =>
    cases o with
    | none => simp only [bucket_set, h]
    | some r => simp [bucket_set, h, List.find?, hreg r rfl]
  | some a =>
    cases o with
    | none =>
      simp only [bucket_set, h]
      exact find_eraseP_nodup x _ (hok rfl _)
    | some r =>
      simp only [bucket_set, h]
      exact find_modify_const _ r a (by simp [hreg r rfl]) _ h

theorem find_set_record_other (info info1 : devinfo) (x y : Nat) (o : Option region)
    (hh : info1.hash = set_record info.hash x o) (hreg : ∀ r, o = some r → r.regnum = x)
    (hne : y ≠ x) :
    find_region info1 y = find_region info y := by
  unfold find_region
  rw [hh]
  unfold set_record
  by_cases hb : hash_region y = hash_region x
  · rw [hb, Function.update_same]
    cases h : (info.hash (hash_region x)).find? (fun r => r.regnum == x) with
    | none =>
      cases o with
      | none => simp only [bucket_set, h]
      | some r =>
        have hr := hreg r rfl
        have : (r.regnum == y) = false := by simp [hr, hne.symm]
        simp [bucket_set, h, List.find?, this]
    | some a =>
      cases o with
      | none =>
        simp only [bucket_set, h]
        exact find_eraseP_other x y hne _
      | some r =>
        simp only [bucket_set, h]
        apply find_modify_first_other
        intro b hb1
        have hb2 : b.regnum = x := by simpa using hb1
        have hr := hreg r rfl
        constructor
        · simp [hb2, hne.symm]
        · simp [hr, hne.symm]
  · rw [Function.update_noteq hb]

theorem mem_set_record (hash : Nat → List region) (x : Nat) (o : Option region) (k : Nat)
    (r : region) (h : r ∈ set_record hash x o k) : r ∈ hash k ∨ o = some r := by
  unfold set_record at h
  by_cases hk : k = hash_region x
  · subst hk
    rw [Function.update_same] at h
    cases hf : (hash (hash_region x)).find? (fun r => r.regnum == x) with
    | none =>
      cases o with
      | none =>
        simp only [bucket_set, hf] at h
        exact Or.inl h
      | some r1 =>
        simp only [bucket_set, hf, List.mem_cons] at h
        rcases h with h1 | h1
        · exact Or.inr (by rw [h1])
        · exact Or.inl h1
    | some a =>
      cases o with
      | none =>
        simp only [bucket_set, hf] at h
        exact Or.inl (List.mem_of_mem_eraseP h)
      | some r1 =>
        simp only [bucket_set, hf] at h
        rcases mem_modify_const _ r1 r _ h with h1 | h1
        · exact Or.inl h1
        · exact Or.inr (by rw [h1])
  · rw [Function.update_noteq hk] at h
    exact Or.inl h

theorem table_ok_set_record (info info1 : devinfo) (x : Nat) (o : Option region)
    (hh : info1.hash = set_record info.hash x o) (hreg : ∀ r, o = some r → r.regnum = x)
    (hok : table_ok info) : table_ok info1 := by
  intro k
  rw [hh]
  unfold set_record
  by_cases hk : k = hash_region x
  · subst hk
    rw [Function.update_same]
    cases hf : (info.hash (hash_region x)).find? (fun r => r.regnum == x) with
    | none =>
      cases o with
      | none =>
        simp only [bucket_set, hf]
        exact hok _
      | some r =>
        simp only [bucket_set, hf, List.map_cons]
        rw [List.nodup_cons]
        refine ⟨?_, hok _⟩
        intro hmem
        obtain ⟨b, hb, hbr⟩ := List.mem_map.mp hmem
        have := List.find?_eq_none.mp hf b hb
        apply this
        simp [hbr, hreg r rfl]
    | some a =>
      cases o with
      | none =>
        simp only [bucket_set, hf]
        exact List.Nodup.sublist ((List.eraseP_sublist _).map _) (hok _)
      | some r =>
        simp only [bucket_set, hf]
        have ha : a.regnum = x := by
          have := List.find?_some hf
          simpa using this
        rw [map_modify_const _ (fun r => r.regnum) r a (by show r.regnum = a.regnum; rw [hreg r rfl, ha]) _ hf]
        exact hok _
  · rw [Function.update_noteq hk]
    exact hok _

theorem hash_region_lt (x : Nat) : hash_region x < HASH_BUCKETS := by
  show x &&& 63 < 64
  exact Nat.lt_succ_of_le Nat.and_le_right

theorem sum_map_update (g : List region → Nat) (hash : Nat → List region) (k : Nat)
    (v : List region) :
    ∀ l : List Nat, l.Nodup →
      (l.map (fun i => g (Function.update hash k v i))).sum + (if k ∈ l then g (hash k) else 0)
        = (l.map (fun i => g (hash i))).sum + (if k ∈ l then g v else 0) := by
  intro l
  induction l with
  | nil => intro _; simp
  | cons i l ih =>
    intro hnd
    rw [List.nodup_cons] at hnd
    have h := ih hnd.2
    by_cases hik : i = k
    · subst hik
      have hnot : ¬ i ∈ l := hnd.1
      simp only [hnot, if_false, Nat.add_zero] at h
      simp only [List.map_cons, List.sum_cons, Function.update_same, List.mem_cons, true_or,
        if_true, h]
      omega
    · have hki : ¬ k = i := fun e => hik e.symm
      simp only [List.map_cons, List.sum_cons, Function.update_noteq hik, List.mem_cons, hki,
        false_or]
      omega

theorem countP_bucket_set (l : List region) (x : Nat) (o : Option region) :
    (bucket_set l x o).countP (fun r => decide (-1 ≤ r.count))
        + live (l.find? (fun r => r.regnum == x))
      = l.countP (fun r => decide (-1 ≤ r.count)) + live o := by
  cases h : l.find? (fun r => r.regnum == x) with
  | none =>
    cases o with
    | none => simp only [bucket_set, h]
    | some r => simp [bucket_set, h, List.countP_cons, live]
  | some a =>
    cases o with
    | none =>
      have := countP_eraseP_found (fun r : region => r.regnum == x)
        (fun r => decide (-1 ≤ r.count)) a l h
      simp only [decide_eq_true_eq] at this
      simp only [bucket_set, h, live]
      omega
    | some r =>
      have := countP_modify_const (fun r : region => r.regnum == x)
        (fun r => decide (-1 ≤ r.count)) r a l h
      simp only [decide_eq_true_eq] at this
      simp only [bucket_set, h, live]
      omega

/-- Replacing the record of one region changes the number of held regions by
what the record counted for before and after. -/
theorem held_in_set_record (info : devinfo) (x : Nat) (o : Option region) :
    held_in (set_record info.hash x o) + live (find_region info x)
      = held_in info.hash + live o := by
  unfold held_in set_record
  have h := sum_map_update (fun l => l.countP (fun r => decide (-1 ≤ r.count))) info.hash
    (hash_region x) (bucket_set (info.hash (hash_region x)) x o) (List.range HASH_BUCKETS)
    (List.nodup_range _)
  have hmem : hash_region x ∈ List.range HASH_BUCKETS := List.mem_range.mpr (hash_region_lt x)
  simp only [hmem, if_true] at h
  have hc := countP_bucket_set (info.hash (hash_region x)) x o
  unfold find_region
  omega

/-! ## Invariant lemmas -/

/-- A step that replaces the record of one region `x` by `o` keeps the
invariant when `o` is accounted for and is no requested record without waiters
nor a cached record without `DESYNC`; the balance of queries and releases moves
with what the step sends, queues and holds. -/
theorem transition (m m1 : machine) (x : Nat) (o : Option region) (dB : Nat) (hinv : inv m)
    (hhash : m1.info.hash = set_record m.info.hash x o)
    (hreg : ∀ r, o = some r → r.regnum = x)
    (hin : ∀ y, y ≠ x → inflight m1 y = inflight m y)
    (hho : ∀ y, y ≠ x → holds m1 y = holds m y)
    (hx : owned o = (inflight m1 x : Int) + (holds m1 x : Int))
    (h12 : ∀ r, o = some r → r.count = -1 → r.wait ≠ [])
    (h13 : ∀ r, o = some r → r.count = -2 → r.flags &&& DESYNC_FLAG ≠ 0)
    (hhw : m1.info.highwater = m.info.highwater)
    (hsum : m.info.highwater = 0 →
      sent_requests m1 + m1.info.requests.length + sent_releases m + live (find_region m.info x)
        = sent_requests m + m.info.requests.length + sent_releases m1 + live o + dB) :
    inv m1 ∧ ∀ B, ident B m → ident (B + dB) m1 := by
  obtain ⟨hok, hacc, hi12, hi13⟩ := hinv
  refine ⟨⟨?_, ?_, ?_, ?_⟩, ?_⟩
  · exact table_ok_set_record m.info m1.info x o hhash hreg hok
  · intro y
    by_cases hy : y = x
    · subst hy
      rw [find_set_record_same m.info m1.info y o hhash hreg (fun _ => hok)]
      exact hx
    · rw [find_set_record_other m.info m1.info x y o hhash hreg hy, hin y hy, hho y hy]
      exact hacc y
  · intro k r hr hc
    rw [hhash] at hr
    rcases mem_set_record _ _ _ _ _ hr with h | h
    · exact hi12 k r h hc
    · exact h12 r h hc
  · intro k r hr hc
    rw [hhash] at hr
    rcases mem_set_record _ _ _ _ _ hr with h | h
    · exact hi13 k r h hc
    · exact h13 r h hc
  · rintro B ⟨hw0, hid⟩
    refine ⟨by rw [hhw]; exact hw0, ?_⟩
    have h1 := hsum hw0
    have h2 := held_in_set_record m.info x o
    rw [hhash]
    omega

/-- A step that leaves the table, the stacked parents and the pending releases
as they were keeps the invariant. -/
theorem transition_frame (m m1 : machine) (dB : Nat) (hinv : inv m)
    (hhash : m1.info.hash = m.info.hash)
    (hin : ∀ y, inflight m1 y = inflight m y)
    (hho : ∀ y, holds m1 y = holds m y)
    (hhw : m1.info.highwater = m.info.highwater)
    (hsum : sent_requests m1 + m1.info.requests.length + sent_releases m
        = sent_requests m + m.info.requests.length + sent_releases m1 + dB) :
    inv m1 ∧ ∀ B, ident B m → ident (B + dB) m1 := by
  have hacc := hinv.2.1 0
  apply transition m m1 0 (find_region m.info 0) dB hinv
  · rw [hhash, set_record_self]
  · intro r hr
    exact find_region_regnum _ _ _ hr
  · intro y _; exact hin y
  · intro y _; exact hho y
  · rw [hin, hho]; exact hacc
  · intro r hr
    exact hinv.2.2.1 _ r (List.mem_of_find?_eq_some hr)
  · intro r hr
    exact hinv.2.2.2 _ r (List.mem_of_find?_eq_some hr)
  · exact hhw
  · intro _
    omega

theorem countP_modify_first_same {α : Type} (p q : α → Bool) (f : α → α)
    (hq : ∀ a, q (f a) = q a) :
    ∀ l : List α, (modify_first p f l).countP q = l.countP q := by
  intro l
  induction l with
  | nil => rfl
  | cons a l ih =>
    by_cases ha : p a = true
    · simp [modify_first, ha, List.countP_cons, hq]
    · have h1 : p a = false := by simpa using ha
      simp [modify_first, h1, List.countP_cons, ih]

theorem countP_eraseIdx {α : Type} (q : α → Bool) :
    ∀ (l : List α) (k : Nat) (a : α), l.get? k = some a →
      (l.eraseIdx k).countP q + (if q a then 1 else 0) = l.countP q := by
  intro l
  induction l with
  | nil => intro k a h; cases h
  | cons b l ih =>
    intro k a h
    cases k with
    | zero =>
      simp only [List.get?] at h
      cases h
      simp [List.eraseIdx, List.countP_cons]
    | succ k =>
      simp only [List.get?] at h
      have := ih k a h
      simp only [List.eraseIdx, List.countP_cons]
      omega

theorem send_next_keeps (m : machine) (hinv : inv m) :
    inv (send_next_request_locked m) ∧
      ∀ B, ident B m → ident B (send_next_request_locked m) := by
  unfold send_next_request_locked
  cases h : m.info.requests with
  | nil => exact ⟨hinv, fun B hB => hB⟩
  | cons x rest =>
    simp only []
    refine transition_frame m _ 0 hinv rfl (fun _ => rfl) (fun _ => rfl) rfl ?_
    simp [sent_requests, sent_releases, List.countP_append, h]
    omega

theorem worker_requests_keeps :
    ∀ (fuel : Nat) (m m1 : machine), inv m → worker_requests fuel m = some m1 →
      inv m1 ∧ (∀ B, ident B m → ident B m1) ∧ m1.info.releases = m.info.releases ∧
        m1.info.flags = m.info.flags := by
  intro fuel
  induction fuel with
  | zero =>
    intro m m1 hinv h
    simp only [worker_requests] at h
    split at h
    · cases h
    · cases h
      exact ⟨hinv, fun B hB => hB, rfl, rfl⟩
  | succ fuel ih =>
    intro m m1 hinv h
    simp only [worker_requests] at h
    split at h
    · obtain ⟨h1, h2⟩ := send_next_keeps m hinv
      obtain ⟨h3, h4, h5, h6⟩ := ih _ m1 h1 h
      refine ⟨h3, fun B hB => h4 B (h2 B hB), ?_, ?_⟩
      · rw [h5]; unfold send_next_request_locked; split <;> rfl
      · rw [h6]; unfold send_next_request_locked; split <;> rfl
    · cases h
      exact ⟨hinv, fun B hB => hB, rfl, rfl⟩

theorem resume_requests_keeps :
    ∀ (fuel : Nat) (m m1 : machine), inv m → resume_requests fuel m = some m1 →
      inv m1 ∧ (∀ B, ident B m → ident B m1) := by
  intro fuel
  induction fuel with
  | zero =>
    intro m m1 hinv h
    simp only [resume_requests] at h
    split at h
    · cases h
    · cases h
      exact ⟨hinv, fun B hB => hB⟩
  | succ fuel ih =>
    intro m m1 hinv h
    simp only [resume_requests] at h
    split at h
    · obtain ⟨h1, h2⟩ := send_next_keeps m hinv
      obtain ⟨h3, h4⟩ := ih _ m1 h1 h
      exact ⟨h3, fun B hB => h4 B (h2 B hB)⟩
    · cases h
      exact ⟨hinv, fun B hB => hB⟩

theorem timer_release_keeps (m : machine) (k : Nat) (hinv : inv m) :
    inv (timer_release m k) ∧ ∀ B, ident B m → ident B (timer_release m k) := by
  unfold timer_release
  cases h : m.timers.get? k with
  | none => exact ⟨hinv, fun B hB => hB⟩
  | some rt =>
    simp only []
    refine transition_frame m _ 0 hinv rfl (fun _ => rfl) ?_ rfl (by rfl)
    intro y
    have := countP_eraseIdx (fun t : retire => t.region == y) m.timers k rt h
    beta_reduce at this
    simp only [holds, queue_release, List.countP_append, List.countP_cons, List.countP_nil]
    omega

theorem balance_step_frame (info : devinfo) (size : Nat) :
    (balance_step info size).hash = info.hash ∧
    (balance_step info size).requests = info.requests ∧
    (balance_step info size).releases = info.releases ∧
    (balance_step info size).highwater = info.highwater := by
  unfold balance_step
  simp only []
  split <;> exact ⟨rfl, rfl, rfl, rfl⟩

/-- A parent stacked by `submit_rw` without a hook from `submit_write` counts
for no region. -/
theorem submit_rw_plain (m : machine) (b : bio) (synced : Nat) (e : endio) (m1 : machine)
    (h : submit_rw m b synced none e = some m1) :
    m1.info = m.info ∧ m1.sock = m.sock ∧ m1.timers = m.timers ∧
      ∀ y, inflight m1 y = inflight m y := by
  obtain ⟨m2, new, hk1, hrun, hinfo, _, hsock, _, htim, _, _, hst, hreg, _⟩ :=
    submit_rw_frame m b synced none e
  rw [hrun] at h
  cases h
  refine ⟨hinfo, hsock, htim, ?_⟩
  intro y
  unfold inflight
  rw [hst, List.countP_append]
  simp only [Option.bind] at hreg
  simp [hreg]

theorem ddraid_map_nosync_write_eq (m : machine) (b : bio)
    (hsz : b.bi_size ≤ region_limit m.info)
    (hsec : (b.bi_sector % 2 ^ 32) &&& ((1 <<< (m.info.blocksize_bits - SECTOR_SHIFT)) - 1) = 0)
    (hlen : b.bi_size &&& (blocksize m.info - 1) = 0)
    (hw : bio_data_dir b ≠ READ) :
    ddraid_map m b =
      match submit_rw m b 1 none endio.clone_endio with
      | none => none
      | some m2 => some ((0 : Int), m2) := by
  have hnr : ¬ (NORAID ≠ 0) := by decide
  have hns : NOSYNC ≠ 0 := by decide
  have hal : ¬ ((b.bi_sector % 2 ^ 32) &&& ((1 <<< (m.info.blocksize_bits - SECTOR_SHIFT)) - 1) ≠ 0
      ∨ b.bi_size &&& (blocksize m.info - 1) ≠ 0) := by
    rw [hsec, hlen]; simp
  have hrd : ¬ ((bio_data_dir b == READ) = true) := by simpa using hw
  simp only [ddraid_map, hsz, not_true_eq_false, if_false, hnr, hal, if_true, hrd]
  exact if_pos hns

/-- A parent stacked by `submit_rw` on a machine that differs from `m` only
outside the table, the socket, the timers and the stacked parents. -/
theorem submit_rw_keeps (m m0 m1 : machine) (b : bio) (synced : Nat) (e : endio)
    (hinv : inv m) (h : submit_rw m0 b synced none e = some m1)
    (hhash : m0.info.hash = m.info.hash) (hreq : m0.info.requests = m.info.requests)
    (hrel : m0.info.releases = m.info.releases) (hhw : m0.info.highwater = m.info.highwater)
    (hsock : m0.sock = m.sock) (htim : m0.timers = m.timers) (hst : m0.stacked = m.stacked) :
    inv m1 ∧ ∀ B, ident B m → ident B m1 := by
  obtain ⟨hinfo, hs, ht, hin⟩ := submit_rw_plain m0 b synced e m1 h
  refine transition_frame m m1 0 hinv (by rw [hinfo, hhash]) ?_ ?_ (by rw [hinfo, hhw]) ?_
  · intro y
    rw [hin y]
    unfold inflight
    rw [hst]
  · intro y
    unfold holds
    rw [ht, htim, hinfo, hrel]
  · unfold sent_requests sent_releases
    rw [hs, hsock, hinfo, hreq]
    rfl

/-- As built, `ddraid_map` leaves the region table, the queues and the socket
alone. -/
theorem ddraid_map_keeps (m : machine) (b : bio) (p : Int × machine) (hinv : inv m)
    (h : ddraid_map m b = some p) :
    inv p.2 ∧ ∀ B, ident B m → ident B p.2 := by
  by_cases hsz : b.bi_size ≤ region_limit m.info
  · by_cases hodd : (b.bi_sector % 2 ^ 32) &&& ((1 <<< (m.info.blocksize_bits - SECTOR_SHIFT)) - 1) ≠ 0
        ∨ b.bi_size &&& (blocksize m.info - 1) ≠ 0
    · rw [ddraid_map_odd m b hsz hodd] at h
      split at h
      · cases h
        exact ⟨hinv, fun B hB => hB⟩
      · split at h
        · cases h
        · rename_i m2 hrun
          cases h
          exact submit_rw_keeps m _ m2 _ 1 _ hinv hrun rfl rfl rfl rfl rfl rfl rfl
    · rw [not_or, not_not, not_not] at hodd
      by_cases hr : bio_data_dir b = READ
      · rw [ddraid_map_nosync_read m b hsz hodd.1 hodd.2 hr] at h
        obtain ⟨f1, f2, f3, f4⟩ := balance_step_frame m.info b.bi_size
        split at h
        · cases h
          exact transition_frame m _ 0 hinv f1 (fun _ => rfl)
            (fun _ => by simp only [holds, submit_bdev, f3]) f4
            (by simp only [sent_requests, sent_releases, submit_bdev, f2]; rfl)
        · split at h
          · cases h
          · rename_i m2 hrun
            cases h
            exact submit_rw_keeps m _ m2 _ 1 _ hinv hrun f1 f2 f3 f4 rfl rfl rfl
      · rw [ddraid_map_nosync_write_eq m b hsz hodd.1 hodd.2 hr] at h
        split at h
        · cases h
        · rename_i m2 hrun
          cases h
          exact submit_rw_keeps m _ m2 _ 1 _ hinv hrun rfl rfl rfl rfl rfl rfl rfl
  · simp [ddraid_map, hsz] at h

theorem ddraid_map_bogus_keeps (m : machine) (b : bio) (p : Int × machine) (hinv : inv m)
    (h : ddraid_map_bogus m b = some p) :
    inv p.2 ∧ ∀ B, ident B m → ident B p.2 := by
  unfold ddraid_map_bogus at h
  split at h
  · cases h
    exact transition_frame m _ 0 hinv rfl (fun _ => rfl) (fun _ => rfl) rfl (by rfl)
  · exact ddraid_map_keeps m b p hinv h

theorem drain_bogus_keeps :
    ∀ (fuel : Nat) (m m1 : machine), inv m → drain_bogus fuel m = some m1 →
      inv m1 ∧ ∀ B, ident B m → ident B m1 := by
  intro fuel
  induction fuel with
  | zero =>
    intro m m1 hinv h
    simp only [drain_bogus] at h
    split at h
    · cases h
    · cases h
      exact ⟨hinv, fun B hB => hB⟩
  | succ fuel ih =>
    intro m m1 hinv h
    simp only [drain_bogus] at h
    split at h
    · cases h
      exact ⟨hinv, fun B hB => hB⟩
    · rename_i b rest hb
      split at h
      · cases h
      · rename_i r m2 hrun
        have hinv0 : inv { m with info := { m.info with bogus := rest } } ∧
            ∀ B, ident B m → ident B { m with info := { m.info with bogus := rest } } :=
          transition_frame m _ 0 hinv rfl (fun _ => rfl) (fun _ => rfl) rfl (by rfl)
        obtain ⟨h1, h2⟩ := ddraid_map_keeps _ b (r, m2) hinv0.1 hrun
        obtain ⟨h3, h4⟩ := ih m2 m1 h1 h
        exact ⟨h3, fun B hB => h4 B (h2 B (hinv0.2 B hB))⟩

theorem update_found (info : devinfo) (x : Nat) (a : region) (f : region → region)
    (h : find_region info x = some a) :
    (update_region info x f).hash = set_record info.hash x (some (f a)) := by
  rw [update_region_hash, h]
  rfl

theorem update_after (info info1 : devinfo) (x : Nat) (r1 : region) (f : region → region)
    (hh : info1.hash = set_record info.hash x (some r1)) (hr : r1.regnum = x) :
    (update_region info1 x f).hash = set_record info.hash x (some (f r1)) := by
  have hf : find_region info1 x = some r1 :=
    find_set_record_same info info1 x (some r1) hh (fun r h => by cases h; exact hr)
      (fun h => by cases h)
  rw [update_found info1 x r1 f hf, hh, set_record_comp _ _ _ _ hr]

theorem free_after (info info1 : devinfo) (x : Nat) (r1 : region)
    (hh : info1.hash = set_record info.hash x (some r1)) (hr : r1.regnum = x) :
    (free_region_unlock info1 x).hash = set_record info.hash x none := by
  rw [free_region_hash, hh, set_record_comp _ _ _ _ hr]

theorem spare_restored_eq (info : devinfo) :
    ∃ s, (if ¬ info.spare_region then restore_spare_region info else info)
      = { info with spare_region := s } := by
  by_cases h : info.spare_region
  · exact ⟨true, by rw [if_neg (by simpa using h)]; cases info; simp_all⟩
  · exact ⟨true, by rw [if_pos h]; rfl⟩

/-- A write handed to `submit_write` is stacked for its region; the device, the
socket and the timers are as before. -/
theorem submit_write_effect (m : machine) (b : bio) (regnum : Nat) (m1 : machine)
    (h : submit_write m b regnum = some m1) :
    m1.info = m.info ∧ m1.sock = m.sock ∧ m1.timers = m.timers ∧
      ∀ y, inflight m1 y = inflight m y + (if y = regnum then 1 else 0) := by
  unfold submit_write at h
  obtain ⟨m2, new, hk1, hrun, hinfo, _, hsock, _, htim, _, _, hst, hreg, _⟩ :=
    submit_rw_frame m b 1 (some { sector := 0, length := 0, region := some regnum, parity := none })
      endio.clone_write_endio
  rw [hrun] at h
  cases h
  refine ⟨hinfo, hsock, htim, ?_⟩
  intro y
  unfold inflight
  rw [hst, List.countP_append]
  simp only [Option.bind] at hreg
  by_cases hy : y = regnum
  · simp [hreg, hy]
  · have : ¬ regnum = y := fun e => hy e.symm
    simp [hreg, hy, this]

@[simp] theorem update_region_requests (info : devinfo) (x : Nat) (f : region → region) :
    (update_region info x f).requests = info.requests := rfl

@[simp] theorem update_region_releases (info : devinfo) (x : Nat) (f : region → region) :
    (update_region info x f).releases = info.releases := rfl

@[simp] theorem update_region_highwater (info : devinfo) (x : Nat) (f : region → region) :
    (update_region info x f).highwater = info.highwater := rfl

@[simp] theorem insert_region_requests (info : devinfo) (r : region) :
    (insert_region info r).requests = info.requests := rfl

@[simp] theorem insert_region_releases (info : devinfo) (r : region) :
    (insert_region info r).releases = info.releases := rfl

@[simp] theorem insert_region_highwater (info : devinfo) (r : region) :
    (insert_region info r).highwater = info.highwater := rfl

@[simp] theorem free_region_requests (info : devinfo) (x : Nat) :
    (free_region_unlock info x).requests = info.requests := rfl

@[simp] theorem free_region_releases (info : devinfo) (x : Nat) :
    (free_region_unlock info x).releases = info.releases := rfl

@[simp] theorem free_region_highwater (info : devinfo) (x : Nat) :
    (free_region_unlock info x).highwater = info.highwater := rfl

@[simp] theorem queue_request_requests (info : devinfo) (x : Nat) :
    (queue_request info x).requests = info.requests ++ [x] := rfl

@[simp] theorem queue_request_releases (info : devinfo) (x : Nat) :
    (queue_request info x).releases = info.releases := rfl

@[simp] theorem queue_request_highwater (info : devinfo) (x : Nat) :
    (queue_request info x).highwater = info.highwater := rfl

theorem spare_restored_releases (info : devinfo) :
    (if ¬ info.spare_region then restore_spare_region info else info).releases = info.releases := by
  split <;> rfl

theorem spare_restored_highwater (info : devinfo) :
    (if ¬ info.spare_region then restore_spare_region info else info).highwater
      = info.highwater := by
  split <;> rfl

/-- The write path of `ddraid_map` keeps the invariant: a new or cached region
becomes requested with the write parked and a query queued, a write to a held
region is parked or submitted with the count raised. -/
theorem ddraid_map_write_keeps (m : machine) (b : bio) (regnum : Nat) (p : Int × machine)
    (hinv : inv m) (h : ddraid_map_write m b regnum = some p) :
    inv p.2 ∧ ∀ B, ident B m → ident B p.2 := by
  have hacc := hinv.2.1 regnum
  unfold ddraid_map_write at h
  cases hf : find_region m.info regnum with
  | none =>
    rw [hf] at hacc
    simp only [hf] at h
    cases h
    have hA := insert_region_hash { m.info with spare_region := false } ⟨0, 0, regnum, []⟩ hf
    have hB := update_after m.info _ regnum _ (fun r => set_region_count r (-1)) hA rfl
    have hC := update_after m.info _ regnum _
      (fun r => { r with wait := r.wait ++ [b] }) hB rfl
    refine transition m _ regnum (some ⟨-1, 0, regnum, [b]⟩) 0 hinv ?_ ?_ (fun _ _ => rfl) ?_ ?_
      ?_ ?_ ?_ ?_
    · simp only [spare_restored_hash]
      exact hC
    · intro r hr; cases hr; rfl
    · intro y _
      simp only [holds, spare_restored_releases]
      rfl
    · simp only [holds, spare_restored_releases, owned]
      simp only [owned, holds] at hacc
      exact hacc
    · intro r hr _ hw; cases hr; cases hw
    · intro r hr hc; cases hr; cases hc
    · simp only [spare_restored_highwater]
      rfl
    · intro _
      simp only [sent_requests, sent_releases, spare_restored_requests, live, hf]
      simp
      omega
  | some r =>
    rw [hf] at hacc
    have hreg : r.regnum = regnum := find_region_regnum _ _ _ hf
    have hmem : r ∈ m.info.hash (hash_region regnum) := List.mem_of_find?_eq_some hf
    simp only [hf] at h
    by_cases hg : region_count r ≥ 0 ∧ drain_region r = 0
    · rw [if_pos hg] at h
      split at h
      · cases h
      · rename_i m1 hrun
        cases h
        obtain ⟨hinfo, hsock, htim, hin⟩ := submit_write_effect _ b regnum m1 hrun
        have hA := update_found m.info regnum r get_region hf
        have hc : 0 ≤ r.count := hg.1
        refine transition m m1 regnum (some (get_region r)) 0 hinv (by rw [hinfo]; exact hA) ?_
          ?_ ?_ ?_ ?_ ?_ (by rw [hinfo]; rfl) ?_
        · intro r1 hr; cases hr; exact hreg
        · intro y hy
          rw [hin y, if_neg hy]
          rfl
        · intro y _
          simp only [holds, htim, hinfo]
          rfl
        · rw [hin regnum, if_pos rfl]
          have hh : holds m1 regnum = holds m regnum := by
            simp only [holds, htim, hinfo]
            rfl
          rw [hh]
          have hi : inflight { m with info := update_region m.info regnum get_region } regnum
              = inflight m regnum := rfl
          rw [hi]
          simp only [owned, get_region, hc, if_true] at hacc ⊢
          have : 0 ≤ r.count + 1 := by omega
          simp only [this, if_true]
          push_cast
          omega
        · intro r1 hr hc1; cases hr
          simp only [get_region] at hc1
          omega
        · intro r1 hr hc1; cases hr
          simp only [get_region] at hc1
          omega
        · intro _
          simp only [sent_requests, sent_releases, hsock, hinfo, live, get_region, hf]
          have h1 : (-1 : Int) ≤ r.count := by omega
          have h2 : (-1 : Int) ≤ r.count + 1 := by omega
          simp [h1, h2, update_region]
    · rw [if_neg hg] at h
      cases h
      by_cases h2 : region_count r = -2
      · have hc : r.count = -2 := h2
        simp only [h2, if_true]
        have hA := update_found m.info regnum r (fun r => set_region_count r (-1)) hf
        have hB := update_after m.info _ regnum _
          (fun r => { r with wait := r.wait ++ [b] }) hA hreg
        refine transition m _ regnum (some { r with count := -1, wait := r.wait ++ [b] }) 0 hinv
          ?_ ?_ (fun _ _ => rfl) ?_ ?_ ?_ ?_ ?_ ?_
        · simp only [spare_restored_hash]
          exact hB
        · intro r1 hr; cases hr; exact hreg
        · intro y _
          simp only [holds, spare_restored_releases]
          rfl
        · simp only [holds, spare_restored_releases, owned]
          simp only [owned, holds, hc] at hacc
          exact hacc
        · intro r1 hr _ hw; cases hr
          simp at hw
        · intro r1 hr hc1; cases hr; cases hc1
        · simp only [spare_restored_highwater]
          rfl
        · intro _
          simp only [sent_requests, sent_releases, spare_restored_requests, live, hc, hf]
          simp
          omega
      · have hc : r.count ≠ -2 := h2
        simp only [h2, if_false]
        have hA := update_found m.info regnum r (fun r => { r with wait := r.wait ++ [b] }) hf
        refine transition m _ regnum (some { r with wait := r.wait ++ [b] }) 0 hinv
          ?_ ?_ (fun _ _ => rfl) ?_ ?_ ?_ ?_ ?_ ?_
        · simp only [spare_restored_hash]
          exact hA
        · intro r1 hr; cases hr; exact hreg
        · intro y _
          simp only [holds, spare_restored_releases]
          rfl
        · simp only [holds, spare_restored_releases, owned]
          simp only [owned, holds] at hacc
          exact hacc
        · intro r1 hr _ hw; cases hr
          simp at hw
        · intro r1 hr hc1; cases hr
          exact absurd hc1 hc
        · simp only [spare_restored_highwater]
          rfl
        · intro _
          simp only [sent_requests, sent_releases, spare_restored_requests, live, hf]
          simp [update_region]

/-- What `release_region_unlock` leaves of the record it releases: a requested
record with its waiters, a cached desynced record, or nothing; and what it
sends and queues. -/
theorem release_region_unlock_effect (m : machine) (x : Nat) (r : region) (m1 : machine)
    (hf : find_region m.info x = some r) (h : release_region_unlock m x = some m1) :
    ∃ o, m1.info.hash = set_record m.info.hash x o ∧
      (∀ r1, o = some r1 → r1.regnum = x ∧ r1.count < 0 ∧ (r1.count = -1 → r1.wait ≠ []) ∧
        (r1.count = -2 → r1.flags &&& DESYNC_FLAG ≠ 0)) ∧
      m1.stacked = m.stacked ∧ m1.timers = m.timers ∧ m1.info.releases = m.info.releases ∧
      m1.info.highwater = m.info.highwater ∧
      (m.info.highwater = 0 →
        sent_requests m1 + m1.info.requests.length + sent_releases m + 1
          = sent_requests m + m.info.requests.length + sent_releases m1 + live o) := by
  have hreg : r.regnum = x := find_region_regnum _ _ _ hf
  unfold release_region_unlock at h
  simp only [hf] at h
  by_cases hw : r.wait ≠ []
  · rw [if_pos hw] at h
    cases h
    refine ⟨some { r with flags := r.flags &&& not32 DRAIN_FLAG, count := -1 }, ?_, ?_, rfl, rfl,
      rfl, rfl, ?_⟩
    · exact update_found m.info x r _ hf
    · intro r1 hr
      cases hr
      refine ⟨hreg, ?_, fun _ => hw, ?_⟩
      · show (-1 : Int) < 0
        decide
      · intro hc
        have hc1 : (-1 : Int) = -2 := hc
        exact absurd hc1 (by decide)
    · intro _
      simp [sent_requests, sent_releases, send_release, List.countP_append, live]
      omega
  · rw [if_neg hw] at h
    by_cases hd : is_desynced r ≠ 0 ∧ r.regnum < m.info.highwater
    · rw [if_pos hd] at h
      cases h
      refine ⟨some { r with count := -2 }, ?_, ?_, rfl, rfl, rfl, rfl, ?_⟩
      · exact update_found m.info x r _ hf
      · intro r1 hr
        cases hr
        refine ⟨hreg, ?_, ?_, fun _ => hd.1⟩
        · show (-2 : Int) < 0
          decide
        · intro hc
          have hc1 : (-2 : Int) = -1 := hc
          exact absurd hc1 (by decide)
      · intro h0
        rw [h0] at hd
        exact absurd hd.2 (Nat.not_lt_zero _)
    · rw [if_neg hd] at h
      cases h
      refine ⟨none, ?_, ?_, rfl, rfl, rfl, rfl, ?_⟩
      · exact free_region_hash m.info x
      · intro r1 hr
        cases hr
      · intro _
        simp [sent_requests, sent_releases, send_release, List.countP_append, live]
        omega

theorem owned_released (o : Option region) (h : ∀ r1, o = some r1 → r1.count < 0) :
    owned o = 0 := by
  cases o with
  | none => rfl
  | some r =>
    have := h r rfl
    simp only [owned]
    rw [if_neg (by omega)]

/-- The body of the worker's release loop keeps the invariant: the retire
record it takes off the queue is the hold the region's count stood for. -/
theorem worker_retire_keeps (m m1 : machine) (hinv : inv m) (h : worker_retire m = some m1) :
    inv m1 ∧ (∀ B, ident B m → ident B m1) ∧
      m1.info.releases.length ≤ m.info.releases.length - 1 ∧ m1.info.flags = m.info.flags := by
  unfold worker_retire at h
  cases hrel : m.info.releases with
  | nil =>
    simp only [hrel] at h
    cases h
    exact ⟨hinv, fun B hB => hB, by rw [hrel]; exact Nat.zero_le _, rfl⟩
  | cons rt rest =>
    simp only [hrel] at h
    have hacc := hinv.2.1 rt.region
    cases hf : find_region m.info rt.region with
    | none =>
      have hf1 : find_region { m.info with releases := rest } rt.region = none := hf
      simp only [hf1] at h
      cases h
    | some r =>
      have hf1 : find_region { m.info with releases := rest } rt.region = some r := hf
      have hreg : r.regnum = rt.region := find_region_regnum _ _ _ hf
      simp only [hf1] at h
      rw [hf] at hacc
      have hholds : holds m rt.region
          = m.timers.countP (fun t => t.region == rt.region)
            + rest.countP (fun t => t.region == rt.region) + 1 := by
        simp [holds, hrel, List.countP_cons]
        omega
      have hother : ∀ y, y ≠ rt.region →
          m.timers.countP (fun t => t.region == y) + rest.countP (fun t => t.region == y)
            = holds m y := by
        intro y hy
        have : ¬ rt.region = y := fun e => hy e.symm
        simp [holds, hrel, List.countP_cons, this]
      have hc : 1 ≤ r.count := by
        simp only [owned] at hacc
        split at hacc <;> omega
      have hcount : r.count = (inflight m rt.region : Int) + (holds m rt.region : Int) := by
        simp only [owned] at hacc
        rw [if_pos (by omega)] at hacc
        exact hacc
      have hA := update_found { m.info with releases := rest } rt.region r
        (fun r => (put_region_test_zero r).1) hf1
      beta_reduce at hA
      have hreg1 : (put_region_test_zero r).1.regnum = rt.region := hreg
      have hl : live (some r) = 1 := by
        simp only [live]
        rw [if_pos (by omega)]
      simp only [inflight] at hcount
      rw [hholds] at hcount
      by_cases hz : (put_region_test_zero r).2 = true
      · have hz1 : r.count - 1 = 0 := by simpa [put_region_test_zero] using hz
        simp only [hz, not_true_eq_false, if_false] at h
        split at h
        · cases h
        · rename_i m3 hrun
          cases h
          have hf2 := find_set_record_same _ _ rt.region _ hA
            (fun r1 hr => by cases hr; exact hreg) (fun hn => by cases hn)
          obtain ⟨o, hh, ho, hst, htim, hrl, hhw, hsum⟩ :=
            release_region_unlock_effect _ rt.region _ m3 hf2 hrun
          rw [hA, set_record_comp _ _ _ _ hreg1] at hh
          rw [← and_assoc]
          refine ⟨transition m _ rt.region o 0 hinv hh (fun r1 hr => (ho r1 hr).1) ?_ ?_ ?_
            (fun r1 hr => (ho r1 hr).2.2.1) (fun r1 hr => (ho r1 hr).2.2.2) hhw ?_, ?_, ?_⟩
          · intro y _
            simp only [inflight, hst]
          · intro y hy
            simp only [holds, htim, hrl]
            exact hother y hy
          · rw [owned_released o (fun r1 hr => (ho r1 hr).2.1)]
            simp only [inflight, holds, hst, htim, hrl, update_region_releases]
            omega
          · intro h0
            have := hsum h0
            rw [hf, hl]
            simp only [sent_requests, sent_releases] at this ⊢
            simp only [update_region_requests] at this
            omega
          · show m3.info.releases.length ≤ _
            rw [hrl]
            simp
          · show m3.info.flags = _
            unfold release_region_unlock at hrun
            simp only [hf2] at hrun
            split at hrun
            · cases hrun; rfl
            · split at hrun
              · cases hrun; rfl
              · cases hrun; rfl
      · have hz1 : r.count - 1 ≠ 0 := by simpa [put_region_test_zero] using hz
        simp only [hz, not_false_eq_true, if_true] at h
        cases h
        rw [← and_assoc]
        refine ⟨transition m _ rt.region (some (put_region_test_zero r).1) 0 hinv hA
          (fun r1 hr => by cases hr; exact hreg) (fun y _ => rfl) ?_ ?_ ?_ ?_ rfl ?_, ?_, rfl⟩
        · intro y hy
          simp only [holds, update_region_releases]
          exact hother y hy
        · simp only [inflight, holds, update_region_releases, owned, put_region_test_zero]
          rw [if_pos (by omega)]
          omega
        · intro r1 hr hc1
          cases hr
          simp only [put_region_test_zero] at hc1
          omega
        · intro r1 hr hc1
          cases hr
          simp only [put_region_test_zero] at hc1
          omega
        · intro _
          have hl2 : live (some (put_region_test_zero r).1) = 1 := by
            simp only [live, put_region_test_zero]
            rw [if_pos (by omega)]
          rw [hf, hl, hl2]
          simp [sent_requests, sent_releases]
        · show rest.length ≤ _
          simp

theorem worker_releases_keeps :
    ∀ (fuel : Nat) (m m1 : machine), inv m → worker_releases fuel m = some m1 →
      inv m1 ∧ ∀ B, ident B m → ident B m1 := by
  intro fuel
  induction fuel with
  | zero =>
    intro m m1 hinv h
    simp only [worker_releases] at h
    split at h
    · cases h
    · cases h
      exact ⟨hinv, fun B hB => hB⟩
  | succ fuel ih =>
    intro m m1 hinv h
    simp only [worker_releases] at h
    split at h
    · split at h
      · cases h
      · rename_i m2 hrun
        obtain ⟨h1, h2, _, _⟩ := worker_retire_keeps m m2 hinv hrun
        obtain ⟨h3, h4⟩ := ih m2 m1 h1 h
        exact ⟨h3, fun B hB => h4 B (h2 B hB)⟩
    · cases h
      exact ⟨hinv, fun B hB => hB⟩

/-- A pass of the worker keeps the invariant. -/
theorem worker_keeps (m m1 : machine) (hinv : inv m) (h : worker m = some m1) :
    inv m1 ∧ ∀ B, ident B m → ident B m1 := by
  unfold worker at h
  simp only [] at h
  have h0 : inv { m with info := { m.info with more_work_sem := m.info.more_work_sem - 1 } } ∧
      ∀ B, ident B m →
        ident B { m with info := { m.info with more_work_sem := m.info.more_work_sem - 1 } } :=
    transition_frame m _ 0 hinv rfl (fun _ => rfl) (fun _ => rfl) rfl (by rfl)
  split at h
  · cases h
  · rename_i m2 hrun
    obtain ⟨h1, h2, _, _⟩ := worker_requests_keeps _ _ m2 h0.1 hrun
    obtain ⟨h3, h4⟩ := worker_releases_keeps _ m2 m1 h1 h
    exact ⟨h3, fun B hB => h4 B (h2 B (h0.2 B hB))⟩

/-- The completion of a clone keeps the invariant: the last clone of a parent
gives the parent's count back, or turns it into the hold of a delayed release
when it was the last count on the region. -/
theorem clone_write_endio_keeps (m m1 : machine) (parent : bio) (error : Int) (hinv : inv m)
    (h : clone_write_endio m parent error = some m1) :
    inv m1 ∧ ∀ B, ident B m → ident B m1 := by
  unfold clone_write_endio find_stacked at h
  cases hs : m.stacked.find? (fun s => s.parent == parent) with
  | none => simp only [hs] at h; cases h
  | some st =>
    simp only [hs] at h
    by_cases hlast : st.hackcount - 1 ≠ 0
    · rw [if_pos hlast] at h
      cases h
      refine transition_frame m _ 0 hinv rfl ?_ (fun _ => rfl) rfl (by rfl)
      intro y
      unfold inflight
      exact countP_modify_first_same (fun s : stacked => s.parent == parent)
        (fun s => s.hackhook.bind (fun h => h.region) == some y)
        (fun s => { s with hackcount := s.hackcount - 1 }) (fun a => rfl) _
    · rw [if_neg hlast] at h
      cases hh : st.hackhook with
      | none => simp only [hh] at h; cases h
      | some hk =>
        simp only [hh] at h
        cases hr : hk.region with
        | none => simp only [hr] at h; cases h
        | some x =>
          simp only [hr] at h
          cases hf : find_region m.info x with
          | none => simp only [hf] at h; cases h
          | some r =>
            simp only [hf] at h
            have hreg : r.regnum = x := find_region_regnum _ _ _ hf
            have hacc := hinv.2.1 x
            rw [hf] at hacc
            have hq : (st.hackhook.bind (fun h => h.region) == some x) = true := by
              simp [hh, hr]
            have hin : inflight m x
                = (m.stacked.eraseP (fun s => s.parent == parent)).countP
                    (fun s => s.hackhook.bind (fun h => h.region) == some x) + 1 := by
              have := countP_eraseP_found (fun s : stacked => s.parent == parent)
                (fun s => s.hackhook.bind (fun h => h.region) == some x) st m.stacked hs
              beta_reduce at this
              rw [hq] at this
              simp only [if_true] at this
              exact this.symm
            have hother : ∀ y, y ≠ x →
                (m.stacked.eraseP (fun s => s.parent == parent)).countP
                    (fun s => s.hackhook.bind (fun h => h.region) == some y) = inflight m y := by
              intro y hy
              have := countP_eraseP_found (fun s : stacked => s.parent == parent)
                (fun s => s.hackhook.bind (fun h => h.region) == some y) st m.stacked hs
              have hq2 : (st.hackhook.bind (fun h => h.region) == some y) = false := by
                have : ¬ x = y := fun e => hy e.symm
                simp [hh, hr, this]
              beta_reduce at this
              rw [hq2] at this
              simpa using this
            have hc : 1 ≤ r.count := by
              simp only [owned] at hacc
              split at hacc <;> omega
            have hcount : r.count = (inflight m x : Int) + (holds m x : Int) := by
              simp only [owned] at hacc
              rw [if_pos (by omega)] at hacc
              exact hacc
            have hl : live (some r) = 1 := by
              simp only [live]
              rw [if_pos (by omega)]
            have hA := update_found m.info x r (fun r => (put_region_test_zero r).1) hf
            beta_reduce at hA
            have hreg1 : (put_region_test_zero r).1.regnum = x := hreg
            by_cases hz : (put_region_test_zero r).2 = true
            · have hz1 : r.count - 1 = 0 := by simpa [put_region_test_zero] using hz
              simp only [hz, if_true] at h
              cases h
              have hB := update_after m.info _ x _ get_region hA hreg1
              refine transition m _ x (some (get_region (put_region_test_zero r).1)) 0 hinv hB
                (fun r1 hr1 => by cases hr1; exact hreg) ?_ ?_ ?_ ?_ ?_ rfl ?_
              · intro y hy
                exact hother y hy
              · intro y hy
                have : ¬ x = y := fun e => hy e.symm
                simp [holds, List.countP_append, this]
              · simp only [inflight, holds, owned, get_region, put_region_test_zero,
                  List.countP_append, List.countP_cons, List.countP_nil, update_region_releases]
                simp only [inflight] at hin
                simp only [inflight, holds] at hcount
                rw [if_pos (by omega)]
                simp
                omega
              · intro r1 hr1 hc1
                cases hr1
                simp only [get_region, put_region_test_zero] at hc1
                omega
              · intro r1 hr1 hc1
                cases hr1
                simp only [get_region, put_region_test_zero] at hc1
                omega
              · intro _
                have hl2 : live (some (get_region (put_region_test_zero r).1)) = 1 := by
                  simp only [live, get_region, put_region_test_zero]
                  rw [if_pos (by omega)]
                rw [hf, hl, hl2]
                simp [sent_requests, sent_releases]
            · have hz1 : r.count - 1 ≠ 0 := by simpa [put_region_test_zero] using hz
              simp only [hz, Bool.false_eq_true, if_false] at h
              cases h
              refine transition m _ x (some (put_region_test_zero r).1) 0 hinv hA
                (fun r1 hr1 => by cases hr1; exact hreg) ?_ ?_ ?_ ?_ ?_ rfl ?_
              · intro y hy
                exact hother y hy
              · intro y _
                rfl
              · simp only [inflight, holds, owned, put_region_test_zero, update_region_releases]
                simp only [inflight] at hin
                simp only [inflight, holds] at hcount
                rw [if_pos (by omega)]
                omega
              · intro r1 hr1 hc1
                cases hr1
                simp only [put_region_test_zero] at hc1
                omega
              · intro r1 hr1 hc1
                cases hr1
                simp only [put_region_test_zero] at hc1
                omega
              · intro _
                have hl2 : live (some (put_region_test_zero r).1) = 1 := by
                  simp only [live, put_region_test_zero]
                  rw [if_pos (by omega)]
                rw [hf, hl, hl2]
                simp [sent_requests, sent_releases]

/-- The loop of `do_defered`, as it bears on the table and the stacked parents:
the record ends with its count raised by the number of waiters and an empty
wait list, and that many parents are stacked for the region. -/
theorem drain_wait_effect (x : Nat) :
    ∀ (fuel : Nat) (m m1 : machine) (r : region),
      find_region m.info x = some r → drain_wait x fuel m = some m1 →
      m1.info.hash = set_record m.info.hash x
          (some { r with count := r.count + (r.wait.length : Int), wait := [] }) ∧
        m1.timers = m.timers ∧ m1.sock = m.sock ∧ m1.info.requests = m.info.requests ∧
        m1.info.releases = m.info.releases ∧ m1.info.highwater = m.info.highwater ∧
        ∀ y, inflight m1 y = inflight m y + (if y = x then r.wait.length else 0) := by
  have hnil : ∀ (m : machine) (r : region), find_region m.info x = some r → r.wait = [] →
      m.info.hash = set_record m.info.hash x
        (some { r with count := r.count + (r.wait.length : Int), wait := [] }) := by
    intro m r hf hw
    have hr : ({ r with count := r.count + (r.wait.length : Int), wait := [] } : region) = r := by
      cases r
      simp only [] at hw
      simp [hw]
    rw [hr, ← hf, set_record_self]
  intro fuel
  induction fuel with
  | zero =>
    intro m m1 r hf h
    simp only [drain_wait, hf] at h
    split at h
    · cases h
    · rename_i hw
      cases h
      have hw1 : r.wait = [] := by simpa using hw
      exact ⟨hnil m r hf hw1, rfl, rfl, rfl, rfl, rfl, fun y => by simp [hw1]⟩
  | succ fuel ih =>
    intro m m1 r hf h
    have hreg : r.regnum = x := find_region_regnum _ _ _ hf
    simp only [drain_wait, hf] at h
    cases hw : r.wait with
    | nil =>
      simp only [hw] at h
      cases h
      have := hnil m r hf hw
      rw [hw] at this
      exact ⟨this, rfl, rfl, rfl, rfl, rfl, fun y => by simp⟩
    | cons b rest =>
      simp only [hw] at h
      split at h
      · cases h
      · rename_i m2 hrun
        obtain ⟨hinfo, hsock, htim, hin⟩ := submit_write_effect _ b x m2 hrun
        have hA := update_found m.info x r (fun r => get_region { r with wait := rest }) hf
        beta_reduce at hA
        have hreg2 : (get_region { r with wait := rest }).regnum = x := hreg
        have hf2 : find_region m2.info x = some (get_region { r with wait := rest }) := by
          rw [hinfo]
          exact find_set_record_same m.info _ x _ hA (fun r1 hr1 => by cases hr1; exact hreg)
            (fun hn => by cases hn)
        obtain ⟨h1, h2, h3, h4, h5, h6, h7⟩ := ih m2 m1 _ hf2 h
        rw [hinfo] at h1 h4 h5 h6
        refine ⟨?_, by rw [h2, htim], by rw [h3, hsock], by rw [h4]; rfl, by rw [h5]; rfl,
          by rw [h6]; rfl, ?_⟩
        · rw [h1]
          show set_record (update_region m.info x _).hash x _ = _
          rw [hA, set_record_comp _ _ _ _ hreg2]
          simp only [get_region, List.length_cons]
          have e : r.count + 1 + (rest.length : Int) = r.count + ((rest.length + 1 : Nat) : Int) := by
            push_cast
            omega
          rw [e]
        · intro y
          rw [h7 y, hin y]
          have hi : inflight
              { m with info := update_region m.info x (fun r => get_region { r with wait := rest }) } y
              = inflight m y := rfl
          rw [hi]
          simp only [get_region, List.length_cons]
          split <;> omega

/-- A grant for a requested region keeps the invariant: the waiters are
submitted and counted, or the region is released when nobody waited. -/
theorem do_defered_keeps (m m1 : machine) (x synced : Nat) (hinv : inv m)
    (hg : (find_region m.info x).map (fun r => r.count) = some (-1))
    (h : do_defered m x synced = some m1) :
    inv m1 ∧ ∀ B, ident B m → ident B m1 := by
  unfold do_defered at h
  cases hf : find_region m.info x with
  | none => simp only [hf] at h; cases h
  | some r =>
    simp only [hf] at h
    have hc : r.count = -1 := by
      rw [hf] at hg
      simpa using hg
    have hreg : r.regnum = x := find_region_regnum _ _ _ hf
    have hacc := hinv.2.1 x
    rw [hf] at hacc
    simp only [owned, hc] at hacc
    rw [if_neg (by decide)] at hacc
    have hl : live (some r) = 1 := by
      simp only [live, hc]
      rfl
    have hA := update_found m.info x r (fun r => set_region_count r 1) hf
    beta_reduce at hA
    have hB := update_after m.info _ x _ (fun r => { r with flags := r.flags ^^^ DESYNC_FLAG }) hA
      hreg
    beta_reduce at hB
    generalize hi2 : (if is_desynced r = synced then
        update_region (update_region m.info x (fun r => set_region_count r 1)) x
          (fun r => { r with flags := r.flags ^^^ DESYNC_FLAG })
      else update_region m.info x (fun r => set_region_count r 1)) = info2 at h
    obtain ⟨r2, hh, hreg2, hc2, hw2⟩ : ∃ r2, info2.hash = set_record m.info.hash x (some r2) ∧
        r2.regnum = x ∧ r2.count = 1 ∧ r2.wait = r.wait := by
      rw [← hi2]
      split
      · exact ⟨_, hB, hreg, rfl, rfl⟩
      · exact ⟨_, hA, hreg, rfl, rfl⟩
    have hrel2 : info2.releases = m.info.releases := by rw [← hi2]; split <;> rfl
    have hreq2 : info2.requests = m.info.requests := by rw [← hi2]; split <;> rfl
    have hhw2 : info2.highwater = m.info.highwater := by rw [← hi2]; split <;> rfl
    have hf2 : find_region info2 x = some r2 :=
      find_set_record_same m.info info2 x _ hh (fun r1 hr1 => by cases hr1; exact hreg2)
        (fun hn => by cases hn)
    split at h
    · cases h
    · rename_i m3 hrun
      obtain ⟨h1, h2, h3, h4, h5, h6, h7⟩ := drain_wait_effect x _ _ m3 r2 hf2 hrun
      rw [hh, set_record_comp _ _ _ _ hreg2] at h1
      simp only [hc2, hw2] at h1 h7
      have hf3 := find_set_record_same m.info m3.info x _ h1 (fun r1 hr1 => by cases hr1; exact hreg2)
        (fun hn => by cases hn)
      simp only [hf3] at h
      have hC := update_after m.info m3.info x _ (fun r => (put_region_test_zero r).1) h1 hreg2
      beta_reduce at hC
      have hin3 : ∀ y, y ≠ x → inflight m3 y = inflight m y := by
        intro y hy
        rw [h7 y, if_neg hy]
        rfl
      have hin3x : inflight m3 x = inflight m x + r.wait.length := by
        rw [h7 x, if_pos rfl]
        rfl
      have hho3 : ∀ y, holds m3 y = holds m y := by
        intro y
        simp only [holds, h2, h5, hrel2]
      by_cases hz : (put_region_test_zero
          ({ r2 with count := 1 + (r.wait.length : Int), wait := [] } : region)).2 = true
      · have hz1 : r.wait.length = 0 := by
          simp only [put_region_test_zero, beq_iff_eq] at hz
          omega
        rw [if_pos hz] at h
        have hf4 := find_set_record_same m.info _ x _ hC (fun r1 hr1 => by cases hr1; exact hreg2)
          (fun hn => by cases hn)
        obtain ⟨o, hh5, ho, hst, htim, hrl, hhw, hsum⟩ :=
          release_region_unlock_effect _ x _ m1 hf4 h
        have hreg3 : (put_region_test_zero
            ({ r2 with count := 1 + (r.wait.length : Int), wait := [] } : region)).1.regnum = x :=
          hreg2
        rw [hC, set_record_comp _ _ _ _ hreg3] at hh5
        refine transition m m1 x o 0 hinv hh5 (fun r1 hr => (ho r1 hr).1) ?_ ?_ ?_
          (fun r1 hr => (ho r1 hr).2.2.1) (fun r1 hr => (ho r1 hr).2.2.2) ?_ ?_
        · intro y hy
          simp only [inflight, hst]
          exact hin3 y hy
        · intro y _
          simp only [holds, htim, hrl, update_region_releases]
          exact hho3 y
        · rw [owned_released o (fun r1 hr => (ho r1 hr).2.1)]
          have e1 : inflight m1 x = inflight m3 x := by simp only [inflight, hst]
          have e2 : holds m1 x = holds m3 x := by
            simp only [holds, htim, hrl, update_region_releases]
          rw [e1, e2, hin3x, hho3 x]
          omega
        · rw [hhw]
          exact h6.trans hhw2
        · intro h0
          have := hsum (by rw [update_region_highwater, h6, hhw2]; exact h0)
          rw [hf, hl]
          simp only [sent_requests, sent_releases, update_region_requests, h3, h4, hreq2]
            at this ⊢
          omega
      · have hz1 : r.wait.length ≠ 0 := by
          simp only [put_region_test_zero, beq_iff_eq] at hz
          omega
        rw [if_neg hz] at h
        cases h
        refine transition m _ x _ 0 hinv hC (fun r1 hr1 => by cases hr1; exact hreg2) ?_ ?_ ?_ ?_ ?_
          ?_ ?_
        · intro y hy
          exact hin3 y hy
        · intro y _
          simp only [holds, update_region_releases]
          exact hho3 y
        · show owned _ = (inflight m3 x : Int) + (holds m3 x : Int)
          rw [hin3x, hho3 x]
          simp only [owned, put_region_test_zero]
          rw [if_pos (by omega)]
          omega
        · intro r1 hr1 hc1
          cases hr1
          simp only [put_region_test_zero] at hc1
          omega
        · intro r1 hr1 hc1
          cases hr1
          simp only [put_region_test_zero] at hc1
          omega
        · exact h6.trans hhw2
        · intro _
          have hl2 : live (some (put_region_test_zero
              ({ r2 with count := 1 + (r.wait.length : Int), wait := [] } : region)).1) = 1 := by
            simp only [live, put_region_test_zero]
            rw [if_pos (by omega)]
          rw [hf, hl, hl2]
          simp only [sent_requests, sent_releases, update_region_requests, h3, h4, hreq2]

theorem or_desync (flags : Nat) : (flags ||| DESYNC_FLAG) &&& DESYNC_FLAG ≠ 0 := by
  intro h
  have h1 := congrArg (fun n => Nat.testBit n 0) h
  have h4 : Nat.testBit 1 0 = true := by decide
  simp [DESYNC_FLAG, Nat.testBit_and, Nat.testBit_or, h4] at h1

theorem or_drain_desync (flags : Nat) :
    (flags ||| DRAIN_FLAG) &&& DESYNC_FLAG = flags &&& DESYNC_FLAG := by
  apply Nat.eq_of_testBit_eq
  intro i
  have h2 : (Nat.testBit 2 i && Nat.testBit 1 i) = false := by
    match i with
    | 0 => decide
    | 1 => decide
    | (k + 2) =>
      have : Nat.testBit 1 (k + 2) = false := by
        rw [Nat.testBit_succ]
        simp
      rw [this]
      simp
  simp only [DRAIN_FLAG, DESYNC_FLAG, Nat.testBit_and, Nat.testBit_or]
  revert h2
  cases flags.testBit i <;> cases Nat.testBit 2 i <;> cases Nat.testBit 1 i <;> simp

theorem keeps_message (m m1 : machine) (msg : inbound)
    (hk : inv m1 ∧ ∀ B, ident B m → ident (B + bounced [event.receive msg]) m1) :
    inv m1 ∧ ∀ B, ident B m → (∀ r, msg ≠ inbound.SET_HIGHWATER r) →
      ident (B + bounced [event.receive msg]) m1 :=
  ⟨hk.1, fun B hB _ => hk.2 B hB⟩

/-- Handling a message keeps the invariant, a grant being for a requested
region; the balance of queries and releases is kept as long as the highwater is
not moved, a bounced query counting on the side of the queries. -/
theorem incoming_message_keeps (m m1 : machine) (msg : inbound) (hinv : inv m)
    (hg : granted_on_request m (event.receive msg))
    (h : incoming_message m msg = some m1) :
    inv m1 ∧ ∀ B, ident B m → (∀ r, msg ≠ inbound.SET_HIGHWATER r) →
      ident (B + bounced [event.receive msg]) m1 := by
  cases msg with
  | REPLY_IDENTIFY bits =>
    simp only [incoming_message] at h
    have h0 : inv { m with info := { m.info with region_size_bits := bits } } ∧
        ∀ B, ident B m → ident B { m with info := { m.info with region_size_bits := bits } } :=
      transition_frame m _ 0 hinv rfl (fun _ => rfl) (fun _ => rfl) rfl (by rfl)
    split at h
    · cases h
    · rename_i m2 hrun
      cases h
      obtain ⟨h1, h2⟩ := drain_bogus_keeps _ _ m2 h0.1 hrun
      have h3 : inv { m2 with control := m2.control ++ [message.REPLY_CONNECT_SERVER] } ∧
          ∀ B, ident B m2 →
            ident B { m2 with control := m2.control ++ [message.REPLY_CONNECT_SERVER] } :=
        transition_frame m2 _ 0 h1 rfl (fun _ => rfl) (fun _ => rfl) rfl (by rfl)
      exact ⟨h3.1, fun B hB _ => h3.2 B (h2 B (h0.2 B hB))⟩
  | GRANT_SYNCED x =>
    obtain ⟨h1, h2⟩ := do_defered_keeps m m1 x 1 hinv hg h
    exact ⟨h1, fun B hB _ => h2 B hB⟩
  | GRANT_UNSYNCED x =>
    obtain ⟨h1, h2⟩ := do_defered_keeps m m1 x 0 hinv hg h
    exact ⟨h1, fun B hB _ => h2 B hB⟩
  | ADD_UNSYNCED x =>
    simp only [incoming_message] at h
    have hacc := hinv.2.1 x
    apply keeps_message
    cases hf : find_region m.info x with
    | none =>
      simp only [hf] at h
      cases h
      rw [hf] at hacc
      have hA := insert_region_hash { m.info with spare_region := false } ⟨-2, DESYNC_FLAG, x, []⟩ hf
      refine transition m _ x (some ⟨-2, DESYNC_FLAG, x, []⟩) 0 hinv hA
        (fun r1 hr1 => by cases hr1; rfl) (fun _ _ => rfl) (fun _ _ => rfl) hacc ?_ ?_ rfl
        (fun _ => by rw [hf]; rfl)
      · intro r1 hr1 hc1
        cases hr1
        cases hc1
      · intro r1 hr1 _
        cases hr1
        show DESYNC_FLAG &&& DESYNC_FLAG ≠ 0
        decide
    | some a =>
      simp only [hf] at h
      cases h
      rw [hf] at hacc
      have hreg : a.regnum = x := find_region_regnum _ _ _ hf
      have hmem : a ∈ m.info.hash (hash_region x) := List.mem_of_find?_eq_some hf
      have hA := update_found m.info x a (fun r => { r with flags := r.flags ||| DESYNC_FLAG }) hf
      refine transition m _ x _ 0 hinv hA
        (fun r1 hr1 => by cases hr1; exact hreg) (fun _ _ => rfl) (fun _ _ => rfl) hacc
        (fun r1 hr1 hc1 => by cases hr1; exact hinv.2.2.1 _ a hmem hc1)
        (fun r1 hr1 _ => by cases hr1; exact or_desync a.flags) rfl
        (fun _ => by rw [hf]; rfl)
  | DEL_UNSYNCED x =>
    simp only [incoming_message] at h
    have hacc := hinv.2.1 x
    apply keeps_message
    cases hf : find_region m.info x with
    | none =>
      simp only [hf] at h
      cases h
      exact ⟨hinv, fun B hB => hB⟩
    | some a =>
      simp only [hf] at h
      rw [hf] at hacc
      have hreg : a.regnum = x := find_region_regnum _ _ _ hf
      have hmem : a ∈ m.info.hash (hash_region x) := List.mem_of_find?_eq_some hf
      have hA := update_found m.info x a
        (fun r => { r with flags := r.flags &&& not32 DESYNC_FLAG }) hf
      by_cases hc : region_count a = -2
      · have hc1 : a.count = -2 := hc
        rw [if_pos hc] at h
        cases h
        have hB := free_after m.info _ x _ hA hreg
        refine transition m _ x none 0 hinv hB
          (fun r1 hr1 => by cases hr1) (fun _ _ => rfl) (fun _ _ => rfl) ?_
          (fun r1 hr1 => by cases hr1) (fun r1 hr1 => by cases hr1) rfl ?_
        · simp only [owned, hc1] at hacc
          rw [if_neg (by decide)] at hacc
          exact hacc
        · intro _
          rw [hf]
          simp only [live, hc1]
          rfl
      · have hc1 : a.count ≠ -2 := hc
        rw [if_neg hc] at h
        cases h
        refine transition m _ x _ 0 hinv hA
          (fun r1 hr1 => by cases hr1; exact hreg) (fun _ _ => rfl) (fun _ _ => rfl) hacc
          (fun r1 hr1 hc2 => by cases hr1; exact hinv.2.2.1 _ a hmem hc2)
          (fun r1 hr1 hc2 => by cases hr1; exact absurd hc2 hc1) rfl
          (fun _ => by rw [hf]; rfl)
  | SET_HIGHWATER x =>
    simp only [incoming_message] at h
    cases h
    exact ⟨hinv, fun B _ hne => absurd rfl (hne x)⟩
  | DRAIN_REGION x =>
    simp only [incoming_message] at h
    have hacc := hinv.2.1 x
    apply keeps_message
    cases hf : find_region m.info x with
    | none =>
      simp only [hf] at h
      cases h
      exact ⟨hinv, fun B hB => hB⟩
    | some a =>
      simp only [hf] at h
      rw [hf] at hacc
      have hreg : a.regnum = x := find_region_regnum _ _ _ hf
      have hmem : a ∈ m.info.hash (hash_region x) := List.mem_of_find?_eq_some hf
      split at h
      · cases h
        have hA := update_found m.info x a (fun r => { r with flags := r.flags ||| DRAIN_FLAG }) hf
        refine transition m _ x _ 0 hinv hA
          (fun r1 hr1 => by cases hr1; exact hreg) (fun _ _ => rfl) (fun _ _ => rfl) hacc
          (fun r1 hr1 hc2 => by cases hr1; exact hinv.2.2.1 _ a hmem hc2) ?_ rfl
          (fun _ => by rw [hf]; rfl)
        intro r1 hr1 hc2
        cases hr1
        show (a.flags ||| DRAIN_FLAG) &&& DESYNC_FLAG ≠ 0
        rw [or_drain_desync]
        exact hinv.2.2.2 _ a hmem hc2
      · cases h
        exact ⟨hinv, fun B hB => hB⟩
  | PAUSE_REQUESTS =>
    simp only [incoming_message] at h
    cases h
    apply keeps_message
    exact transition_frame m _ 0 hinv rfl (fun _ => rfl) (fun _ => rfl) rfl (by rfl)
  | RESUME_REQUESTS =>
    simp only [incoming_message] at h
    have h0 : inv { m with info := { m.info with flags := m.info.flags &&& not32 PAUSE_FLAG } } ∧
        ∀ B, ident B m →
          ident B { m with info := { m.info with flags := m.info.flags &&& not32 PAUSE_FLAG } } :=
      transition_frame m _ 0 hinv rfl (fun _ => rfl) (fun _ => rfl) rfl (by rfl)
    obtain ⟨h1, h2⟩ := resume_requests_keeps _ _ m1 h0.1 h
    exact ⟨h1, fun B hB _ => h2 B (h0.2 B hB)⟩
  | BOUNCE_REQUEST x =>
    simp only [incoming_message] at h
    cases h
    apply keeps_message
    refine transition_frame m _ 1 hinv rfl (fun _ => rfl) (fun _ => rfl) rfl ?_
    simp only [sent_requests, sent_releases, queue_request_requests, List.length_append,
      List.length_singleton]
    omega
  | unknown code =>
    simp only [incoming_message] at h
    cases h
    exact ⟨hinv, fun B hB _ => hB⟩

/-- Every event keeps the invariant. -/
theorem step_keeps (m m1 : machine) (ev : event) (hinv : inv m)
    (hg : granted_on_request m ev) (h : step m ev = some m1) :
    inv m1 ∧ ∀ B, ident B m → (∀ r, ev ≠ event.receive (inbound.SET_HIGHWATER r)) →
      ident (B + bounced [ev]) m1 := by
  cases ev with
  | map b =>
    simp only [step, Option.map_eq_some'] at h
    obtain ⟨p, hp, rfl⟩ := h
    obtain ⟨h1, h2⟩ := ddraid_map_bogus_keeps m b p hinv hp
    exact ⟨h1, fun B hB _ => h2 B hB⟩
  | write b regnum =>
    simp only [step, Option.map_eq_some'] at h
    obtain ⟨p, hp, rfl⟩ := h
    obtain ⟨h1, h2⟩ := ddraid_map_write_keeps m b regnum p hinv hp
    exact ⟨h1, fun B hB _ => h2 B hB⟩
  | complete parent error =>
    obtain ⟨h1, h2⟩ := clone_write_endio_keeps m m1 parent error hinv h
    exact ⟨h1, fun B hB _ => h2 B hB⟩
  | timer k =>
    simp only [step] at h
    cases h
    obtain ⟨h1, h2⟩ := timer_release_keeps m k hinv
    exact ⟨h1, fun B hB _ => h2 B hB⟩
  | work =>
    obtain ⟨h1, h2⟩ := worker_keeps m m1 hinv h
    exact ⟨h1, fun B hB _ => h2 B hB⟩
  | receive msg =>
    obtain ⟨h1, h2⟩ := incoming_message_keeps m m1 msg hinv hg h
    refine ⟨h1, fun B hB hne => h2 B hB (fun r e => hne r (by rw [e]))⟩

theorem start_keeps (members k bits : Nat) :
    inv (fresh (created members k bits)) ∧ ident 0 (fresh (created members k bits)) := by
  refine ⟨⟨?_, ?_, ?_, ?_⟩, rfl, ?_⟩
  · intro i
    exact List.nodup_nil
  · intro x
    rfl
  · intro i r hr
    cases hr
  · intro i r hr
    cases hr
  · have h0 : held_in (fun _ => []) = 0 := by decide
    show 0 + 0 = 0 + held_in (fun _ => []) + 0
    rw [h0]

/-- In every state the device reaches the invariant holds, and the balance of
queries and releases holds as long as the highwater has not been moved. -/
theorem reach_keeps (evs : List event) (m : machine) (h : reach evs m) :
    inv m ∧ ((∀ r, event.receive (inbound.SET_HIGHWATER r) ∉ evs) → ident (bounced evs) m) := by
  induction h with
  | start members k bits =>
    exact ⟨(start_keeps members k bits).1, fun _ => (start_keeps members k bits).2⟩
  | next evs m ev m1 _ hg hstep ih =>
    obtain ⟨h1, h2⟩ := step_keeps m m1 ev ih.1 hg hstep
    refine ⟨h1, ?_⟩
    intro hno
    have hb : bounced (evs ++ [ev]) = bounced evs + bounced [ev] := by
      unfold bounced
      rw [List.countP_append]
    rw [hb]
    apply h2 _ (ih.2 (fun r hr => hno r (List.mem_append_left _ hr)))
    intro r e
    exact hno r (by rw [e]; simp)

/-! ## Claims about the region table in reachable states -/

/-- C13 refuted as worded: `ADD_UNSYNCED` for region 5, handled on the state
`ddraid_create` leaves, installs a record with count -2 and `DESYNC` set while
the highwater is 0: the record does not lie below the highwater. -/
theorem add_unsynced_ignores_highwater :
    find_region cached_five.info 5 = some ⟨-2, DESYNC_FLAG, 5, []⟩ ∧
    cached_five.info.highwater = 0 := by
  decide

/-- C13 as the code has it: in every state the device reaches (writes,
completions, timer firings, worker passes and server messages, a grant being for
a requested region), every region record with count -2 has `DESYNC` set. -/
theorem cached_regions_are_desynced (evs : List event) (m : machine) (h : reach evs m) :
    ∀ k r, r ∈ m.info.hash k → r.count = -2 → r.flags &&& DESYNC_FLAG ≠ 0 :=
  (reach_keeps evs m h).1.2.2.2

theorem cached_regions_are_desynced_witness :
    find_region cached_five.info 5 = some ⟨-2, DESYNC_FLAG, 5, []⟩ ∧
    ∀ k r, r ∈ cached_five.info.hash k → r.count = -2 → r.flags &&& DESYNC_FLAG ≠ 0 :=
  ⟨by decide,
    cached_regions_are_desynced [event.receive (inbound.ADD_UNSYNCED 5)] cached_five
      (reach.next [] (fresh (created 3 1 16)) (event.receive (inbound.ADD_UNSYNCED 5))
        cached_five (reach.start 3 1 16) trivial rfl)⟩

/-- C14 refuted as worded: after a `BOUNCE_REQUEST` for region 7 and a pass of
the worker the outbound queues are empty, one `REQUEST_WRITE` and no
`RELEASE_WRITE` have been sent, and no region is requested or owned. -/
theorem bounce_request_breaks_balance :
    bounced_query.map (fun m => m.sock) = some [message.REQUEST_WRITE 7] ∧
    bounced_query.map (fun m => (sent_requests m, sent_releases m)) = some (1, 0) ∧
    bounced_query.map (fun m => (m.info.requests, m.info.releases)) = some ([], []) ∧
    bounced_query.map (fun m => held_in m.info.hash) = some 0 := by
  decide

/-- C14 as the code has it: in every state the device reaches while the server
has sent no `SET_HIGHWATER` (a grant being for a requested region), the
`REQUEST_WRITE` messages sent plus the queries still queued equal the
`RELEASE_WRITE` messages sent plus the regions in state REQUESTED or OWNED plus
the `BOUNCE_REQUEST` messages handled; once the request queue is drained, sent
queries minus sent releases is the number of held regions plus the number of
bounced queries. -/
theorem requests_balance_releases (evs : List event) (m : machine) (h : reach evs m)
    (hno : ∀ r, event.receive (inbound.SET_HIGHWATER r) ∉ evs) :
    sent_requests m + m.info.requests.length
        = sent_releases m + held_in m.info.hash + bounced evs ∧
    (m.info.requests = [] →
      (sent_requests m : Int) - (sent_releases m : Int)
        = (held_in m.info.hash : Int) + (bounced evs : Int)) := by
  have hid := ((reach_keeps evs m h).2 hno).2
  refine ⟨hid, ?_⟩
  intro hq
  rw [hq] at hid
  simp only [List.length_nil] at hid
  omega

theorem requests_balance_releases_witness :
    (sent_requests queried_write, sent_releases queried_write, queried_write.info.requests)
        = (1, 0, []) ∧
    held_in queried_write.info.hash = 1 ∧
    sent_requests queried_write + queried_write.info.requests.length
        = sent_releases queried_write + held_in queried_write.info.hash
          + bounced [event.write (write_4k 0 100) 0, event.work] ∧
    (queried_write.info.requests = [] →
      (sent_requests queried_write : Int) - (sent_releases queried_write : Int)
        = (held_in queried_write.info.hash : Int)
          + (bounced [event.write (write_4k 0 100) 0, event.work] : Int)) :=
  ⟨by decide, by decide,
    requests_balance_releases [event.write (write_4k 0 100) 0, event.work] queried_write
      (reach.next [event.write (write_4k 0 100) 0] parked_write event.work queried_write
        (reach.next [] (fresh (created 3 1 16)) (event.write (write_4k 0 100) 0) parked_write
          (reach.start 3 1 16) trivial rfl) trivial rfl)
      (by simp)⟩

/-! ## Parity as built -/

/-- As built, the parity vector is made of pages drawn from the allocator (or
of the page carried over when the first offset is not zero) and building it
writes no memory. -/
theorem parity_io_vec_pages (info : devinfo) (is_read : Bool) :
    ∀ (l : List bio_vec) (vec pp : Nat) (m : machine),
      ∃ vs n, parity_io_vec info is_read vec l pp m = some (vs, { m with next_page := n }) ∧
        m.next_page ≤ n ∧
        (∀ v, v ∈ vs → v.bv_page = pp ∨ (m.next_page ≤ v.bv_page ∧ v.bv_page < n)) ∧
        ((vec <<< info.fragsize_bits) &&& (PAGE_CACHE_SIZE - 1) = 0 →
          ∀ v, v ∈ vs → m.next_page ≤ v.bv_page ∧ v.bv_page < n) := by
  intro l
  induction l with
  | nil =>
    intro vec pp m
    exact ⟨[], m.next_page, rfl, le_refl _, fun v hv => (by cases hv), fun _ v hv => (by cases hv)⟩
  | cons sv rest ih =>
    intro vec pp m
    have hno : ¬ (NOCALC = 0 ∧ ¬ (is_read = true)) := by simp [NOCALC]
    by_cases ho : (vec <<< info.fragsize_bits) &&& (PAGE_CACHE_SIZE - 1) = 0
    · obtain ⟨vs, n, h, hle, hall, _⟩ :=
        ih (vec + 1) m.next_page { m with next_page := m.next_page + 1 }
      let entry : bio_vec := ⟨m.next_page, 0, 1 <<< info.fragsize_bits⟩
      have hle1 : m.next_page + 1 ≤ n := hle
      have hin : ∀ v, v ∈ entry :: vs → m.next_page ≤ v.bv_page ∧ v.bv_page < n := by
        intro v hv
        rcases List.mem_cons.mp hv with h1 | h1
        · rw [h1]
          exact ⟨le_refl _, hle1⟩
        · rcases hall v h1 with h2 | h2
          · have h3 : v.bv_page = m.next_page := h2
            omega
          · have h3 : m.next_page + 1 ≤ v.bv_page ∧ v.bv_page < n := h2
            omega
      refine ⟨entry :: vs, n, ?_, by omega, fun v hv => Or.inr (hin v hv), fun _ => hin⟩
      simp only [parity_io_vec, ho, if_true, alloc_page, hno, if_false, h, entry]
    · obtain ⟨vs, n, h, hle, hall, _⟩ := ih (vec + 1) pp m
      let entry : bio_vec :=
        ⟨pp, (vec <<< info.fragsize_bits) &&& (PAGE_CACHE_SIZE - 1), 1 <<< info.fragsize_bits⟩
      refine ⟨entry :: vs, n, ?_, hle, ?_, fun h0 => absurd h0 ho⟩
      · simp only [parity_io_vec, ho, if_false, hno, h, entry]
      · intro v hv
        rcases List.mem_cons.mp hv with h1 | h1
        · rw [h1]
          exact Or.inl rfl
        · exact hall v h1

theorem parity_pages_drawn_mono (info : devinfo) (l : List request) (lo hi lo1 hi1 : Nat)
    (h : parity_pages_drawn info l lo hi) (hlo : lo1 ≤ lo) (hhi : hi ≤ hi1) :
    parity_pages_drawn info l lo1 hi1 := by
  intro rq hrq hd v hv
  have h1 := h rq hrq hd v hv
  omega

theorem parity_pages_drawn_append (info : devinfo) (l1 l2 : List request) (lo hi : Nat)
    (h1 : parity_pages_drawn info l1 lo hi) (h2 : parity_pages_drawn info l2 lo hi) :
    parity_pages_drawn info (l1 ++ l2) lo hi := by
  intro rq hrq hd v hv
  rcases List.mem_append.mp hrq with h | h
  · exact h1 rq h hd v hv
  · exact h2 rq h hd v hv

/-- One round of the disk loop: the clone it submits, if it is the parity
clone, carries pages drawn in this round. -/
theorem submit_clone_pages (info : devinfo) (b : bio) (e : endio) (m : machine) (hk0 : hook)
    (disk : Nat) :
    ∃ n new hk, submit_clone info b e (m, hk0) disk
        = some ({ m with next_page := n, submitted := m.submitted ++ new }, hk) ∧
      m.next_page ≤ n ∧ parity_pages_drawn info new m.next_page n := by
  by_cases hd : (disk : Int) = info.dead
  · refine ⟨m.next_page, [], hk0, ?_, le_refl _, ?_⟩
    · simp [submit_clone, hd]
    · intro rq hrq; cases hrq
  · by_cases hp : (disk : Int) = (info.members : Int) - 1
    · obtain ⟨vs, n, h, hle, _, hin⟩ :=
        parity_io_vec_pages info (bio_data_dir b == READ) b.bi_io_vec 0 0 m
      let clone : bio := ⟨b.bi_sector >>> frags_per_block_bits info, b.bi_rw,
        b.bi_vcnt <<< info.fragsize_bits, vs⟩
      refine ⟨n, [⟨disk, clone, some b, some e⟩], { hk0 with parity := some clone }, ?_, hle, ?_⟩
      · have hd1 : ¬ ((info.members : Int) - 1 = info.dead) := by rw [← hp]; exact hd
        simp only [submit_clone, hp, hd1, if_false, decide_True, if_true, h, clone]
      · intro rq hrq _ v hv
        rw [List.mem_singleton] at hrq
        subst hrq
        exact hin (by simp) v hv
    · let clone : bio := ⟨b.bi_sector >>> frags_per_block_bits info, b.bi_rw,
        b.bi_vcnt <<< info.fragsize_bits, data_io_vec info disk b.bi_io_vec⟩
      refine ⟨m.next_page, [⟨disk, clone, some b, some e⟩], hk0, ?_, le_refl _, ?_⟩
      · simp only [submit_clone, hd, if_false, hp, decide_False, clone]
        rfl
      · intro rq hrq hdisk
        rw [List.mem_singleton] at hrq
        subst hrq
        exact absurd hdisk hp

theorem submit_clones_pages (info : devinfo) (b : bio) (e : endio) :
    ∀ (disks : List Nat) (m : machine) (hk0 : hook),
      ∃ n new hk, submit_clones info b e disks (m, hk0)
          = some ({ m with next_page := n, submitted := m.submitted ++ new }, hk) ∧
        m.next_page ≤ n ∧ parity_pages_drawn info new m.next_page n := by
  intro disks
  induction disks with
  | nil =>
    intro m hk0
    exact ⟨m.next_page, [], hk0, by simp [submit_clones], le_refl _, fun rq hrq => (by cases hrq)⟩
  | cons d rest ih =>
    intro m hk0
    obtain ⟨n1, new1, hk1, h1, hle1, hp1⟩ := submit_clone_pages info b e m hk0 d
    obtain ⟨n2, new2, hk2, h2, hle2, hp2⟩ :=
      ih { m with next_page := n1, submitted := m.submitted ++ new1 } hk1
    have hle3 : n1 ≤ n2 := hle2
    refine ⟨n2, new1 ++ new2, hk2, ?_, by omega, ?_⟩
    · simp only [submit_clones, h1, h2, List.append_assoc]
    · exact parity_pages_drawn_append info new1 new2 _ _
        (parity_pages_drawn_mono info new1 _ _ _ _ hp1 (le_refl _) hle3)
        (parity_pages_drawn_mono info new2 _ _ _ _ hp2 hle1 (le_refl _))

/-- As built, `submit_rw` writes no memory, and the parity clone it submits
carries pages drawn from the allocator during the call. -/
theorem submit_rw_pages (m : machine) (b : bio) (synced : Nat) (hk : Option hook) (e : endio) :
    ∃ n new hk1, submit_rw m b synced hk e
        = some { m with next_page := n, submitted := m.submitted ++ new,
                        stacked := m.stacked ++
                          [⟨b, (m.info.members : Int) - (if m.info.dead ≥ 0 then 1 else 0), some hk1⟩] } ∧
      m.next_page ≤ n ∧ parity_pages_drawn m.info new m.next_page n := by
  cases hk with
  | none =>
    obtain ⟨n, new, hk1, h, hle, hp⟩ := submit_clones_pages m.info b e
      (List.range m.info.members) m ⟨b.bi_sector, b.bi_size, none, none⟩
    exact ⟨n, new, hk1, by simp only [submit_rw, h], hle, hp⟩
  | some h0 =>
    obtain ⟨n, new, hk1, h, hle, hp⟩ := submit_clones_pages m.info b e
      (List.range m.info.members) m { h0 with sector := b.bi_sector, length := b.bi_size }
    exact ⟨n, new, hk1, by simp only [submit_rw, h], hle, hp⟩

/-! ## Claims about parity on the data path -/

/-- C21 refuted as worded: a block-aligned write of the block in page 100, whose
data fragments have parity 1 in lane 0, is submitted through `submit_rw` on the
three-member device with the parity member alive.  The parity clone (member 2)
carries page 1, and lane 0 of that page holds 0 when the clone is submitted. -/
theorem parity_child_holds_no_parity :
    (submit_rw written_block (write_4k 0 100) 1 none endio.clone_endio).map
        (fun m => (m.submitted.map (fun rq => (rq.disk, rq.io.bi_io_vec.map (fun v => v.bv_page))),
          m.mem (kmap_atomic 1), parity_lane m.mem (kmap_atomic 100) 256 2 0))
      = some ([(0, [100]), (1, [100]), (2, [1])], 0, 1) := by
  decide

/-- C21, amended: as built (`NOCALC = 1`) `submit_rw` always returns, hands one
clone per live member to the devices, and gives the parity clone pages freshly
drawn from the allocator, but it runs no `compute_parity` (the call sits under
`if (!NOCALC && !is_read)`): page memory is exactly as it was before the call, so
the parity pages hold whatever the allocator left in them. -/
theorem parity_child_carries_fresh_pages (m : machine) (b : bio) (synced : Nat)
    (hk : Option hook) (e : endio) :
    ∃ m1 clones, submit_rw m b synced hk e = some m1 ∧
      m1.submitted = m.submitted ++ clones ∧
      striped m.info b e clones ∧
      parity_pages_drawn m.info clones m.next_page m1.next_page ∧
      m1.mem = m.mem := by
  obtain ⟨n, new, hk1, hrun, _, hp⟩ := submit_rw_pages m b synced hk e
  obtain ⟨n2, new2, hk2, hrun2, _, hstr⟩ := submit_rw_spec m b synced hk e
  rw [hrun] at hrun2
  have hsub := congrArg machine.submitted (Option.some.inj hrun2)
  have hn : new = new2 := List.append_cancel_left hsub
  rw [← hn] at hstr
  exact ⟨_, new, hrun, rfl, hstr, hp, rfl⟩

/-- The loop that `NOCALC` compiles out, on a one-page read of a device with a
dead data member, is the reconstruction step for the block in that page. -/
theorem read_fixup_one (info : devinfo) (parent parity : bio) (sv pv : bio_vec) (mem : memory)
    (hs : parent.bi_io_vec = [sv]) (hp : parity.bi_io_vec = [pv]) (hd : info.dead ≥ 0) :
    read_fixup info parent parity 1 0 mem
      = reconstruct info mem (kmap_atomic sv.bv_page) (kmap_atomic pv.bv_page) info.dead.toNat := by
  have h0 : (0 <<< info.fragsize_bits) &&& (PAGE_CACHE_SIZE - 1) = 0 := by
    rw [Nat.zero_shiftLeft, Nat.zero_and]
  show read_fixup info parent parity (0 + 1) 0 mem = _
  rw [read_fixup, hs, hp]
  show (match (if info.dead ≥ 0 then
      reconstruct info mem (kmap_atomic sv.bv_page)
        (kmap_atomic pv.bv_page + ((0 <<< info.fragsize_bits) &&& (PAGE_CACHE_SIZE - 1)) / sizeof_xor_t)
        info.dead.toNat
    else (verify_parity info mem (kmap_atomic sv.bv_page)
        (kmap_atomic pv.bv_page + ((0 <<< info.fragsize_bits) &&& (PAGE_CACHE_SIZE - 1)) / sizeof_xor_t)).map
          (fun _ => mem)) with
    | none => none
    | some mem2 => read_fixup info parent parity 0 (0 + 1) mem2) = _
  rw [if_pos hd, h0, Nat.zero_div, Nat.add_zero]
  cases reconstruct info mem (kmap_atomic sv.bv_page) (kmap_atomic pv.bv_page) info.dead.toNat <;> rfl

/-- C23 refuted as worded: with `maxbody = 500` and the device running, a head
announcing 501 bytes makes the reader return through `out:` with nothing
written to the control socket and no handler run, whereas a socket error in the
same state sends `NEED_SERVER` and leaves the reader in its loop. -/
theorem too_long_message_ends_reader :
    (incoming_read 500 (fresh (created 3 1 16)) (arrival.packet 501 inbound.PAUSE_REQUESTS)).map
        (fun p => (p.2, p.1.control, p.1.info.flags)) = some (reader.exited, [], 0) ∧
    (incoming_read 500 (fresh (created 3 1 16)) (arrival.head_error (-104))).map
        (fun p => (p.2, p.1.control)) = some (reader.reading, [message.NEED_SERVER]) := by
  decide

/-- A length below `2^31` is kept as it is by the local `int length`. -/
theorem int_of_word_small (x : Nat) (h : x < 2 ^ 31) : int_of_word x = (x : Int) := by
  unfold int_of_word
  have h1 : x % 2 ^ 32 = x := Nat.mod_eq_of_lt (by omega)
  rw [h1, if_pos h]

/-- A length of `2^31` or more is negative in the local `int length`. -/
theorem int_of_word_large (x : Nat) (h : 2 ^ 31 ≤ x) (h32 : x < 2 ^ 32) : int_of_word x < 0 := by
  unfold int_of_word
  have h1 : x % 2 ^ 32 = x := Nat.mod_eq_of_lt h32
  rw [h1, if_neg (by omega)]
  omega

/-- A head whose length is `2^31` or more is not taken for too long, whatever
the maximum (if not negative): the test `length > maxbody` is made on the
`int`, the body is read and, when that succeeds, the handler runs. -/
theorem huge_length_is_dispatched (maxbody : Int) (m : machine) (length : Nat) (msg : inbound)
    (hrun : running m.info = true) (hmax : 0 ≤ maxbody) (h : 2 ^ 31 ≤ length)
    (h32 : length < 2 ^ 32) :
    incoming_read maxbody m (arrival.packet length msg)
      = (incoming_message m msg).map (fun m1 => (m1, reader.reading)) := by
  have hneg := int_of_word_large length h h32
  have hno : ¬ (int_of_word length > maxbody) := by omega
  simp only [incoming_read, hrun, not_true_eq_false, if_false, hno]

/-- C23, amended: when the inbound reader, the device running, receives a head
whose body length exceeds `maxbody` and is below `2^31` (so that it is the same
number in the `int` the reader keeps it in), it dispatches no handler and does
not read the body; it leaves its loop through `message_too_long:` and `out:`
and returns, the state untouched and no `NEED_SERVER` sent.  A socket error on
the head, by contrast, asks the control channel for a fresh socket and the
reader resumes reading. -/
theorem too_long_message_exits (maxbody : Int) (m : machine) (length : Nat) (msg : inbound)
    (hrun : running m.info = true) (hlong : (length : Int) > maxbody) (hfit : length < 2 ^ 31) :
    incoming_read maxbody m (arrival.packet length msg) = some (m, reader.exited) ∧
    (∀ err, incoming_read maxbody m (arrival.body_error length err) = some (m, reader.exited)) ∧
    ∀ err, incoming_read maxbody m (arrival.head_error err)
      = some ({ m with control := m.control ++ [message.NEED_SERVER] }, reader.reading) := by
  have hl : int_of_word length > maxbody := by
    rw [int_of_word_small length hfit]
    exact hlong
  refine ⟨?_, ?_, ?_⟩
  · simp only [incoming_read, hrun, not_true_eq_false, if_false, hl, if_true]
  · intro err
    simp only [incoming_read, hrun, not_true_eq_false, if_false, hl, if_true]
  · intro err
    simp only [incoming_read, socket_error, hrun, not_true_eq_false, if_false, if_true]

/-- Witness for the amended C23: the running three-member device, `maxbody = 500`
and a head announcing 501 bytes. -/
theorem too_long_message_exits_witness :
    (running (fresh (created 3 1 16)).info = true ∧ ((501 : Nat) : Int) > 500 ∧
      (501 : Nat) < 2 ^ 31) ∧
    incoming_read 500 (fresh (created 3 1 16)) (arrival.packet 501 inbound.PAUSE_REQUESTS)
      = some (fresh (created 3 1 16), reader.exited) ∧
    (∀ err, incoming_read 500 (fresh (created 3 1 16)) (arrival.body_error 501 err)
      = some (fresh (created 3 1 16), reader.exited)) ∧
    ∀ err, incoming_read 500 (fresh (created 3 1 16)) (arrival.head_error err)
      = some ({ fresh (created 3 1 16) with
          control := (fresh (created 3 1 16)).control ++ [message.NEED_SERVER] }, reader.reading) :=
  ⟨⟨by decide, by decide, by decide⟩,
    too_long_message_exits 500 (fresh (created 3 1 16)) 501 inbound.PAUSE_REQUESTS
      (by decide) (by decide) (by decide)⟩

/-! ## Claims about the region number and the cache of unsynced regions -/

/-- The shift of a 32-bit word keeps the low bits of the shifted sector. -/
theorem shift_of_word (s j : Nat) (hj : j ≤ 32) :
    (s % 2 ^ 32) >>> j = (s >>> j) % 2 ^ (32 - j) := by
  rw [Nat.shiftRight_eq_div_pow, Nat.shiftRight_eq_div_pow]
  have h : (2 : Nat) ^ 32 = 2 ^ j * 2 ^ (32 - j) := by
    rw [← pow_add]
    congr 1
    omega
  rw [h, Nat.mod_mul_right_div_self]

/-- For a region size exponent from 9 to 40 the count of the shift is `R - 9`,
below 32. -/
theorem regnum_count (R : Nat) (h9 : 9 ≤ R) (h40 : R ≤ 40) :
    ((R + 2 ^ 32 - SECTOR_SHIFT) % 2 ^ 32) % 32 = R - 9 := by
  unfold SECTOR_SHIFT
  omega

/-- C25 does not hold of the code: `ddraid_map` stores `bio->bi_sector` in an
`unsigned` before it shifts.  For a region size exponent `R` from 9 to 40 (the
range in which the 32-bit shift is defined) the region number it computes is
`bi_sector >> (R - 9)` reduced modulo `2^(41 - R)`.  The two agree for start
sectors below `2^32`; for the start sector `2^32` and `R = 16` the code computes
region 0 where `bi_sector >> 7` is `2^25`. -/
theorem ddraid_map_regnum_wraps :
    (∀ (info : devinfo) (b : bio), 9 ≤ info.region_size_bits → info.region_size_bits ≤ 40 →
      ddraid_map_regnum info b
        = (b.bi_sector >>> (info.region_size_bits - 9)) % 2 ^ (41 - info.region_size_bits)) ∧
    (∀ (info : devinfo) (b : bio), 9 ≤ info.region_size_bits → info.region_size_bits ≤ 40 →
      b.bi_sector < 2 ^ 32 →
      ddraid_map_regnum info b = b.bi_sector >>> (info.region_size_bits - 9)) ∧
    ddraid_map_regnum (created 3 1 16) (write_4k (2 ^ 32) 100) = 0 ∧
    (write_4k (2 ^ 32) 100).bi_sector >>> (16 - 9) = 2 ^ 25 := by
  refine ⟨?_, ?_, ?_, ?_⟩
  · intro info b h9 h40
    unfold ddraid_map_regnum
    simp only []
    rw [regnum_count _ h9 h40, shift_of_word _ _ (by omega)]
    congr 2
    omega
  · intro info b h9 h40 hlt
    unfold ddraid_map_regnum
    simp only []
    rw [regnum_count _ h9 h40, Nat.mod_eq_of_lt hlt]
  · show ((2 ^ 32) % 2 ^ 32) >>> (((16 + 2 ^ 32 - SECTOR_SHIFT) % 2 ^ 32) % 32) = 0
    rw [regnum_count 16 (by norm_num) (by norm_num)]
    norm_num
  · show (2 ^ 32) >>> (16 - 9) = 2 ^ 25
    norm_num [Nat.shiftRight_eq_div_pow]

/-- C26: on a table with no record for `r`, handling `ADD_UNSYNCED` for `r` links
the record `(count -2, DESYNC, r, no waiter)` at the head of the bucket of `r`
and touches nothing else, so every other region is found as before; handling
`DEL_UNSYNCED` for `r` next unlinks that record, and the table is the original
one again. -/
theorem add_del_unsynced_round_trip (m : machine) (r : Nat)
    (h : find_region m.info r = none) :
    ∃ m1 m2, incoming_message m (inbound.ADD_UNSYNCED r) = some m1 ∧
      find_region m1.info r = some ⟨-2, DESYNC_FLAG, r, []⟩ ∧
      m1.info.hash = Function.update m.info.hash (hash_region r)
        (⟨-2, DESYNC_FLAG, r, []⟩ :: m.info.hash (hash_region r)) ∧
      (∀ y, y ≠ r → find_region m1.info y = find_region m.info y) ∧
      incoming_message m1 (inbound.DEL_UNSYNCED r) = some m2 ∧
      find_region m2.info r = none ∧
      m2.info.hash = m.info.hash := by
  obtain ⟨i1, hi1⟩ : ∃ i, i = insert_region { m.info with spare_region := false }
      ⟨-2, DESYNC_FLAG, r, []⟩ := ⟨_, rfl⟩
  have hadd : incoming_message m (inbound.ADD_UNSYNCED r) = some { m with info := i1 } := by
    simp only [incoming_message, h, hi1]
  have hfind : find_region i1 r = some ⟨-2, DESYNC_FLAG, r, []⟩ := by
    rw [hi1]
    exact find_region_insert_same _ _ _ _ _
  obtain ⟨i2, hi2⟩ : ∃ i, i = free_region_unlock
      (update_region i1 r (fun r => { r with flags := r.flags &&& not32 DESYNC_FLAG })) r :=
    ⟨_, rfl⟩
  have hdel : incoming_message { m with info := i1 } (inbound.DEL_UNSYNCED r)
      = some { m with info := i2 } := by
    simp only [incoming_message, hfind, region_count, if_true, hi2]
  have hhash : i2.hash = m.info.hash := by
    rw [hi2, hi1]
    simp [free_region_unlock, update_region, insert_region, modify_first]
  have hhash1 : i1.hash = Function.update m.info.hash (hash_region r)
      (⟨-2, DESYNC_FLAG, r, []⟩ :: m.info.hash (hash_region r)) := by
    rw [hi1]
    rfl
  refine ⟨_, _, hadd, hfind, hhash1, ?_, hdel, ?_, hhash⟩
  · intro y hy
    show find_region i1 y = find_region m.info y
    rw [hi1]
    exact find_region_insert_other _ _ _ _ _ y hy
  · have hc := find_region_congr _ m.info hhash r
    rw [h] at hc
    exact hc

/-- Witness for C26: region 5 on the table `ddraid_create` leaves, which is
empty. -/
theorem add_del_unsynced_round_trip_witness :
    find_region (fresh (created 3 1 16)).info 5 = none ∧
    ∃ m1 m2, incoming_message (fresh (created 3 1 16)) (inbound.ADD_UNSYNCED 5) = some m1 ∧
      find_region m1.info 5 = some ⟨-2, DESYNC_FLAG, 5, []⟩ ∧
      m1.info.hash = Function.update (fresh (created 3 1 16)).info.hash (hash_region 5)
        (⟨-2, DESYNC_FLAG, 5, []⟩ :: (fresh (created 3 1 16)).info.hash (hash_region 5)) ∧
      (∀ y, y ≠ 5 → find_region m1.info y = find_region (fresh (created 3 1 16)).info y) ∧
      incoming_message m1 (inbound.DEL_UNSYNCED 5) = some m2 ∧
      find_region m2.info 5 = none ∧
      m2.info.hash = (fresh (created 3 1 16)).info.hash :=
  ⟨by decide, add_del_unsynced_round_trip (fresh (created 3 1 16)) 5 (by decide)⟩

/-! ## Claims about change lists -/

/-- C27: `init_change_list`, when both allocations succeed, returns a list with
`count = 0`, `length = 1024` and the three fields it was given.  For a list
with `count < length` (and `length` slots allocated) an append whose
reallocation, if any, succeeds returns 0, stores the address at index
`count`, adds one to `count`, leaves every other entry and the three fields
alone, doubles `length` exactly when `count + 1 >= length`, stores inside the
allocated array, and leaves `count < length` again.  When the reallocation is
needed and fails, the append returns -1 and the list is as it was. -/
theorem append_change_list_keeps_room (cl : change_list) (a : Nat) (hok : change_list_ok cl) :
    (∀ c s t junk, ∃ cl0, init_change_list c s t true true junk = some cl0 ∧
      cl0.count = 0 ∧ cl0.length = 1024 ∧ cl0.chunksize_bits = c ∧ cl0.src_snap = s ∧
      cl0.tgt_snap = t ∧ change_list_ok cl0) ∧
    (∃ cl1, append_change_list cl a true = some (0, cl1) ∧
      cl1.chunks cl.count = a ∧ cl1.count = cl.count + 1 ∧
      (∀ i, i ≠ cl.count → cl1.chunks i = cl.chunks i) ∧
      cl1.chunksize_bits = cl.chunksize_bits ∧ cl1.src_snap = cl.src_snap ∧
      cl1.tgt_snap = cl.tgt_snap ∧
      cl1.length = (if cl.count + 1 ≥ cl.length then cl.length * 2 else cl.length) ∧
      cl.count < cl1.room ∧ change_list_ok cl1) ∧
    (cl.count + 1 ≥ cl.length → append_change_list cl a false = some (-1, cl)) ∧
    (cl.count + 1 < cl.length →
      append_change_list cl a false = append_change_list cl a true) := by
  obtain ⟨hlt, hroom⟩ := hok
  refine ⟨?_, ?_, ?_, ?_⟩
  · intro c s t junk
    exact ⟨_, rfl, rfl, rfl, rfl, rfl, rfl, (by show (0 : Nat) < CHUNK_ARRAY_INIT; decide), rfl⟩
  · by_cases hg : cl.count + 1 ≥ cl.length
    · have hin : cl.count < cl.length * 2 := by omega
      refine ⟨{ cl with length := cl.length * 2, room := cl.length * 2,
                        chunks := Function.update cl.chunks cl.count a,
                        count := cl.count + 1 }, ?_, ?_, rfl, ?_, rfl, rfl, rfl, ?_, hin, ?_⟩
      · simp only [append_change_list, hg, if_true, not_true_eq_false, if_false, hin]
      · exact Function.update_same _ _ _
      · intro i hi
        exact Function.update_noteq hi _ _
      · rw [if_pos hg]
      · exact ⟨by show cl.count + 1 < cl.length * 2; omega, rfl⟩
    · have hin : cl.count < cl.room := by omega
      refine ⟨{ cl with chunks := Function.update cl.chunks cl.count a,
                        count := cl.count + 1 }, ?_, ?_, rfl, ?_, rfl, rfl, rfl, ?_, hin, ?_⟩
      · simp only [append_change_list, hg, if_false, hin, if_true]
      · exact Function.update_same _ _ _
      · intro i hi
        exact Function.update_noteq hi _ _
      · rw [if_neg hg]
      · exact ⟨by show cl.count + 1 < cl.length; omega, hroom⟩
  · intro hg
    simp only [append_change_list, hg, if_true, Bool.false_eq_true, not_false_eq_true]
  · intro hg
    have hg1 : ¬ (cl.count + 1 ≥ cl.length) := by omega
    simp only [append_change_list, hg1, if_false]

/-- Witness for C27: the first append to the list `init_change_list` returns. -/
theorem append_change_list_keeps_room_witness :
    change_list_ok first_list ∧
    (∀ c s t junk, ∃ cl0, init_change_list c s t true true junk = some cl0 ∧
      cl0.count = 0 ∧ cl0.length = 1024 ∧ cl0.chunksize_bits = c ∧ cl0.src_snap = s ∧
      cl0.tgt_snap = t ∧ change_list_ok cl0) ∧
    (∃ cl1, append_change_list first_list 7 true = some (0, cl1) ∧
      cl1.chunks first_list.count = 7 ∧ cl1.count = first_list.count + 1 ∧
      (∀ i, i ≠ first_list.count → cl1.chunks i = first_list.chunks i) ∧
      cl1.chunksize_bits = first_list.chunksize_bits ∧ cl1.src_snap = first_list.src_snap ∧
      cl1.tgt_snap = first_list.tgt_snap ∧
      cl1.length = (if first_list.count + 1 ≥ first_list.length then first_list.length * 2
        else first_list.length) ∧
      first_list.count < cl1.room ∧ change_list_ok cl1) ∧
    (first_list.count + 1 ≥ first_list.length →
      append_change_list first_list 7 false = some (-1, first_list)) ∧
    (first_list.count + 1 < first_list.length →
      append_change_list first_list 7 false = append_change_list first_list 7 true) :=
  ⟨⟨by decide, rfl⟩, append_change_list_keeps_room first_list 7 ⟨by decide, rfl⟩⟩

/-! ## Construction lemmas -/

theorem argc_word (argc : Nat) (h2 : 2 ≤ argc) (h32 : argc < 2 ^ 32) :
    (argc + 2 ^ 32 - 2) % 2 ^ 32 = argc - 2 := by
  have : argc + 2 ^ 32 - 2 = (argc - 2) + 2 ^ 32 := by omega
  rw [this, Nat.add_mod_right, Nat.mod_eq_of_lt (by omega)]

theorem low_bits_small : ∀ n, 1 ≤ n → n ≤ 9 →
    (low_bits n = 0 ↔ n = 1 ∨ n = 2 ∨ n = 4 ∨ n = 8) := by
  intro n h1 h9
  interval_cases n <;> decide

theorem fls_small : ∀ n, 1 ≤ n → n ≤ 9 → low_bits n = 0 → 2 ^ (((fls n : Nat) : Int) - 1).toNat = n := by
  intro n h1 h9
  interval_cases n <;> decide

theorem ddraid_create_small (argc : Nat) (n len : Nat) (h1 : 1 ≤ n) (h9 : n ≤ 9) (h2 : 2 ≤ argc) (h32 : argc < 2 ^ 32) :
    ddraid_create argc ((n : Int) + 1) len =
      if n + 1 > argc - 2 then some (create_result.eek (- EINVAL))
      else if len % n ≠ 0 then some (create_result.eek (- EINVAL))
      else if low_bits n ≠ 0 then some (create_result.eek (- EINVAL))
      else some (create_result.checked (((fls n : Nat) : Int) - 1).toNat (len / n)) := by
  have hw : (((n : Int) + 1) % 2 ^ 32).toNat = n + 1 := by
    have : ((n : Int) + 1) % 2 ^ 32 = (n : Int) + 1 := Int.emod_eq_of_lt (by omega) (by omega)
    rw [this]; omega
  have hn : (((n : Int) + 1 - 1) % 2 ^ 32).toNat = n := by
    have : ((n : Int) + 1 - 1) % 2 ^ 32 = (n : Int) := by
      rw [add_sub_cancel_right]; exact Int.emod_eq_of_lt (by omega) (by omega)
    rw [this]; omega
  have hmax : ¬ ((n : Int) + 1 > (MAX_MEMBERS : Int)) := by
    unfold MAX_MEMBERS; push_cast; omega
  have hlt2 : ¬ ((n : Int) + 1 < 2) := by omega
  have hdead : ¬ ((-1 : Int) ≥ (n : Int) + 1) := by omega
  have hn0 : ¬ (n = 0) := by omega
  unfold ddraid_create sector_div
  simp only [hw, hn, argc_word argc h2 h32, hmax, false_or, hn0, if_false, hlt2, hdead]
  rfl

theorem not_pow_small : ∀ n, 1 ≤ n → n ≤ 9 → low_bits n ≠ 0 → ¬ ∃ k : Nat, n = 2 ^ k := by
  intro n h1 h9 hb ⟨k, hk⟩
  have hk4 : k < 4 := by
    by_contra hge
    have : 2 ^ 4 ≤ 2 ^ k := Nat.pow_le_pow_right (by norm_num) (by omega)
    omega
  have hn : n = 1 ∨ n = 2 ∨ n = 4 ∨ n = 8 := by
    interval_cases k <;> simp at hk <;> omega
  exact hb ((low_bits_small n h1 h9).mpr hn)

theorem eek_unchecked (e : Int) : ¬ ∃ k ml, create_result.eek e = create_result.checked k ml := by
  rintro ⟨k, ml, h⟩
  cases h

theorem create_rejected (argc : Nat) (members : Int) (len : Nat)
    (hrun : ddraid_create argc members len = some (create_result.eek (- EINVAL)))
    (hbad : ¬ (create_valid members len ∧ members ≤ (MAX_MEMBERS : Int) ∧ members ≤ (argc : Int) - 2)) :
    ∃ res, ddraid_create argc members len = some res ∧
      ((∃ k ml, res = create_result.checked k ml) ↔
        create_valid members len ∧ members ≤ (MAX_MEMBERS : Int) ∧ members ≤ (argc : Int) - 2) ∧
      (∀ k ml, res = create_result.checked k ml →
        members - 1 = 2 ^ k ∧ (ml : Int) * (members - 1) = len) ∧
      ((¬ ∃ k ml, res = create_result.checked k ml) → res = create_result.eek (- EINVAL)) := by
  refine ⟨_, hrun, ⟨fun h => absurd h (eek_unchecked _), fun h => absurd h hbad⟩, ?_, fun _ => rfl⟩
  intro k ml h
  cases h

theorem create_main (argc : Nat) (members : Int) (len : Nat) (h2 : 2 ≤ argc) (h32 : argc < 2 ^ 32)
    (hlo : -(2 ^ 31) ≤ members) (hhi : members < 2 ^ 31) (hne : members ≠ 1) :
    ∃ res, ddraid_create argc members len = some res ∧
      ((∃ k ml, res = create_result.checked k ml) ↔
        create_valid members len ∧ members ≤ (MAX_MEMBERS : Int) ∧ members ≤ (argc : Int) - 2) ∧
      (∀ k ml, res = create_result.checked k ml →
        members - 1 = 2 ^ k ∧ (ml : Int) * (members - 1) = len) ∧
      ((¬ ∃ k ml, res = create_result.checked k ml) → res = create_result.eek (- EINVAL)) := by
  by_cases hmax : members > (MAX_MEMBERS : Int)
  · apply create_rejected
    · unfold ddraid_create
      rw [if_pos (Or.inl hmax)]
    · intro h
      omega
  · have h10 : members ≤ 10 := by
      unfold MAX_MEMBERS at hmax
      push_cast at hmax
      omega
    by_cases hpos : members ≤ 0
    · apply create_rejected
      · unfold ddraid_create sector_div
        by_cases hc : members > (MAX_MEMBERS : Int) ∨
            (members % 2 ^ 32).toNat > (argc + 2 ^ 32 - 2) % 2 ^ 32
        · rw [if_pos hc]
        · rw [if_neg hc]
          have hb : ¬ (((members - 1) % 2 ^ 32).toNat = 0) := by omega
          have hlt : members < 2 := by omega
          simp only [hb, if_false, hlt, true_or, if_true]
          split <;> rfl
      · intro h
        have := h.1.1
        omega
    · obtain ⟨n, hn⟩ : ∃ n : Nat, members = (n : Int) + 1 := ⟨(members - 1).toNat, by omega⟩
      subst hn
      have h1 : 1 ≤ n := by omega
      have h9 : n ≤ 9 := by omega
      have hrun := ddraid_create_small argc n len h1 h9 h2 h32
      have hdvd : ((n : Int) + 1 - 1) ∣ (len : Int) ↔ len % n = 0 := by
        rw [add_sub_cancel_right, Int.natCast_dvd_natCast, Nat.dvd_iff_mod_eq_zero]
      by_cases ha : n + 1 > argc - 2
      · rw [if_pos ha] at hrun
        apply create_rejected _ _ _ hrun
        intro h
        have := h.2.2
        omega
      · rw [if_neg ha] at hrun
        by_cases hr : len % n ≠ 0
        · rw [if_pos hr] at hrun
          apply create_rejected _ _ _ hrun
          intro h
          exact hr (hdvd.mp h.1.2.2)
        · rw [if_neg hr] at hrun
          by_cases hb : low_bits n ≠ 0
          · rw [if_pos hb] at hrun
            apply create_rejected _ _ _ hrun
            intro h
            obtain ⟨k, hk⟩ := h.1.2.1
            apply not_pow_small n h1 h9 hb
            refine ⟨k, ?_⟩
            rw [add_sub_cancel_right] at hk
            exact_mod_cast hk
          · rw [if_neg hb] at hrun
            have hb0 : low_bits n = 0 := not_not.mp hb
            have hk := fls_small n h1 h9 hb0
            have hr0 : len % n = 0 := not_not.mp hr
            refine ⟨_, hrun, ⟨fun _ => ⟨⟨by omega, ⟨(((fls n : Nat) : Int) - 1).toNat, ?_⟩, hdvd.mpr hr0⟩, ?_, ?_⟩,
              fun _ => ⟨_, _, rfl⟩⟩, ?_, fun h => absurd ⟨_, _, rfl⟩ h⟩
            · rw [add_sub_cancel_right]
              exact_mod_cast hk.symm
            · unfold MAX_MEMBERS
              push_cast
              omega
            · omega
            · intro k ml h
              cases h
              rw [add_sub_cancel_right]
              refine ⟨by exact_mod_cast hk.symm, ?_⟩
              have := Nat.div_mul_cancel (Nat.dvd_of_mod_eq_zero hr0)
              exact_mod_cast this

theorem create_one (argc len : Nat) (h3 : 3 ≤ argc) (h32 : argc < 2 ^ 32) :
    ddraid_create argc 1 len = none := by
  have hc : ¬ ((1 : Int) > (MAX_MEMBERS : Int) ∨
      ((1 : Int) % 2 ^ 32).toNat > (argc + 2 ^ 32 - 2) % 2 ^ 32) := by
    rw [argc_word argc (by omega) h32]
    have h1 : ((1 : Int) % 2 ^ 32).toNat = 1 := by decide
    rw [h1]
    intro h
    rcases h with h | h
    · exact absurd h (by decide)
    · omega
  unfold ddraid_create
  rw [if_neg hc]
  rfl

/-! ## Claims about construction -/

/-- C24 does not hold of the code: `ddraid_create` divides the target length by
`members - 1` before it tests `members < 2`, so with one member (and the
arguments it needs) the checks end in a division by zero, not in `-EINVAL`.
For every other `int members`, given at least two arguments, the checks return:
they pass exactly when `members >= 2`, `members - 1 = 2^k`, the length is a
multiple of `members - 1`, and besides `members <= MAX_MEMBERS` and
`members <= argc - 2`; then `k` is the order and the member length the quotient;
in every other case they end at `eek:` with `-EINVAL`. -/
theorem ddraid_create_divides_before_it_checks :
    (∀ argc len : Nat, 3 ≤ argc → argc < 2 ^ 32 → ddraid_create argc 1 len = none) ∧
    (∀ (argc : Nat) (members : Int) (len : Nat), 2 ≤ argc → argc < 2 ^ 32 →
      -(2 ^ 31) ≤ members → members < 2 ^ 31 → members ≠ 1 →
      ∃ res, ddraid_create argc members len = some res ∧
        ((∃ k ml, res = create_result.checked k ml) ↔
          create_valid members len ∧ members ≤ (MAX_MEMBERS : Int) ∧
            members ≤ (argc : Int) - 2) ∧
        (∀ k ml, res = create_result.checked k ml →
          members - 1 = 2 ^ k ∧ (ml : Int) * (members - 1) = len) ∧
        ((¬ ∃ k ml, res = create_result.checked k ml) → res = create_result.eek (- EINVAL))) :=
  ⟨create_one, create_main⟩

/-! ## The device as built -/

/-- Behind the `NOSYNC` block, which the device as built never passes, the
write path does release the region lock on a record with count -1 and no
waiter: at `queue_query:` on the first write to a region. -/
theorem queue_query_unlocks_without_waiter :
    (ddraid_map_write_unlocks (fresh (created 3 1 16)) (write_4k 0 100) 0).map
        (fun i => find_region i 0)
      = [none, some ⟨-1, 0, 0, []⟩, some ⟨-1, 0, 0, [write_4k 0 100]⟩,
          some ⟨-1, 0, 0, [write_4k 0 100]⟩] := by
  decide

/-! ## Claims about the device as built -/

end ddraid
